import Mathlib

/-!
Verification of the Game of Life engine in `src/main.cpp`.

The engine stores an N times N board (N a power of two, N at most 4096) in a
flat array indexed by a Morton / Z-order key: the bits of the x coordinate
occupy the even bit positions of the key and the bits of y the odd positions.
A single cursor (`idx`) walks the board via masked arithmetic on the key, and
one generation is advanced in place by a sparse evaluate pass followed by a
full commit pass.

All machine integers are modelled as `Nat` with explicit wrap-around where the
C code relies on unsigned overflow (noted at each definition).
-/

namespace GoL

/-- Cell states, from `enum Cell` in the source.  The numeric codes matter:
`Dead = 0`, `Alive = 1`, `Birthing = 2`, `Dying = 3`, `DeadVisited = 4`. -/
inductive Cell where
  | Dead
  | Alive
  | Dying
  | Birthing
  | DeadVisited
deriving DecidableEq, Repr

/-- Numeric code of a cell state, exactly the values of `enum Cell`. -/
def Cell.code : Cell → Nat
  | .Dead => 0
  | .Alive => 1
  | .Dying => 3
  | .Birthing => 2
  | .DeadVisited => 4

/-- The `delta_swap` bit trick from the source (`uint32_t delta_swap`).
All intermediate values stay below `2 ^ 32` when `a` and `mask` do, so no
explicit truncation is required: the left shift feeds into an AND with
`mask`. -/
def delta_swap (a mask shift : Nat) : Nat :=
  let b := ((a <<< shift) ^^^ a) &&& mask
  a ^^^ b ^^^ (b >>> shift)

/-- The bit-interleaving network `interleaveXY` from the source.  The C
function takes `uint16_t` arguments, so the inputs are reduced mod `2 ^ 16`
first; the result is the Morton key `y_15 x_15 ... y_0 x_0` (x in even bits). -/
def interleaveXY (x y : Nat) : Nat :=
  let x := x % 65536
  let y := y % 65536
  let res := (y <<< 16) ||| x
  let res := delta_swap res 0b00000000111111110000000000000000 8
  let res := delta_swap res 0b00001111000000000000111100000000 4
  let res := delta_swap res 0b00110000001100000011000000110000 2
  let res := delta_swap res 0b01000100010001000100010001000100 1
  res

/-- Even-bit mask `MASK_X` of class `GameField`. -/
def MASK_X : Nat := 0b01010101010101010101010101010101

/-- Odd-bit mask `MASK_Y` of class `GameField`. -/
def MASK_Y : Nat := 0b10101010101010101010101010101010

/-- Reference Morton interleave, defined by structural recursion on a fuel
argument (`k` bits of each coordinate; bits of `x` and `y` beyond the fuel
are dropped).  Bit `2i` of the result is bit `i` of `x`, bit `2i+1` is bit
`i` of `y`. -/
def interleaveAux : Nat → Nat → Nat → Nat
  | 0, _, _ => 0
  | k + 1, x, y => x % 2 + 2 * (y % 2) + 4 * interleaveAux k (x / 2) (y / 2)

/-- The 32-bit Morton key of a 16-bit coordinate pair. -/
def key (x y : Nat) : Nat := interleaveAux 16 x y

/-- Even-bit extraction with fuel: inverse of the x lane of `interleaveAux`. -/
def deXAux : Nat → Nat → Nat
  | 0, _ => 0
  | k + 1, i => i % 2 + 2 * deXAux k (i / 4)

/-- Decode the x coordinate (even bits) of a Morton key. -/
def deX (i : Nat) : Nat := deXAux 16 i

/-- Decode the y coordinate (odd bits) of a Morton key. -/
def deY (i : Nat) : Nat := deXAux 16 (i / 2)

theorem interleaveAux_testBit (k : Nat) : ∀ x y j, (interleaveAux k x y).testBit j =
    (decide (j < 2 * k) && (if j % 2 = 0 then x.testBit (j / 2) else y.testBit (j / 2))) := by
  induction k with
  | zero =>
    intro x y j
    simp [interleaveAux, Nat.zero_testBit]
  | succ k ih =>
    intro x y j
    match j with
    | 0 =>
      have h2 : (x % 2 + 2 * (y % 2) + 4 * interleaveAux k (x / 2) (y / 2)) % 2 = x % 2 := by
        omega
      simp only [interleaveAux, Nat.testBit_to_div_mod, pow_zero, Nat.div_one, h2]
      simp [Nat.testBit_to_div_mod]
    | 1 =>
      have hx : x % 2 < 2 := Nat.mod_lt _ (by norm_num)
      have h2 : (x % 2 + 2 * (y % 2) + 4 * interleaveAux k (x / 2) (y / 2)) / 2 % 2 = y % 2 := by
        omega
      simp only [interleaveAux, Nat.testBit_to_div_mod, pow_one, h2]
      simp [Nat.testBit_to_div_mod]
      omega
    | j + 2 =>
      have h4 : (x % 2 + 2 * (y % 2) + 4 * interleaveAux k (x / 2) (y / 2)) / 2 / 2 =
          interleaveAux k (x / 2) (y / 2) := by omega
      show (interleaveAux (k + 1) x y).testBit (j + 2) = _
      rw [show interleaveAux (k + 1) x y =
        x % 2 + 2 * (y % 2) + 4 * interleaveAux k (x / 2) (y / 2) from rfl]
      rw [Nat.testBit_succ, Nat.testBit_succ, h4, ih]
      have e1 : (j + 2) % 2 = j % 2 := by omega
      have e2 : (j + 2) / 2 = j / 2 + 1 := by omega
      rw [e1, e2]
      have e3 : decide (j < 2 * k) = decide (j + 2 < 2 * (k + 1)) := by
        simp [decide_eq_decide]; omega
      rw [← e3]
      congr 1
      split
      · exact (Nat.testBit_succ x (j / 2)).symm
      · exact (Nat.testBit_succ y (j / 2)).symm

theorem interleaveAux_lt (k : Nat) : ∀ x y, interleaveAux k x y < 4 ^ k := by
  induction k with
  | zero => intro x y; simp [interleaveAux]
  | succ k ih =>
    intro x y
    have := ih (x / 2) (y / 2)
    have hx : x % 2 < 2 := Nat.mod_lt _ (by norm_num)
    have hy : y % 2 < 2 := Nat.mod_lt _ (by norm_num)
    have : 4 ^ (k + 1) = 4 * 4 ^ k := by ring
    simp only [interleaveAux]
    omega

theorem interleaveAux_zero (k : Nat) : interleaveAux k 0 0 = 0 := by
  induction k with
  | zero => rfl
  | succ k ih => simp [interleaveAux, ih]

/-- `interleaveAux` only looks at the low `k` bits of its arguments. -/
theorem interleaveAux_mod (k : Nat) : ∀ x y,
    interleaveAux k (x % 2 ^ k) (y % 2 ^ k) = interleaveAux k x y := by
  induction k with
  | zero => intro x y; rfl
  | succ k ih =>
    intro x y
    simp only [interleaveAux]
    have h1 : x % 2 ^ (k + 1) % 2 = x % 2 := by
      conv_rhs => rw [← Nat.mod_mod_of_dvd x (by exact ⟨2 ^ k, by ring⟩ : (2:Nat) ∣ 2 ^ (k+1))]
    have h2 : y % 2 ^ (k + 1) % 2 = y % 2 := by
      conv_rhs => rw [← Nat.mod_mod_of_dvd y (by exact ⟨2 ^ k, by ring⟩ : (2:Nat) ∣ 2 ^ (k+1))]
    have h3 : x % 2 ^ (k + 1) / 2 = x / 2 % 2 ^ k := by
      rw [Nat.pow_succ, mul_comm, Nat.mod_mul_right_div_self]
    have h4 : y % 2 ^ (k + 1) / 2 = y / 2 % 2 ^ k := by
      rw [Nat.pow_succ, mul_comm, Nat.mod_mul_right_div_self]
    rw [h1, h2, h3, h4, ih]

theorem key_testBit (x y j : Nat) : (key x y).testBit j =
    (decide (j < 32) && (if j % 2 = 0 then x.testBit (j / 2) else y.testBit (j / 2))) :=
  interleaveAux_testBit 16 x y j

theorem key_lt (x y : Nat) : key x y < 2 ^ 32 := by
  have := interleaveAux_lt 16 x y
  norm_num [key] at this ⊢
  omega

/-- Lane-wise AND: bitwise AND of Morton keys is the Morton key of the
coordinate-wise ANDs. -/
theorem key_and (a b c d : Nat) : key a b &&& key c d = key (a &&& c) (b &&& d) := by
  apply Nat.eq_of_testBit_eq
  intro j
  simp only [Nat.testBit_and, key_testBit]
  by_cases h32 : j < 32 <;> by_cases h2 : j % 2 = 0 <;>
    simp [h32, h2, Nat.testBit_and, Bool.and_comm, Bool.and_assoc, Bool.and_left_comm]

/-- Lane-wise OR for Morton keys. -/
theorem key_or (a b c d : Nat) : key a b ||| key c d = key (a ||| c) (b ||| d) := by
  apply Nat.eq_of_testBit_eq
  intro j
  simp only [Nat.testBit_or, key_testBit]
  by_cases h32 : j < 32 <;> by_cases h2 : j % 2 = 0 <;>
    simp [h32, h2, Nat.testBit_or]

/-- Lane-wise XOR for Morton keys. -/
theorem key_xor (a b c d : Nat) : key a b ^^^ key c d = key (a ^^^ c) (b ^^^ d) := by
  apply Nat.eq_of_testBit_eq
  intro j
  simp only [Nat.testBit_xor, key_testBit]
  by_cases h32 : j < 32 <;> by_cases h2 : j % 2 = 0 <;>
    simp [h32, h2, Nat.testBit_xor]

theorem MASK_X_eq_key : MASK_X = key 65535 0 := by decide

theorem MASK_Y_eq_key : MASK_Y = key 0 65535 := by decide

/-! Correctness of the delta-swap network: `interleaveXY` computes the Morton
key.  Both the network and the reference interleave are linear over XOR, so it
suffices to check the 32 basis vectors. -/

theorem shiftLeft_xor_distrib (a b s : Nat) :
    (a ^^^ b) <<< s = (a <<< s) ^^^ (b <<< s) := by
  apply Nat.eq_of_testBit_eq
  intro j
  simp only [Nat.testBit_shiftLeft, Nat.testBit_xor]
  cases decide (s ≤ j) <;> simp

theorem shiftRight_xor_distrib (a b s : Nat) :
    (a ^^^ b) >>> s = (a >>> s) ^^^ (b >>> s) := by
  apply Nat.eq_of_testBit_eq
  intro j
  simp [Nat.testBit_shiftRight, Nat.testBit_xor]

theorem xor_left_comm (a b c : Nat) : a ^^^ (b ^^^ c) = b ^^^ (a ^^^ c) := by
  rw [← Nat.xor_assoc, Nat.xor_comm a b, Nat.xor_assoc]

theorem delta_swap_xor (a b m s : Nat) :
    delta_swap (a ^^^ b) m s = delta_swap a m s ^^^ delta_swap b m s := by
  unfold delta_swap
  simp only [shiftLeft_xor_distrib, shiftRight_xor_distrib, Nat.and_xor_distrib_right]
  simp only [Nat.xor_assoc]
  simp only [Nat.xor_comm, xor_left_comm]

/-- The four delta-swap layers of `interleaveXY`, as a function of the packed
word `(y <<< 16) ||| x`. -/
def netFn (a : Nat) : Nat :=
  delta_swap (delta_swap (delta_swap (delta_swap a
    0b00000000111111110000000000000000 8)
    0b00001111000000000000111100000000 4)
    0b00110000001100000011000000110000 2)
    0b01000100010001000100010001000100 1

theorem interleaveXY_eq_netFn (x y : Nat) :
    interleaveXY x y = netFn (((y % 65536) <<< 16) ||| (x % 65536)) := rfl

/-- Target of the network: Morton key of the low and high half of the word. -/
def mortonOfWord (a : Nat) : Nat := key (a &&& 65535) (a >>> 16)

theorem netFn_xor (a b : Nat) : netFn (a ^^^ b) = netFn a ^^^ netFn b := by
  unfold netFn
  rw [delta_swap_xor, delta_swap_xor, delta_swap_xor, delta_swap_xor]

theorem mortonOfWord_xor (a b : Nat) :
    mortonOfWord (a ^^^ b) = mortonOfWord a ^^^ mortonOfWord b := by
  unfold mortonOfWord
  rw [Nat.and_xor_distrib_right, shiftRight_xor_distrib, key_xor]

theorem two_pow_xor_eq_add (n b : Nat) (h : b < 2 ^ n) : 2 ^ n ^^^ b = 2 ^ n + b := by
  apply Nat.eq_of_testBit_eq
  intro j
  rcases lt_trichotomy j n with hj | rfl | hj
  · have h1 : (2 ^ n).testBit j = false := Nat.testBit_two_pow_of_ne (by omega)
    have h2 : (2 ^ n + b).testBit j = b.testBit j := by
      simp only [Nat.testBit_to_div_mod]
      have hd : (2 ^ n + b) / 2 ^ j = 2 ^ (n - j) + b / 2 ^ j := by
        rw [show (2:Nat) ^ n = 2 ^ (n - j) * 2 ^ j by rw [← pow_add]; congr 1; omega]
        rw [Nat.add_comm, Nat.add_mul_div_right _ _ (Nat.pos_pow_of_pos j (by norm_num))]
        omega
      rw [hd]
      have : (2:Nat) ^ (n - j) % 2 = 0 := by
        have : n - j ≠ 0 := by omega
        rcases Nat.exists_eq_succ_of_ne_zero this with ⟨m, hm⟩
        rw [hm, pow_succ]
        omega
      rw [decide_eq_decide]
      omega
    simp [Nat.testBit_xor, h1, h2]
  · have h1 : (2 ^ j).testBit j = true := Nat.testBit_two_pow_self
    have hb : b.testBit j = false := Nat.testBit_eq_false_of_lt h
    have h2 : (2 ^ j + b).testBit j = true := by
      simp only [Nat.testBit_to_div_mod]
      have hd : (2 ^ j + b) / 2 ^ j = 1 := by
        rw [Nat.add_comm, Nat.add_div_right _ (Nat.pos_pow_of_pos j (by norm_num))]
        rw [Nat.div_eq_of_lt h]
      simp [hd]
    simp [Nat.testBit_xor, h1, hb, h2]
  · have h1 : (2 ^ n).testBit j = false := Nat.testBit_two_pow_of_ne (by omega)
    have hb : b.testBit j = false :=
      Nat.testBit_eq_false_of_lt (lt_of_lt_of_le h (Nat.pow_le_pow_right (by norm_num) (by omega)))
    have h2 : (2 ^ n + b).testBit j = false := by
      apply Nat.testBit_eq_false_of_lt
      calc 2 ^ n + b < 2 ^ n + 2 ^ n := by omega
        _ = 2 ^ (n + 1) := by rw [pow_succ]; ring
        _ ≤ 2 ^ j := Nat.pow_le_pow_right (by norm_num) (by omega)
    simp [Nat.testBit_xor, h1, hb, h2]

/-- Two XOR-linear functions agreeing on `0` and on all basis vectors below
`2 ^ n` agree on `[0, 2 ^ n)`. -/
theorem linear_agree (f g : Nat → Nat)
    (hf : ∀ a b, f (a ^^^ b) = f a ^^^ f b) (hg : ∀ a b, g (a ^^^ b) = g a ^^^ g b)
    (h0 : f 0 = g 0) :
    ∀ n, (∀ i, i < n → f (2 ^ i) = g (2 ^ i)) → ∀ a, a < 2 ^ n → f a = g a := by
  intro n
  induction n with
  | zero =>
    intro _ a ha
    have : a = 0 := by omega
    subst this
    exact h0
  | succ n ih =>
    intro hbasis a ha
    by_cases hlt : a < 2 ^ n
    · exact ih (fun i hi => hbasis i (by omega)) a hlt
    · have hpow : (2:Nat) ^ (n + 1) = 2 ^ n + 2 ^ n := by rw [pow_succ]; ring
      have hsub : a - 2 ^ n < 2 ^ n := by omega
      have hdecomp : 2 ^ n ^^^ (a - 2 ^ n) = a := by
        rw [two_pow_xor_eq_add n _ hsub]; omega
      rw [← hdecomp, hf, hg, hbasis n (by omega),
        ih (fun i hi => hbasis i (by omega)) _ hsub]

theorem netFn_basis : ∀ i, i < 32 → netFn (2 ^ i) = mortonOfWord (2 ^ i) := by decide

theorem netFn_zero : netFn 0 = mortonOfWord 0 := by decide

theorem netFn_eq_mortonOfWord (a : Nat) (ha : a < 2 ^ 32) : netFn a = mortonOfWord a :=
  linear_agree netFn mortonOfWord netFn_xor mortonOfWord_xor netFn_zero 32 netFn_basis a ha

theorem word_low (x y : Nat) (hx : x < 65536) : (((y <<< 16) ||| x) &&& 65535) = x := by
  apply Nat.eq_of_testBit_eq
  intro j
  have h65535 : (65535 : Nat) = 2 ^ 16 - 1 := by norm_num
  simp only [Nat.testBit_and, Nat.testBit_or, Nat.testBit_shiftLeft, h65535,
    Nat.testBit_two_pow_sub_one]
  by_cases hj : j < 16
  · have : decide (16 ≤ j) = false := by simp; omega
    simp [hj, this]
  · have hxj : x.testBit j = false :=
      Nat.testBit_eq_false_of_lt
        (lt_of_lt_of_le (show x < 2 ^ 16 by omega) (Nat.pow_le_pow_right (by norm_num) (by omega)))
    simp [hj, hxj]

theorem word_high (x y : Nat) (hx : x < 65536) (hy : y < 65536) :
    (((y <<< 16) ||| x) >>> 16) = y := by
  apply Nat.eq_of_testBit_eq
  intro j
  have hxj : x.testBit (16 + j) = false :=
    Nat.testBit_eq_false_of_lt
      (lt_of_lt_of_le (show x < 2 ^ 16 by omega) (Nat.pow_le_pow_right (by norm_num) (by omega)))
  simp [Nat.testBit_shiftRight, Nat.testBit_or, Nat.testBit_shiftLeft, hxj]

/-- Main codec theorem: the delta-swap network computes the Morton key. -/
theorem interleaveXY_eq_key (x y : Nat) : interleaveXY x y = key x y := by
  have hx : x % 65536 < 65536 := Nat.mod_lt _ (by norm_num)
  have hy : y % 65536 < 65536 := Nat.mod_lt _ (by norm_num)
  have hword : ((y % 65536) <<< 16) ||| (x % 65536) < 2 ^ 32 := by
    apply Nat.or_lt_two_pow
    · rw [Nat.shiftLeft_eq]
      calc y % 65536 * 2 ^ 16 < 65536 * 2 ^ 16 := by
            apply Nat.mul_lt_mul_right (by norm_num) |>.mpr hy
        _ = 2 ^ 32 := by norm_num
    · omega
  rw [interleaveXY_eq_netFn, netFn_eq_mortonOfWord _ hword]
  unfold mortonOfWord
  rw [word_low _ _ hx, word_high _ _ hx hy]
  show interleaveAux 16 (x % 65536) (y % 65536) = interleaveAux 16 x y
  have h16 : (65536 : Nat) = 2 ^ 16 := by norm_num
  rw [h16]
  exact interleaveAux_mod 16 x y

/-! Lane arithmetic: adding 1 to a key whose other lane is all ones increments
the lane coordinate (mod `2 ^ k`), letting the carry ride through the foreign
bits; this is what `right`, `left`, `up`, `down` exploit. -/

theorem mod_shift (a m : Nat) (h1 : m ≤ a) (h2 : a < 2 * m) : a % m = a - m := by
  rw [Nat.mod_eq_sub_mod h1]
  exact Nat.mod_eq_of_lt (by omega)

theorem lane_incr_x : ∀ k x, x < 2 ^ k → ∃ yr, yr < 2 ^ k ∧
    interleaveAux k x (2 ^ k - 1) + 1 =
      interleaveAux k ((x + 1) % 2 ^ k) yr + (if x + 1 = 2 ^ k then 4 ^ k else 0) := by
  intro k
  induction k with
  | zero =>
    intro x hx
    refine ⟨0, by norm_num, ?_⟩
    have : x = 0 := by omega
    subst this
    simp [interleaveAux]
  | succ k ih =>
    intro x hx
    have hp : (2:Nat) ^ (k + 1) = 2 * 2 ^ k := by rw [pow_succ]; ring
    have h4p : (4:Nat) ^ (k + 1) = 4 * 4 ^ k := by rw [pow_succ]; ring
    have hkpos : 0 < 2 ^ k := pow_pos (by norm_num) k
    have hm1 : (2 ^ (k + 1) - 1) % 2 = 1 := by omega
    have hd1 : (2 ^ (k + 1) - 1) / 2 = 2 ^ k - 1 := by omega
    rcases Nat.mod_two_eq_zero_or_one x with hx2 | hx2
    · have hne : x + 1 ≠ 2 ^ (k + 1) := by omega
      have hmod : (x + 1) % 2 ^ (k + 1) = x + 1 := Nat.mod_eq_of_lt (by omega)
      refine ⟨2 ^ (k + 1) - 1, by omega, ?_⟩
      rw [hmod]
      simp only [interleaveAux, hm1, hd1, if_neg hne]
      have e1 : (x + 1) % 2 = 1 := by omega
      have e2 : (x + 1) / 2 = x / 2 := by omega
      rw [e1, e2, hx2]
      omega
    · have ha : x / 2 < 2 ^ k := by omega
      obtain ⟨yr', hyr', hIH⟩ := ih (x / 2) ha
      by_cases hc : x / 2 + 1 = 2 ^ k
      · have hx1 : x + 1 = 2 ^ (k + 1) := by omega
        refine ⟨2 * yr', by omega, ?_⟩
        rw [hx1]
        simp only [Nat.mod_self, eq_self_iff_true, if_true]
        simp only [interleaveAux, hm1, hd1, Nat.zero_mod, Nat.zero_div, interleaveAux_zero]
        have e3 : (2 * yr') % 2 = 0 := by omega
        have e4 : (2 * yr') / 2 = yr' := by omega
        rw [e3, e4, hx2]
        have e5 : (x / 2 + 1) % 2 ^ k = 0 := by rw [hc]; exact Nat.mod_self _
        rw [e5, if_pos hc] at hIH
        omega
      · have hx1 : x + 1 < 2 ^ (k + 1) := by omega
        refine ⟨2 * yr', by omega, ?_⟩
        have hne : x + 1 ≠ 2 ^ (k + 1) := by omega
        have hmod : (x + 1) % 2 ^ (k + 1) = x + 1 := Nat.mod_eq_of_lt hx1
        rw [hmod]
        simp only [interleaveAux, hm1, hd1, if_neg hne]
        have e1 : (x + 1) % 2 = 0 := by omega
        have e2 : (x + 1) / 2 = x / 2 + 1 := by omega
        have e3 : (2 * yr') % 2 = 0 := by omega
        have e4 : (2 * yr') / 2 = yr' := by omega
        rw [e1, e2, e3, e4, hx2]
        have e5 : (x / 2 + 1) % 2 ^ k = x / 2 + 1 := Nat.mod_eq_of_lt (by omega)
        rw [e5, if_neg hc] at hIH
        omega

theorem lane_decr_x : ∀ k x, x < 2 ^ k → ∃ yr, yr < 2 ^ k ∧
    interleaveAux k x 0 + (4 ^ k - 1) =
      interleaveAux k ((x + (2 ^ k - 1)) % 2 ^ k) yr + (if x = 0 then 0 else 4 ^ k) := by
  intro k
  induction k with
  | zero =>
    intro x hx
    refine ⟨0, by norm_num, ?_⟩
    have : x = 0 := by omega
    subst this
    simp [interleaveAux]
  | succ k ih =>
    intro x hx
    have hp : (2:Nat) ^ (k + 1) = 2 * 2 ^ k := by rw [pow_succ]; ring
    have h4p : (4:Nat) ^ (k + 1) = 4 * 4 ^ k := by rw [pow_succ]; ring
    have hkpos : 0 < 2 ^ k := pow_pos (by norm_num) k
    have h4kpos : 0 < 4 ^ k := pow_pos (by norm_num) k
    have hm1 : (2 ^ (k + 1) - 1) % 2 = 1 := by omega
    have hd1 : (2 ^ (k + 1) - 1) / 2 = 2 ^ k - 1 := by omega
    rcases Nat.mod_two_eq_zero_or_one x with hx2 | hx2
    · by_cases hz : x = 0
      · subst hz
        obtain ⟨yr', hyr', hIH⟩ := ih 0 (by omega)
        refine ⟨2 * yr' + 1, by omega, ?_⟩
        have hmod : (0 + (2 ^ (k + 1) - 1)) % 2 ^ (k + 1) = 2 ^ (k + 1) - 1 := by
          rw [Nat.zero_add]
          exact Nat.mod_eq_of_lt (by omega)
        rw [hmod, if_pos rfl]
        simp only [interleaveAux, Nat.zero_mod, Nat.zero_div, hm1, hd1, interleaveAux_zero]
        have e3 : (2 * yr' + 1) % 2 = 1 := by omega
        have e4 : (2 * yr' + 1) / 2 = yr' := by omega
        rw [e3, e4]
        have e5 : (0 + (2 ^ k - 1)) % 2 ^ k = 2 ^ k - 1 := by
          rw [Nat.zero_add]
          exact Nat.mod_eq_of_lt (by omega)
        rw [e5, if_pos rfl, interleaveAux_zero] at hIH
        omega
      · obtain ⟨yr', hyr', hIH⟩ := ih (x / 2) (by omega)
        have hzz : x / 2 ≠ 0 := by omega
        refine ⟨2 * yr' + 1, by omega, ?_⟩
        have hmod : (x + (2 ^ (k + 1) - 1)) % 2 ^ (k + 1) = x - 1 := by
          rw [mod_shift _ _ (by omega) (by omega)]
          omega
        rw [hmod, if_neg hz]
        simp only [interleaveAux, Nat.zero_mod, Nat.zero_div]
        have e1 : (x - 1) % 2 = 1 := by omega
        have e2 : (x - 1) / 2 = x / 2 - 1 := by omega
        have e3 : (2 * yr' + 1) % 2 = 1 := by omega
        have e4 : (2 * yr' + 1) / 2 = yr' := by omega
        rw [e1, e2, e3, e4, hx2]
        have e5 : (x / 2 + (2 ^ k - 1)) % 2 ^ k = x / 2 - 1 := by
          rw [mod_shift _ _ (by omega) (by omega)]
          omega
        rw [e5, if_neg hzz] at hIH
        omega
    · have hz : x ≠ 0 := by omega
      refine ⟨0, by omega, ?_⟩
      have hmod : (x + (2 ^ (k + 1) - 1)) % 2 ^ (k + 1) = x - 1 := by
        rw [mod_shift _ _ (by omega) (by omega)]
        omega
      rw [hmod, if_neg hz]
      simp only [interleaveAux, Nat.zero_mod, Nat.zero_div]
      have e1 : (x - 1) % 2 = 0 := by omega
      have e2 : (x - 1) / 2 = x / 2 := by omega
      rw [e1, e2, hx2]
      omega

theorem lane_incr_y : ∀ k y, y < 2 ^ k → ∃ xr, xr < 2 ^ k ∧
    interleaveAux k (2 ^ k - 1) y + 1 =
      interleaveAux k xr ((y + 1) % 2 ^ k) + (if y + 1 = 2 ^ k then 4 ^ k else 0) := by
  intro k
  induction k with
  | zero =>
    intro y hy
    refine ⟨0, by norm_num, ?_⟩
    have : y = 0 := by omega
    subst this
    simp [interleaveAux]
  | succ k ih =>
    intro y hy
    have hp : (2:Nat) ^ (k + 1) = 2 * 2 ^ k := by rw [pow_succ]; ring
    have h4p : (4:Nat) ^ (k + 1) = 4 * 4 ^ k := by rw [pow_succ]; ring
    have hkpos : 0 < 2 ^ k := pow_pos (by norm_num) k
    have hm1 : (2 ^ (k + 1) - 1) % 2 = 1 := by omega
    have hd1 : (2 ^ (k + 1) - 1) / 2 = 2 ^ k - 1 := by omega
    rcases Nat.mod_two_eq_zero_or_one y with hy2 | hy2
    · have hne : y + 1 ≠ 2 ^ (k + 1) := by omega
      have hmod : (y + 1) % 2 ^ (k + 1) = y + 1 := Nat.mod_eq_of_lt (by omega)
      refine ⟨2 * (2 ^ k - 1), by omega, ?_⟩
      rw [hmod]
      simp only [interleaveAux, hm1, hd1, if_neg hne]
      have e1 : (y + 1) % 2 = 1 := by omega
      have e2 : (y + 1) / 2 = y / 2 := by omega
      have e3 : (2 * (2 ^ k - 1)) % 2 = 0 := by omega
      have e4 : (2 * (2 ^ k - 1)) / 2 = 2 ^ k - 1 := by omega
      rw [e1, e2, e3, e4, hy2]
      omega
    · have hb : y / 2 < 2 ^ k := by omega
      obtain ⟨xr', hxr', hIH⟩ := ih (y / 2) hb
      by_cases hc : y / 2 + 1 = 2 ^ k
      · have hy1 : y + 1 = 2 ^ (k + 1) := by omega
        refine ⟨2 * xr', by omega, ?_⟩
        rw [hy1]
        simp only [Nat.mod_self, eq_self_iff_true, if_true]
        simp only [interleaveAux, hm1, hd1, Nat.zero_mod, Nat.zero_div, interleaveAux_zero]
        have e3 : (2 * xr') % 2 = 0 := by omega
        have e4 : (2 * xr') / 2 = xr' := by omega
        rw [e3, e4, hy2]
        have e5 : (y / 2 + 1) % 2 ^ k = 0 := by rw [hc]; exact Nat.mod_self _
        rw [e5, if_pos hc] at hIH
        omega
      · have hy1 : y + 1 < 2 ^ (k + 1) := by omega
        refine ⟨2 * xr', by omega, ?_⟩
        have hne : y + 1 ≠ 2 ^ (k + 1) := by omega
        have hmod : (y + 1) % 2 ^ (k + 1) = y + 1 := Nat.mod_eq_of_lt hy1
        rw [hmod]
        simp only [interleaveAux, hm1, hd1, if_neg hne]
        have e1 : (y + 1) % 2 = 0 := by omega
        have e2 : (y + 1) / 2 = y / 2 + 1 := by omega
        have e3 : (2 * xr') % 2 = 0 := by omega
        have e4 : (2 * xr') / 2 = xr' := by omega
        rw [e1, e2, e3, e4, hy2]
        have e5 : (y / 2 + 1) % 2 ^ k = y / 2 + 1 := Nat.mod_eq_of_lt (by omega)
        rw [e5, if_neg hc] at hIH
        omega

theorem lane_decr_y : ∀ k y, y < 2 ^ k → ∃ xr, xr < 2 ^ k ∧
    interleaveAux k 0 y + (4 ^ k - 1) =
      interleaveAux k xr ((y + (2 ^ k - 1)) % 2 ^ k) + (if y = 0 then 0 else 4 ^ k) := by
  intro k
  induction k with
  | zero =>
    intro y hy
    refine ⟨0, by norm_num, ?_⟩
    have : y = 0 := by omega
    subst this
    simp [interleaveAux]
  | succ k ih =>
    intro y hy
    have hp : (2:Nat) ^ (k + 1) = 2 * 2 ^ k := by rw [pow_succ]; ring
    have h4p : (4:Nat) ^ (k + 1) = 4 * 4 ^ k := by rw [pow_succ]; ring
    have hkpos : 0 < 2 ^ k := pow_pos (by norm_num) k
    have h4kpos : 0 < 4 ^ k := pow_pos (by norm_num) k
    have hm1 : (2 ^ (k + 1) - 1) % 2 = 1 := by omega
    have hd1 : (2 ^ (k + 1) - 1) / 2 = 2 ^ k - 1 := by omega
    rcases Nat.mod_two_eq_zero_or_one y with hy2 | hy2
    · by_cases hz : y = 0
      · subst hz
        obtain ⟨xr', hxr', hIH⟩ := ih 0 (by omega)
        refine ⟨2 * xr' + 1, by omega, ?_⟩
        have hmod : (0 + (2 ^ (k + 1) - 1)) % 2 ^ (k + 1) = 2 ^ (k + 1) - 1 := by
          rw [Nat.zero_add]
          exact Nat.mod_eq_of_lt (by omega)
        rw [hmod, if_pos rfl]
        simp only [interleaveAux, Nat.zero_mod, Nat.zero_div, hm1, hd1, interleaveAux_zero]
        have e3 : (2 * xr' + 1) % 2 = 1 := by omega
        have e4 : (2 * xr' + 1) / 2 = xr' := by omega
        rw [e3, e4]
        have e5 : (0 + (2 ^ k - 1)) % 2 ^ k = 2 ^ k - 1 := by
          rw [Nat.zero_add]
          exact Nat.mod_eq_of_lt (by omega)
        rw [e5, if_pos rfl, interleaveAux_zero] at hIH
        omega
      · obtain ⟨xr', hxr', hIH⟩ := ih (y / 2) (by omega)
        have hzz : y / 2 ≠ 0 := by omega
        refine ⟨2 * xr' + 1, by omega, ?_⟩
        have hmod : (y + (2 ^ (k + 1) - 1)) % 2 ^ (k + 1) = y - 1 := by
          rw [mod_shift _ _ (by omega) (by omega)]
          omega
        rw [hmod, if_neg hz]
        simp only [interleaveAux, Nat.zero_mod, Nat.zero_div]
        have e1 : (y - 1) % 2 = 1 := by omega
        have e2 : (y - 1) / 2 = y / 2 - 1 := by omega
        have e3 : (2 * xr' + 1) % 2 = 1 := by omega
        have e4 : (2 * xr' + 1) / 2 = xr' := by omega
        rw [e1, e2, e3, e4, hy2]
        have e5 : (y / 2 + (2 ^ k - 1)) % 2 ^ k = y / 2 - 1 := by
          rw [mod_shift _ _ (by omega) (by omega)]
          omega
        rw [e5, if_neg hzz] at hIH
        omega
    · have hz : y ≠ 0 := by omega
      refine ⟨1, by omega, ?_⟩
      have hmod : (y + (2 ^ (k + 1) - 1)) % 2 ^ (k + 1) = y - 1 := by
        rw [mod_shift _ _ (by omega) (by omega)]
        omega
      rw [hmod, if_neg hz]
      simp only [interleaveAux, Nat.zero_mod, Nat.zero_div]
      have e1 : (y - 1) % 2 = 0 := by omega
      have e2 : (y - 1) / 2 = y / 2 := by omega
      have e6 : (1:Nat) / 2 = 0 := by norm_num
      rw [e1, e2, e6, hy2]
      omega

/-! Mask projections, carry-bit absorption and lane monotonicity. -/

theorem key_mod (x y : Nat) : key (x % 65536) (y % 65536) = key x y := by
  have h := interleaveAux_mod 16 x y
  norm_num at h
  exact h

theorem key_and_MASK_X (x y : Nat) : key x y &&& MASK_X = key x 0 := by
  rw [MASK_X_eq_key, key_and, Nat.and_zero,
    show (65535 : Nat) = 2 ^ 16 - 1 by norm_num, Nat.and_pow_two_sub_one_eq_mod]
  rw [show (2:Nat) ^ 16 = 65536 by norm_num]
  conv_rhs => rw [← key_mod x 0]

theorem key_and_MASK_Y (x y : Nat) : key x y &&& MASK_Y = key 0 y := by
  rw [MASK_Y_eq_key, key_and, Nat.and_zero,
    show (65535 : Nat) = 2 ^ 16 - 1 by norm_num, Nat.and_pow_two_sub_one_eq_mod]
  rw [show (2:Nat) ^ 16 = 65536 by norm_num]
  conv_rhs => rw [← key_mod 0 y]

theorem or_ones_mod (y : Nat) : (y ||| 65535) % 65536 = 65535 := by
  apply Nat.eq_of_testBit_eq
  intro j
  rw [show (65536:Nat) = 2 ^ 16 by norm_num]
  rw [Nat.testBit_mod_two_pow]
  rw [show (65535 : Nat) = 2 ^ 16 - 1 by norm_num]
  simp only [Nat.testBit_or, Nat.testBit_two_pow_sub_one]
  by_cases hj : j < 16 <;> simp [hj]

theorem key_or_MASK_Y (x y : Nat) : key x y ||| MASK_Y = key x 65535 := by
  rw [MASK_Y_eq_key, key_or, Nat.or_zero]
  rw [← key_mod x (y ||| 65535), or_ones_mod]
  conv_rhs => rw [← key_mod x 65535]

theorem key_or_MASK_X (x y : Nat) : key x y ||| MASK_X = key 65535 y := by
  rw [MASK_X_eq_key, key_or, Nat.or_zero]
  rw [← key_mod (x ||| 65535) y, or_ones_mod]
  conv_rhs => rw [← key_mod 65535 y]

/-- Adding a multiple of `2 ^ n` does not change an AND with a mask below
`2 ^ n`; this absorbs the carry out of bit 31 in the cursor arithmetic. -/
theorem absorb_and (A M t n : Nat) (hM : M < 2 ^ n) :
    (A + t * 2 ^ n) &&& M = A &&& M := by
  apply Nat.eq_of_testBit_eq
  intro j
  by_cases hj : j < n
  · have hbit : (A + t * 2 ^ n).testBit j = A.testBit j := by
      simp only [Nat.testBit_to_div_mod]
      have hd : (A + t * 2 ^ n) / 2 ^ j = A / 2 ^ j + t * 2 ^ (n - j) := by
        rw [show t * 2 ^ n = t * 2 ^ (n - j) * 2 ^ j by
          rw [mul_assoc, ← pow_add]; congr 2; omega]
        exact Nat.add_mul_div_right _ _ (pow_pos (by norm_num) j)
      rw [hd, decide_eq_decide]
      have hev : t * 2 ^ (n - j) % 2 = 0 := by
        have h1 : n - j ≠ 0 := by omega
        rcases Nat.exists_eq_succ_of_ne_zero h1 with ⟨m, hm⟩
        rw [hm, pow_succ]
        have hdvd : 2 ∣ t * (2 ^ m * 2) := ⟨t * 2 ^ m, by ring⟩
        omega
      omega
    simp [Nat.testBit_and, hbit]
  · have hMj : M.testBit j = false :=
      Nat.testBit_eq_false_of_lt
        (lt_of_lt_of_le hM (Nat.pow_le_pow_right (by norm_num) (by omega)))
    simp [Nat.testBit_and, hMj]

/-- The x-lane spread is strictly monotone on 16-bit values, so lane
comparisons against `size_x` decide coordinate comparisons against `size`. -/
theorem spread_lt_iff (k : Nat) : ∀ x y, x < 2 ^ k → y < 2 ^ k →
    (interleaveAux k x 0 < interleaveAux k y 0 ↔ x < y) := by
  induction k with
  | zero =>
    intro x y hx hy
    simp only [interleaveAux]
    omega
  | succ k ih =>
    intro x y hx hy
    have hp : (2:Nat) ^ (k + 1) = 2 * 2 ^ k := by rw [pow_succ]; ring
    have hx2 : x / 2 < 2 ^ k := by omega
    have hy2 : y / 2 < 2 ^ k := by omega
    simp only [interleaveAux, Nat.zero_mod, Nat.zero_div]
    rcases lt_trichotomy (x / 2) (y / 2) with h | h | h
    · have hAB := (ih (x / 2) (y / 2) hx2 hy2).mpr h
      omega
    · have hAB : interleaveAux k (x / 2) 0 = interleaveAux k (y / 2) 0 := by rw [h]
      omega
    · have hAB := (ih (y / 2) (x / 2) hy2 hx2).mpr h
      omega

theorem spread_double (k : Nat) : ∀ y, interleaveAux k 0 y = 2 * interleaveAux k y 0 := by
  induction k with
  | zero => intro y; simp [interleaveAux]
  | succ k ih =>
    intro y
    simp only [interleaveAux, Nat.zero_mod, Nat.zero_div, ih]
    ring

/-! The four lane-stepping identities behind `right`, `left`, `up`, `down`.
Unsigned 32-bit subtraction of 1 is modelled as adding `2 ^ 32 - 1 =
4294967295`; the final AND with a 32-bit mask makes the missing
`mod 2 ^ 32` irrelevant (`absorb_and`). -/

theorem right_core (x y : Nat) (hx : x < 65536) :
    ((key x y ||| MASK_Y) + 1) &&& MASK_X = key ((x + 1) % 65536) 0 := by
  rw [key_or_MASK_Y]
  obtain ⟨yr, hyr, heq⟩ := lane_incr_x 16 x (by norm_num; omega)
  norm_num at heq
  rw [show key x 65535 = interleaveAux 16 x 65535 from rfl, heq]
  by_cases hof : x + 1 = 65536
  · rw [if_pos hof, show (4294967296 : Nat) = 1 * 2 ^ 32 by norm_num,
      absorb_and _ _ 1 32 (by norm_num [MASK_X])]
    exact key_and_MASK_X _ _
  · rw [if_neg hof, Nat.add_zero]
    exact key_and_MASK_X _ _

theorem left_core (x y : Nat) (hx : x < 65536) :
    ((key x y &&& MASK_X) + 4294967295) &&& MASK_X = key ((x + 65535) % 65536) 0 := by
  rw [key_and_MASK_X]
  obtain ⟨yr, hyr, heq⟩ := lane_decr_x 16 x (by norm_num; omega)
  norm_num at heq
  rw [show key x 0 = interleaveAux 16 x 0 from rfl, heq]
  by_cases hz : x = 0
  · rw [if_pos hz, Nat.add_zero]
    exact key_and_MASK_X _ _
  · rw [if_neg hz, show (4294967296 : Nat) = 1 * 2 ^ 32 by norm_num,
      absorb_and _ _ 1 32 (by norm_num [MASK_X])]
    exact key_and_MASK_X _ _

theorem up_core (x y : Nat) (hy : y < 65536) :
    ((key x y &&& MASK_Y) + 4294967295) &&& MASK_Y = key 0 ((y + 65535) % 65536) := by
  rw [key_and_MASK_Y]
  obtain ⟨xr, hxr, heq⟩ := lane_decr_y 16 y (by norm_num; omega)
  norm_num at heq
  rw [show key 0 y = interleaveAux 16 0 y from rfl, heq]
  by_cases hz : y = 0
  · rw [if_pos hz, Nat.add_zero]
    exact key_and_MASK_Y _ _
  · rw [if_neg hz, show (4294967296 : Nat) = 1 * 2 ^ 32 by norm_num,
      absorb_and _ _ 1 32 (by norm_num [MASK_Y])]
    exact key_and_MASK_Y _ _

theorem down_core (x y : Nat) (hy : y < 65536) :
    ((key x y ||| MASK_X) + 1) &&& MASK_Y = key 0 ((y + 1) % 65536) := by
  rw [key_or_MASK_X]
  obtain ⟨xr, hxr, heq⟩ := lane_incr_y 16 y (by norm_num; omega)
  norm_num at heq
  rw [show key 65535 y = interleaveAux 16 65535 y from rfl, heq]
  by_cases hof : y + 1 = 65536
  · rw [if_pos hof, show (4294967296 : Nat) = 1 * 2 ^ 32 by norm_num,
      absorb_and _ _ 1 32 (by norm_num [MASK_Y])]
    exact key_and_MASK_Y _ _
  · rw [if_neg hof, Nat.add_zero]
    exact key_and_MASK_Y _ _

/-! The `GameField` class and its operations, translated from the source.
The cell array is modelled as a total function `Nat → Cell`; only indices
below `size * size` are ever read or written (proved below).  The member
`size_x = interleaveXY(size, 0)` and `size_y = size_x << 1` are computed
from `size` on the fly instead of being cached at construction. -/

structure GameField where
  size : Nat
  cells : Nat → Cell
  idx : Nat

def GameField.size_x (g : GameField) : Nat := interleaveXY g.size 0

def GameField.size_y (g : GameField) : Nat := g.size_x <<< 1

/-- Move right (`GameField::right`).  Returns the masked numeric read and the
field with the moved cursor; the cursor moves even when the destination is
off-grid, exactly as in the source. -/
def GameField.right (g : GameField) (mask : Nat) : Nat × GameField :=
  let y := g.idx &&& MASK_Y
  let x := ((g.idx ||| MASK_Y) + 1) &&& MASK_X
  let idx := y ||| x
  if g.size_x ≤ x ∨ g.size_y ≤ y then
    (Cell.code Cell.DeadVisited &&& mask, { g with idx := idx })
  else
    (Cell.code (g.cells idx) &&& mask, { g with idx := idx })

/-- Move left (`GameField::left`).  The `uint32` subtraction
`(idx & MASK_X) - 1` is modelled as adding `2 ^ 32 - 1`; the following AND
with the 32-bit mask `MASK_X` makes the missing `mod 2 ^ 32` irrelevant. -/
def GameField.left (g : GameField) (mask : Nat) : Nat × GameField :=
  let y := g.idx &&& MASK_Y
  let x := ((g.idx &&& MASK_X) + 4294967295) &&& MASK_X
  let idx := y ||| x
  if g.size_x ≤ x ∨ g.size_y ≤ y then
    (Cell.code Cell.DeadVisited &&& mask, { g with idx := idx })
  else
    (Cell.code (g.cells idx) &&& mask, { g with idx := idx })

/-- Move up (`GameField::up`); unsigned subtraction modelled as in `left`. -/
def GameField.up (g : GameField) (mask : Nat) : Nat × GameField :=
  let x := g.idx &&& MASK_X
  let y := ((g.idx &&& MASK_Y) + 4294967295) &&& MASK_Y
  let idx := x ||| y
  if g.size_y ≤ y ∨ g.size_x ≤ x then
    (Cell.code Cell.DeadVisited &&& mask, { g with idx := idx })
  else
    (Cell.code (g.cells idx) &&& mask, { g with idx := idx })

/-- Move down (`GameField::down`). -/
def GameField.down (g : GameField) (mask : Nat) : Nat × GameField :=
  let x := g.idx &&& MASK_X
  let y := ((g.idx ||| MASK_X) + 1) &&& MASK_Y
  let idx := x ||| y
  if g.size_y ≤ y ∨ g.size_x ≤ x then
    (Cell.code Cell.DeadVisited &&& mask, { g with idx := idx })
  else
    (Cell.code (g.cells idx) &&& mask, { g with idx := idx })

/-- Neighbor count (`GameField::countAliveNeighbors`): walk up, left, down,
down, right, right, up, up with the default mask `Alive = 1`, summing the
masked reads, then restore the cursor. -/
def GameField.countAliveNeighbors (g : GameField) : Nat × GameField :=
  let old_idx := g.idx
  let p1 := g.up 1
  let p2 := p1.2.left 1
  let p3 := p2.2.down 1
  let p4 := p3.2.down 1
  let p5 := p4.2.right 1
  let p6 := p5.2.right 1
  let p7 := p6.2.up 1
  let p8 := p7.2.up 1
  (p1.1 + p2.1 + p3.1 + p4.1 + p5.1 + p6.1 + p7.1 + p8.1, { p8.2 with idx := old_idx })

/-- Transition rule (`GameField::updateCell`) applied at the cursor. -/
def GameField.updateCell (g : GameField) : GameField :=
  let p := g.countAliveNeighbors
  let alive_neighbors := p.1
  let g1 := p.2
  if g1.cells g1.idx = Cell.Alive ∧ (alive_neighbors < 2 ∨ alive_neighbors > 3) then
    { g1 with cells := fun j => if j = g1.idx then Cell.Dying else g1.cells j }
  else if g1.cells g1.idx = Cell.Dead then
    { g1 with cells := fun j =>
        if j = g1.idx then (if alive_neighbors = 3 then Cell.Birthing else Cell.DeadVisited)
        else g1.cells j }
  else g1

/-- Cursor placement (`GameField::setCursor`): out-of-range coordinates
return the `DeadVisited` sentinel without touching anything. -/
def GameField.setCursor (g : GameField) (x y : Nat) : Cell × GameField :=
  if g.size ≤ x ∨ g.size ≤ y then
    (Cell.DeadVisited, g)
  else
    let idx := interleaveXY x y
    (g.cells idx, { g with idx := idx })

/-- Toggle the cursor cell (`GameField::toggle`). -/
def GameField.toggle (g : GameField) : GameField :=
  { g with cells := fun j =>
      if j = g.idx then (if g.cells g.idx = Cell.Dead then Cell.Alive else Cell.Dead)
      else g.cells j }

/-- Loop body of `GameField::setAlive`: mark one raw index `Alive`, silently
ignoring indices at or beyond `size * size`. -/
def setAliveStep (g : GameField) (i : Nat) : GameField :=
  if i < g.size * g.size then
    { g with cells := fun j => if j = i then Cell.Alive else g.cells j }
  else g

/-- Bulk load (`GameField::setAlive`). -/
def GameField.setAlive (g : GameField) (idxs : List Nat) : GameField :=
  idxs.foldl setAliveStep g

/-- Reset all cells to `Dead` (`GameField::clear`). -/
def GameField.clear (g : GameField) : GameField :=
  { g with cells := fun i => if i < g.size * g.size then Cell.Dead else g.cells i }

/-- The bit-scan loop of the `GameField` constructor: starting from `n` with
`fuel` iterations left, repeatedly shift `s` right, counting in `n`, until an
odd `s` is found (then shift once more and stop) or the fuel (64 bits of
`size_t`) runs out. -/
def scanLoop : Nat → Nat → Nat → Nat × Nat
  | 0, n, s => (n, s)
  | fuel + 1, n, s => if s % 2 = 1 then (n, s / 2) else scanLoop fuel (n + 1) (s / 2)

/-- The `GameField(size_t size)` constructor: `none` models the two
`std::invalid_argument` throws (size not a power of two, or `n > 12`, i.e.
size above 4096); on success all `size * size` cells are `Dead` and the
cursor is 0. -/
def constructField (size : Nat) : Option GameField :=
  let bits := 64
  let p := scanLoop bits 0 size
  if p.1 = bits ∨ p.2 ≠ 0 then none
  else if 12 < p.1 then none
  else some { size := size, cells := fun _ => Cell.Dead, idx := 0 }

/-- The evaluate pass reads neighbors under `Alive | DeadVisited = 5`. -/
def maskAD : Nat := Cell.code Cell.Alive ||| Cell.code Cell.DeadVisited

/-- One guarded walk step of the evaluate pass:
`if (field.mv(mask) == Dead) field.updateCell();`. -/
def visitStep (g : GameField) (mv : GameField → Nat → Nat × GameField) : GameField :=
  let p := mv g maskAD
  if p.1 = 0 then p.2.updateCell else p.2

/-- Body of the evaluate pass for an `Alive` cell at raw index `i`: position
the cursor, apply the rule there, then walk the eight neighbors. -/
def evalAliveCell (g : GameField) (i : Nat) : GameField :=
  let g := { g with idx := i }
  let g := g.updateCell
  let g := visitStep g GameField.up
  let g := visitStep g GameField.left
  let g := visitStep g GameField.down
  let g := visitStep g GameField.down
  let g := visitStep g GameField.right
  let g := visitStep g GameField.right
  let g := visitStep g GameField.up
  let g := visitStep g GameField.up
  g

/-- One iteration of the evaluate loop at raw index `i`. -/
def evalStep (g : GameField) (i : Nat) : GameField :=
  if g.cells i = Cell.Alive then evalAliveCell g i else g

/-- The evaluate pass over an enumeration `order` of raw indices; the source
uses `order = List.range (size * size)`. -/
def evalPass (order : List Nat) (g : GameField) : GameField :=
  order.foldl evalStep g

/-- Commit mapping of the second pass of `simulationTick`. -/
def commitCell : Cell → Cell
  | .Birthing => .Alive
  | .Dying => .Dead
  | .DeadVisited => .Dead
  | c => c

/-- The commit pass: full scan over the `size * size` array. -/
def commitPass (g : GameField) : GameField :=
  { g with cells := fun i => if i < g.size * g.size then commitCell (g.cells i) else g.cells i }

/-- One generation (`Game::simulationTick`): evaluate pass in raw index
order, then commit pass. -/
def simulationTick (g : GameField) : GameField :=
  commitPass (evalPass (List.range (g.size * g.size)) g)

/-! Instrumented evaluate pass: identical control flow, but additionally
counts, per raw index, how many times `updateCell` is applied there.  Used
to settle how often a dead cell is evaluated per generation. -/

def updateCellI (gc : GameField × (Nat → Nat)) : GameField × (Nat → Nat) :=
  (gc.1.updateCell, fun j => if j = gc.1.idx then gc.2 j + 1 else gc.2 j)

def visitStepI (gc : GameField × (Nat → Nat)) (mv : GameField → Nat → Nat × GameField) :
    GameField × (Nat → Nat) :=
  let p := mv gc.1 maskAD
  if p.1 = 0 then updateCellI (p.2, gc.2) else (p.2, gc.2)

def evalAliveCellI (gc : GameField × (Nat → Nat)) (i : Nat) : GameField × (Nat → Nat) :=
  let gc := ({ gc.1 with idx := i }, gc.2)
  let gc := updateCellI gc
  let gc := visitStepI gc GameField.up
  let gc := visitStepI gc GameField.left
  let gc := visitStepI gc GameField.down
  let gc := visitStepI gc GameField.down
  let gc := visitStepI gc GameField.right
  let gc := visitStepI gc GameField.right
  let gc := visitStepI gc GameField.up
  let gc := visitStepI gc GameField.up
  gc

def evalStepI (gc : GameField × (Nat → Nat)) (i : Nat) : GameField × (Nat → Nat) :=
  if gc.1.cells i = Cell.Alive then evalAliveCellI gc i else gc

def evalPassI (order : List Nat) (gc : GameField × (Nat → Nat)) : GameField × (Nat → Nat) :=
  order.foldl evalStepI gc

theorem updateCellI_fst (gc : GameField × (Nat → Nat)) :
    (updateCellI gc).1 = gc.1.updateCell := rfl

theorem visitStepI_fst (gc : GameField × (Nat → Nat)) (mv : GameField → Nat → Nat × GameField) :
    (visitStepI gc mv).1 = visitStep gc.1 mv := by
  by_cases h : (mv gc.1 maskAD).1 = 0 <;> simp [visitStepI, visitStep, h, updateCellI]

theorem evalAliveCellI_fst (gc : GameField × (Nat → Nat)) (i : Nat) :
    (evalAliveCellI gc i).1 = evalAliveCell gc.1 i := by
  simp only [evalAliveCellI, evalAliveCell, visitStepI_fst, updateCellI_fst]

theorem evalStepI_fst (gc : GameField × (Nat → Nat)) (i : Nat) :
    (evalStepI gc i).1 = evalStep gc.1 i := by
  by_cases h : gc.1.cells i = Cell.Alive <;> simp [evalStepI, evalStep, h, evalAliveCellI_fst]

theorem evalPassI_fst (order : List Nat) : ∀ gc : GameField × (Nat → Nat),
    (evalPassI order gc).1 = evalPass order gc.1 := by
  induction order with
  | nil => intro gc; rfl
  | cons a l ih =>
    intro gc
    show (evalPassI l (evalStepI gc a)).1 = evalPass l (evalStep gc.1 a)
    rw [ih, evalStepI_fst]

/-! Characterization of the four moves in coordinate terms.  The cursor key
`key x y` steps to the key of the neighbor coordinate, wrapped mod `2 ^ 16`;
the off-grid test on the lanes is exactly a coordinate bound test. -/

theorem pow16_eq : (2:Nat) ^ 16 = 65536 := by norm_num

theorem key_zero_left (y : Nat) : key 0 y = 2 * key y 0 := spread_double 16 y

theorem key_le_iff (u N : Nat) (hu : u < 65536) (hN : N < 65536) :
    key N 0 ≤ key u 0 ↔ N ≤ u := by
  have h : key u 0 < key N 0 ↔ u < N :=
    spread_lt_iff 16 u N (by have := pow16_eq; omega) (by have := pow16_eq; omega)
  rw [← Nat.not_lt, ← Nat.not_lt]
  exact not_congr h

theorem key_le_iff_y (v N : Nat) (hv : v < 65536) (hN : N < 65536) :
    key 0 N ≤ key 0 v ↔ N ≤ v := by
  rw [key_zero_left, key_zero_left]
  have h := key_le_iff v N hv hN
  omega

theorem guard_iff (g : GameField) (u v : Nat) (hu : u < 65536) (hv : v < 65536)
    (hN : g.size < 65536) :
    (g.size_x ≤ key u 0 ∨ g.size_y ≤ key 0 v) ↔ ¬(u < g.size ∧ v < g.size) := by
  have hsx : g.size_x = key g.size 0 := by rw [GameField.size_x, interleaveXY_eq_key]
  have hsy : g.size_y = key 0 g.size := by
    rw [GameField.size_y, hsx, Nat.shiftLeft_eq]
    have hd := key_zero_left g.size
    have h2 : (2:Nat) ^ 1 = 2 := by norm_num
    omega
  rw [hsx, hsy, key_le_iff u g.size hu hN, key_le_iff_y v g.size hv hN]
  omega

theorem guard_iff_y (g : GameField) (u v : Nat) (hu : u < 65536) (hv : v < 65536)
    (hN : g.size < 65536) :
    (g.size_y ≤ key 0 v ∨ g.size_x ≤ key u 0) ↔ ¬(u < g.size ∧ v < g.size) := by
  rw [Or.comm]
  exact guard_iff g u v hu hv hN

theorem right_spec (g : GameField) (m x y : Nat) (hx : x < 65536) (hy : y < 65536)
    (hN : g.size < 65536) (hidx : g.idx = key x y) :
    g.right m = (if (x + 1) % 65536 < g.size ∧ y < g.size
        then Cell.code (g.cells (key ((x + 1) % 65536) y)) &&& m
        else Cell.code Cell.DeadVisited &&& m,
      { g with idx := key ((x + 1) % 65536) y }) := by
  have hx1 : (x + 1) % 65536 < 65536 := Nat.mod_lt _ (by norm_num)
  have hyl : g.idx &&& MASK_Y = key 0 y := by rw [hidx, key_and_MASK_Y]
  have hxl : ((g.idx ||| MASK_Y) + 1) &&& MASK_X = key ((x + 1) % 65536) 0 := by
    rw [hidx]; exact right_core x y hx
  simp only [GameField.right, hyl, hxl]
  rw [show key 0 y ||| key ((x + 1) % 65536) 0 = key ((x + 1) % 65536) y by
    rw [key_or, Nat.zero_or, Nat.or_zero]]
  by_cases hc : (x + 1) % 65536 < g.size ∧ y < g.size
  · rw [if_pos hc, if_neg ((guard_iff g _ y hx1 hy hN).not.mpr (not_not_intro hc))]
  · rw [if_neg hc, if_pos ((guard_iff g _ y hx1 hy hN).mpr hc)]

theorem left_spec (g : GameField) (m x y : Nat) (hx : x < 65536) (hy : y < 65536)
    (hN : g.size < 65536) (hidx : g.idx = key x y) :
    g.left m = (if (x + 65535) % 65536 < g.size ∧ y < g.size
        then Cell.code (g.cells (key ((x + 65535) % 65536) y)) &&& m
        else Cell.code Cell.DeadVisited &&& m,
      { g with idx := key ((x + 65535) % 65536) y }) := by
  have hx1 : (x + 65535) % 65536 < 65536 := Nat.mod_lt _ (by norm_num)
  have hyl : g.idx &&& MASK_Y = key 0 y := by rw [hidx, key_and_MASK_Y]
  have hxl : ((g.idx &&& MASK_X) + 4294967295) &&& MASK_X = key ((x + 65535) % 65536) 0 := by
    rw [hidx]; exact left_core x y hx
  simp only [GameField.left, hyl, hxl]
  rw [show key 0 y ||| key ((x + 65535) % 65536) 0 = key ((x + 65535) % 65536) y by
    rw [key_or, Nat.zero_or, Nat.or_zero]]
  by_cases hc : (x + 65535) % 65536 < g.size ∧ y < g.size
  · rw [if_pos hc, if_neg ((guard_iff g _ y hx1 hy hN).not.mpr (not_not_intro hc))]
  · rw [if_neg hc, if_pos ((guard_iff g _ y hx1 hy hN).mpr hc)]

theorem up_spec (g : GameField) (m x y : Nat) (hx : x < 65536) (hy : y < 65536)
    (hN : g.size < 65536) (hidx : g.idx = key x y) :
    g.up m = (if x < g.size ∧ (y + 65535) % 65536 < g.size
        then Cell.code (g.cells (key x ((y + 65535) % 65536))) &&& m
        else Cell.code Cell.DeadVisited &&& m,
      { g with idx := key x ((y + 65535) % 65536) }) := by
  have hy1 : (y + 65535) % 65536 < 65536 := Nat.mod_lt _ (by norm_num)
  have hxl : g.idx &&& MASK_X = key x 0 := by rw [hidx, key_and_MASK_X]
  have hyl : ((g.idx &&& MASK_Y) + 4294967295) &&& MASK_Y = key 0 ((y + 65535) % 65536) := by
    rw [hidx]; exact up_core x y hy
  simp only [GameField.up, hxl, hyl]
  rw [show key x 0 ||| key 0 ((y + 65535) % 65536) = key x ((y + 65535) % 65536) by
    rw [key_or, Nat.zero_or, Nat.or_zero]]
  by_cases hc : x < g.size ∧ (y + 65535) % 65536 < g.size
  · rw [if_pos hc, if_neg ((guard_iff_y g x _ hx hy1 hN).not.mpr (not_not_intro hc))]
  · rw [if_neg hc, if_pos ((guard_iff_y g x _ hx hy1 hN).mpr hc)]

theorem down_spec (g : GameField) (m x y : Nat) (hx : x < 65536) (hy : y < 65536)
    (hN : g.size < 65536) (hidx : g.idx = key x y) :
    g.down m = (if x < g.size ∧ (y + 1) % 65536 < g.size
        then Cell.code (g.cells (key x ((y + 1) % 65536))) &&& m
        else Cell.code Cell.DeadVisited &&& m,
      { g with idx := key x ((y + 1) % 65536) }) := by
  have hy1 : (y + 1) % 65536 < 65536 := Nat.mod_lt _ (by norm_num)
  have hxl : g.idx &&& MASK_X = key x 0 := by rw [hidx, key_and_MASK_X]
  have hyl : ((g.idx ||| MASK_X) + 1) &&& MASK_Y = key 0 ((y + 1) % 65536) := by
    rw [hidx]; exact down_core x y hy
  simp only [GameField.down, hxl, hyl]
  rw [show key x 0 ||| key 0 ((y + 1) % 65536) = key x ((y + 1) % 65536) by
    rw [key_or, Nat.zero_or, Nat.or_zero]]
  by_cases hc : x < g.size ∧ (y + 1) % 65536 < g.size
  · rw [if_pos hc, if_neg ((guard_iff_y g x _ hx hy1 hN).not.mpr (not_not_intro hc))]
  · rw [if_neg hc, if_pos ((guard_iff_y g x _ hx hy1 hN).mpr hc)]

/-! The neighbor walk.  `nbrSlots x y` lists the wrapped coordinates of the
eight walk positions, in walk order up, left, down, down, right, right, up,
up, i.e. N, NW, W, SW, S, SE, E, NE. -/

def nbrSlots (x y : Nat) : List (Nat × Nat) :=
  let xl := (x + 65535) % 65536
  let xr := (x + 1) % 65536
  let yu := (y + 65535) % 65536
  let yd := (y + 1) % 65536
  [(x, yu), (xl, yu), (xl, y), (xl, yd), (x, yd), (xr, yd), (xr, y), (xr, yu)]

/-- Contribution of one walk position to the neighbor count: the low bit of
the cell state for in-grid positions, 0 (`DeadVisited &&& Alive`) off-grid. -/
def slotBit (g : GameField) : Nat × Nat → Nat
  | (u, v) => if u < g.size ∧ v < g.size then Cell.code (g.cells (key u v)) &&& 1 else 0

/-- The sum returned by `countAliveNeighbors` in coordinate terms. -/
def walkSum (g : GameField) (x y : Nat) : Nat :=
  ((nbrSlots x y).map (slotBit g)).sum

theorem interleaveAux_lt_of_lt : ∀ n k x y, n ≤ k → x < 2 ^ n → y < 2 ^ n →
    interleaveAux k x y < 4 ^ n := by
  intro n
  induction n with
  | zero =>
    intro k x y hk hx hy
    have hx0 : x = 0 := by omega
    have hy0 : y = 0 := by omega
    subst hx0; subst hy0
    rw [interleaveAux_zero]
    norm_num
  | succ n ih =>
    intro k x y hk hx hy
    match k, hk with
    | k + 1, hk =>
      have hp : (2:Nat) ^ (n + 1) = 2 * 2 ^ n := by rw [pow_succ]; ring
      have h4p : (4:Nat) ^ (n + 1) = 4 * 4 ^ n := by rw [pow_succ]; ring
      have := ih k (x / 2) (y / 2) (by omega) (by omega) (by omega)
      simp only [interleaveAux]
      omega

theorem key_lt_sq (n x y : Nat) (hn : n ≤ 16) (hx : x < 2 ^ n) (hy : y < 2 ^ n) :
    key x y < 2 ^ n * 2 ^ n := by
  have h := interleaveAux_lt_of_lt n 16 x y hn hx hy
  have : (4:Nat) ^ n = 2 ^ n * 2 ^ n := by
    rw [show (4:Nat) = 2 * 2 by norm_num, mul_pow]
  rw [key] at *
  omega

theorem countAliveNeighbors_spec (g : GameField) (x y : Nat) (hx : x < 65536)
    (hy : y < 65536) (hN : g.size < 65536) (hidx : g.idx = key x y) :
    g.countAliveNeighbors = (walkSum g x y, g) := by
  have hxl : (x + 65535) % 65536 < 65536 := by omega
  have hxr : (x + 1) % 65536 < 65536 := by omega
  have hyu : (y + 65535) % 65536 < 65536 := by omega
  have hyd : (y + 1) % 65536 < 65536 := by omega
  have e1 : ((y + 65535) % 65536 + 1) % 65536 = y := by omega
  have e2 : ((y + 1) % 65536 + 65535) % 65536 = y := by omega
  have e3 : ((x + 65535) % 65536 + 1) % 65536 = x := by omega
  have h1 := up_spec g 1 x y hx hy hN hidx
  have h2 := left_spec { g with idx := key x ((y + 65535) % 65536) } 1 x
    ((y + 65535) % 65536) hx hyu hN rfl
  have h3 := down_spec { g with idx := key ((x + 65535) % 65536) ((y + 65535) % 65536) } 1
    ((x + 65535) % 65536) ((y + 65535) % 65536) hxl hyu hN rfl
  rw [e1] at h3
  have h4 := down_spec { g with idx := key ((x + 65535) % 65536) y } 1
    ((x + 65535) % 65536) y hxl hy hN rfl
  have h5 := right_spec { g with idx := key ((x + 65535) % 65536) ((y + 1) % 65536) } 1
    ((x + 65535) % 65536) ((y + 1) % 65536) hxl hyd hN rfl
  rw [e3] at h5
  have h6 := right_spec { g with idx := key x ((y + 1) % 65536) } 1 x
    ((y + 1) % 65536) hx hyd hN rfl
  have h7 := up_spec { g with idx := key ((x + 1) % 65536) ((y + 1) % 65536) } 1
    ((x + 1) % 65536) ((y + 1) % 65536) hxr hyd hN rfl
  rw [e2] at h7
  have h8 := up_spec { g with idx := key ((x + 1) % 65536) y } 1
    ((x + 1) % 65536) y hxr hy hN rfl
  simp only [GameField.countAliveNeighbors, h1, h2, h3, h4, h5, h6, h7, h8]
  rw [Prod.mk.injEq]
  refine ⟨?_, rfl⟩
  simp only [walkSum, nbrSlots, slotBit, List.map_cons, List.map_nil, List.sum_cons,
    List.sum_nil]
  have hDV : Cell.code Cell.DeadVisited &&& 1 = 0 := rfl
  simp only [hDV]
  omega

/-- The per-cell transition outcome of `updateCell`, as a function of the
current state and the neighbor count. -/
def ruleCell (c : Cell) (cnt : Nat) : Cell :=
  if c = Cell.Alive ∧ (cnt < 2 ∨ cnt > 3) then Cell.Dying
  else if c = Cell.Dead then (if cnt = 3 then Cell.Birthing else Cell.DeadVisited)
  else c

theorem updateCell_spec (g : GameField) (x y : Nat) (hx : x < 65536) (hy : y < 65536)
    (hN : g.size < 65536) (hidx : g.idx = key x y) :
    g.updateCell = { g with cells := (fun j =>
      if j = key x y then ruleCell (g.cells (key x y)) (walkSum g x y) else g.cells j) } := by
  simp only [GameField.updateCell, countAliveNeighbors_spec g x y hx hy hN hidx]
  rw [hidx]
  by_cases h1 : g.cells (key x y) = Cell.Alive ∧ (walkSum g x y < 2 ∨ walkSum g x y > 3)
  · rw [if_pos h1]
    simp only [GameField.mk.injEq]
    refine ⟨trivial, ?_, trivial⟩
    funext j
    by_cases hj : j = key x y
    · rw [if_pos hj, if_pos hj, ruleCell, if_pos h1]
    · rw [if_neg hj, if_neg hj]
  · rw [if_neg h1]
    by_cases h2 : g.cells (key x y) = Cell.Dead
    · rw [if_pos h2]
      simp only [GameField.mk.injEq]
      refine ⟨trivial, ?_, trivial⟩
      funext j
      by_cases hj : j = key x y
      · rw [if_pos hj, if_pos hj, ruleCell, if_neg h1, if_pos h2]
      · rw [if_neg hj, if_neg hj]
    · rw [if_neg h2]
      have hfun : (fun j => if j = key x y
          then ruleCell (g.cells (key x y)) (walkSum g x y) else g.cells j) = g.cells := by
        funext j
        by_cases hj : j = key x y
        · rw [if_pos hj, ruleCell, if_neg h1, if_neg h2, hj]
        · rw [if_neg hj]
      rw [hfun, ← hidx]

/-! Frame lemmas: moves never touch `size` or `cells`, and
`countAliveNeighbors` restores the cursor, so it returns the field
unchanged. -/

theorem up_snd (g : GameField) (m : Nat) : (g.up m).2 =
    { g with idx := (g.idx &&& MASK_X) ||| (((g.idx &&& MASK_Y) + 4294967295) &&& MASK_Y) } := by
  simp only [GameField.up]
  split <;> rfl

theorem down_snd (g : GameField) (m : Nat) : (g.down m).2 =
    { g with idx := (g.idx &&& MASK_X) ||| (((g.idx ||| MASK_X) + 1) &&& MASK_Y) } := by
  simp only [GameField.down]
  split <;> rfl

theorem left_snd (g : GameField) (m : Nat) : (g.left m).2 =
    { g with idx := (g.idx &&& MASK_Y) ||| (((g.idx &&& MASK_X) + 4294967295) &&& MASK_X) } := by
  simp only [GameField.left]
  split <;> rfl

theorem right_snd (g : GameField) (m : Nat) : (g.right m).2 =
    { g with idx := (g.idx &&& MASK_Y) ||| (((g.idx ||| MASK_Y) + 1) &&& MASK_X) } := by
  simp only [GameField.right]
  split <;> rfl

theorem countAliveNeighbors_snd (g : GameField) : (g.countAliveNeighbors).2 = g := by
  simp only [GameField.countAliveNeighbors, up_snd, left_snd, down_snd, right_snd]

theorem updateCell_idx (g : GameField) : (g.updateCell).idx = g.idx := by
  simp only [GameField.updateCell, countAliveNeighbors_snd]
  split
  · rfl
  · split <;> rfl

theorem updateCell_size (g : GameField) : (g.updateCell).size = g.size := by
  simp only [GameField.updateCell, countAliveNeighbors_snd]
  split
  · rfl
  · split <;> rfl

/-- The evaluate-pass rule never changes the low bit of any cell. -/
theorem updateCell_lowbit (g : GameField) (i : Nat) :
    Cell.code ((g.updateCell).cells i) &&& 1 = Cell.code (g.cells i) &&& 1 := by
  simp only [GameField.updateCell, countAliveNeighbors_snd]
  split
  · rename_i h
    show Cell.code (if i = g.idx then Cell.Dying else g.cells i) &&& 1 = _
    by_cases hj : i = g.idx
    · rw [if_pos hj, hj, h.1]
      decide
    · rw [if_neg hj]
  · split
    · rename_i h1 h2
      show Cell.code (if i = g.idx
        then (if (g.countAliveNeighbors).1 = 3 then Cell.Birthing else Cell.DeadVisited)
        else g.cells i) &&& 1 = _
      by_cases hj : i = g.idx
      · rw [if_pos hj, hj, h2]
        by_cases h3 : (g.countAliveNeighbors).1 = 3
        · rw [if_pos h3]
          decide
        · rw [if_neg h3]
          decide
      · rw [if_neg hj]
    · rfl

/-- The written state also never differs from the old one in the low bit
when `updateCell` does not fire; moves never write at all. -/
theorem visitStep_lowbit (g : GameField) (mv : GameField → Nat → Nat × GameField)
    (hmv : ((mv g maskAD).2).cells = g.cells) (i : Nat) :
    Cell.code ((visitStep g mv).cells i) &&& 1 = Cell.code (g.cells i) &&& 1 := by
  simp only [visitStep]
  split
  · rw [updateCell_lowbit, hmv]
  · rw [hmv]

theorem evalAliveCell_lowbit (g : GameField) (a i : Nat) :
    Cell.code ((evalAliveCell g a).cells i) &&& 1 = Cell.code (g.cells i) &&& 1 := by
  unfold evalAliveCell
  rw [visitStep_lowbit _ _ (by rw [up_snd]),
    visitStep_lowbit _ _ (by rw [up_snd]),
    visitStep_lowbit _ _ (by rw [right_snd]),
    visitStep_lowbit _ _ (by rw [right_snd]),
    visitStep_lowbit _ _ (by rw [down_snd]),
    visitStep_lowbit _ _ (by rw [down_snd]),
    visitStep_lowbit _ _ (by rw [left_snd]),
    visitStep_lowbit _ _ (by rw [up_snd]),
    updateCell_lowbit]

theorem evalStep_lowbit (g : GameField) (a i : Nat) :
    Cell.code ((evalStep g a).cells i) &&& 1 = Cell.code (g.cells i) &&& 1 := by
  unfold evalStep
  split
  · rw [evalAliveCell_lowbit]
  · rfl

theorem evalPass_lowbit (order : List Nat) : ∀ (g : GameField) (i : Nat),
    Cell.code ((evalPass order g).cells i) &&& 1 = Cell.code (g.cells i) &&& 1 := by
  induction order with
  | nil => intro g i; rfl
  | cons a l ih =>
    intro g i
    show Cell.code ((evalPass l (evalStep g a)).cells i) &&& 1 = _
    rw [ih, evalStep_lowbit]

/-! Persistence (`Game::saveFile` / `Game::openFile`), modelled at the level
of the `uint32` word list that the file holds: a leading size word followed
by the raw indices of the `Alive` cells.  File I/O itself is outside the
engine; `openFile` receives the decoded word list. -/

/-- The word list written by `Game::saveFile`: the grid size, then every raw
index (in increasing order) whose cell is `Alive`. -/
def saveFile (g : GameField) : List Nat :=
  g.size :: (List.range (g.size * g.size)).filter (fun i => g.cells i == Cell.Alive)

/-- `Game::openFile` after the file has been read into a word list.  A
mismatched size rebuilds the field via the constructor; a constructor throw
is caught and leaves the field untouched; then the field is cleared and the
listed indices are loaded.  (A file of fewer than 4 bytes would make the C
code read past an empty buffer; that unreachable-through-save case is
modelled as a no-op.) -/
def openFile (field : GameField) (idxs : List Nat) : GameField :=
  match idxs with
  | [] => field
  | new_size :: rest =>
    if new_size ≠ field.size then
      match constructField new_size with
      | none => field
      | some nf => (nf.clear).setAlive rest
    else (field.clear).setAlive rest

theorem setAlive_size (idxs : List Nat) : ∀ g : GameField,
    (g.setAlive idxs).size = g.size := by
  induction idxs with
  | nil => intro g; rfl
  | cons a l ih =>
    intro g
    show ((setAliveStep g a).setAlive l).size = g.size
    rw [ih]
    unfold setAliveStep
    split <;> rfl

theorem setAlive_cells (idxs : List Nat) : ∀ (g : GameField) (j : Nat),
    (g.setAlive idxs).cells j =
      if j ∈ idxs ∧ j < g.size * g.size then Cell.Alive else g.cells j := by
  induction idxs with
  | nil =>
    intro g j
    simp [GameField.setAlive]
  | cons a l ih =>
    intro g j
    show ((setAliveStep g a).setAlive l).cells j = _
    rw [ih]
    have hsz : (setAliveStep g a).size = g.size := by
      unfold setAliveStep; split <;> rfl
    rw [hsz]
    by_cases ha : a < g.size * g.size
    · have hstep : (setAliveStep g a).cells j =
          if j = a then Cell.Alive else g.cells j := by
        unfold setAliveStep
        rw [if_pos ha]
      rw [hstep]
      by_cases hj : j ∈ l ∧ j < g.size * g.size
      · rw [if_pos hj, if_pos ⟨List.mem_cons_of_mem a hj.1, hj.2⟩]
      · rw [if_neg hj]
        by_cases hja : j = a
        · rw [if_pos hja, if_pos ⟨by rw [hja]; exact List.mem_cons_self a l, by omega⟩]
        · rw [if_neg hja, if_neg (by
            intro hc
            rcases List.mem_cons.mp hc.1 with h | h
            · exact hja h
            · exact hj ⟨h, hc.2⟩)]
    · have hstep : setAliveStep g a = g := by
        unfold setAliveStep
        rw [if_neg ha]
      rw [hstep]
      by_cases hj : j ∈ l ∧ j < g.size * g.size
      · rw [if_pos hj, if_pos ⟨List.mem_cons_of_mem a hj.1, hj.2⟩]
      · rw [if_neg hj]
        by_cases hja : j = a
        · rw [if_neg (by intro hc; omega)]
        · rw [if_neg (by
            intro hc
            rcases List.mem_cons.mp hc.1 with h | h
            · exact hja h
            · exact hj ⟨h, hc.2⟩)]

theorem clear_cells (g : GameField) (j : Nat) :
    (g.clear).cells j = if j < g.size * g.size then Cell.Dead else g.cells j := rfl

theorem clear_size (g : GameField) : (g.clear).size = g.size := rfl

/-! Constructor analysis: the bit-scan loop finds the exponent of a power of
two and rejects everything else. -/

theorem scanLoop_ge : ∀ fuel n s, n ≤ (scanLoop fuel n s).1 := by
  intro fuel
  induction fuel with
  | zero => intro n s; exact Nat.le_refl n
  | succ fuel ih =>
    intro n s
    show n ≤ (if s % 2 = 1 then (n, s / 2) else scanLoop fuel (n + 1) (s / 2)).1
    split
    · exact Nat.le_refl n
    · exact Nat.le_trans (by omega) (ih (n + 1) (s / 2))

theorem scanLoop_pow2 : ∀ k fuel n, k < fuel → scanLoop fuel n (2 ^ k) = (n + k, 0) := by
  intro k
  induction k with
  | zero =>
    intro fuel n hf
    match fuel, hf with
    | fuel + 1, _ =>
      show (if 2 ^ 0 % 2 = 1 then (n, 2 ^ 0 / 2) else _) = _
      norm_num
  | succ k ih =>
    intro fuel n hf
    match fuel, hf with
    | fuel + 1, hf =>
      have he : 2 ^ (k + 1) % 2 = 0 := by
        rw [pow_succ]
        omega
      have hd : 2 ^ (k + 1) / 2 = 2 ^ k := by
        rw [pow_succ]
        omega
      show (if 2 ^ (k + 1) % 2 = 1 then _ else scanLoop fuel (n + 1) (2 ^ (k + 1) / 2)) = _
      rw [if_neg (by omega), hd, ih fuel (n + 1) (by omega)]
      rw [Prod.mk.injEq]
      omega

theorem scanLoop_inv : ∀ fuel n s n₂ s₂, scanLoop fuel n s = (n₂, s₂) → s₂ = 0 →
    n₂ < n + fuel → s = 2 ^ (n₂ - n) := by
  intro fuel
  induction fuel with
  | zero =>
    intro n s n₂ s₂ h h0 hlt
    rw [show scanLoop 0 n s = (n, s) from rfl, Prod.mk.injEq] at h
    omega
  | succ fuel ih =>
    intro n s n₂ s₂ h h0 hlt
    rw [show scanLoop (fuel + 1) n s =
      (if s % 2 = 1 then (n, s / 2) else scanLoop fuel (n + 1) (s / 2)) from rfl] at h
    by_cases hodd : s % 2 = 1
    · rw [if_pos hodd, Prod.mk.injEq] at h
      have : s = 1 := by omega
      rw [this, show n₂ - n = 0 by omega]
      norm_num
    · rw [if_neg hodd] at h
      have hge := scanLoop_ge fuel (n + 1) (s / 2)
      rw [h] at hge
      have hs2 := ih (n + 1) (s / 2) n₂ s₂ h h0 (by omega)
      have : s = 2 * (s / 2) := by omega
      rw [this, hs2, show n₂ - n = (n₂ - (n + 1)) + 1 by omega, pow_succ]
      ring

theorem constructField_some_iff (N : Nat) :
    (∃ g, constructField N = some g) ↔ (∃ k, k ≤ 12 ∧ N = 2 ^ k) := by
  constructor
  · rintro ⟨g, hg⟩
    simp only [constructField] at hg
    by_cases h1 : (scanLoop 64 0 N).1 = 64 ∨ (scanLoop 64 0 N).2 ≠ 0
    · rw [if_pos h1] at hg
      exact absurd hg (by simp)
    · rw [if_neg h1] at hg
      by_cases h2 : 12 < (scanLoop 64 0 N).1
      · rw [if_pos h2] at hg
        exact absurd hg (by simp)
      · push_neg at h1
        refine ⟨(scanLoop 64 0 N).1, by omega, ?_⟩
        have := scanLoop_inv 64 0 N (scanLoop 64 0 N).1 (scanLoop 64 0 N).2 rfl h1.2 (by omega)
        simpa using this
  · rintro ⟨k, hk, rfl⟩
    refine ⟨{ size := 2 ^ k, cells := fun _ => Cell.Dead, idx := 0 }, ?_⟩
    simp only [constructField]
    rw [scanLoop_pow2 k 64 0 (by omega)]
    rw [if_neg (by simp; omega), if_neg (by simp; omega)]

/-- Re-running `updateCell` on an already evaluated (`Birthing`, `Dying` or
`DeadVisited`) cell changes nothing at all. -/
theorem updateCell_noop (g : GameField)
    (h : g.cells g.idx = Cell.Birthing ∨ g.cells g.idx = Cell.Dying ∨
      g.cells g.idx = Cell.DeadVisited) :
    g.updateCell = g := by
  simp only [GameField.updateCell, countAliveNeighbors_snd]
  rcases h with h | h | h <;> rw [if_neg (by simp [h]), if_neg (by simp [h])]

/-! Properties of the walk positions: no repeats, and at interior cells they
are literally the eight Moore neighbors. -/

theorem nbrSlots_nodup (x y : Nat) (hx : x < 32768) (hy : y < 32768) :
    (nbrSlots x y).Nodup := by
  simp only [nbrSlots, List.nodup_cons, List.mem_cons, List.not_mem_nil, or_false,
    List.nodup_nil, and_true, Prod.mk.injEq, not_or]
  repeat' apply And.intro
  all_goals first | trivial | omega

theorem nbrSlots_interior (x y : Nat) (hx0 : 0 < x) (hy0 : 0 < y)
    (hx : x < 32768) (hy : y < 32768) :
    nbrSlots x y = [(x, y - 1), (x - 1, y - 1), (x - 1, y), (x - 1, y + 1), (x, y + 1),
      (x + 1, y + 1), (x + 1, y), (x + 1, y - 1)] := by
  simp only [nbrSlots]
  rw [show (x + 65535) % 65536 = x - 1 by omega, show (y + 65535) % 65536 = y - 1 by omega,
    show (x + 1) % 65536 = x + 1 by omega, show (y + 1) % 65536 = y + 1 by omega]

/-- In-grid membership in the walk positions is exactly Moore adjacency. -/
theorem mem_nbrSlots_iff (N x y u v : Nat) (hN : N ≤ 4096) (hx : x < N) (hy : y < N)
    (hu : u < N) (hv : v < N) :
    (u, v) ∈ nbrSlots x y ↔
      (¬(u = x ∧ v = y) ∧ (u = x ∨ u + 1 = x ∨ x + 1 = u) ∧
        (v = y ∨ v + 1 = y ∨ y + 1 = v)) := by
  simp only [nbrSlots, List.mem_cons, List.not_mem_nil, or_false, Prod.mk.injEq]
  constructor
  · intro h
    rcases h with h | h | h | h | h | h | h | h <;>
      exact ⟨by omega, by omega, by omega⟩
  · intro ⟨h1, h2, h3⟩
    rcases h2 with h2 | h2 | h2 <;> rcases h3 with h3 | h3 | h3
    · omega
    · refine Or.inl ⟨by omega, by omega⟩
    · refine Or.inr (Or.inr (Or.inr (Or.inr (Or.inl ⟨by omega, by omega⟩))))
    · refine Or.inr (Or.inr (Or.inl ⟨by omega, by omega⟩))
    · refine Or.inr (Or.inl ⟨by omega, by omega⟩)
    · refine Or.inr (Or.inr (Or.inr (Or.inl ⟨by omega, by omega⟩)))
    · refine Or.inr (Or.inr (Or.inr (Or.inr (Or.inr (Or.inr (Or.inl ⟨by omega, by omega⟩))))))
    · refine Or.inr (Or.inr (Or.inr (Or.inr (Or.inr (Or.inr (Or.inr ⟨by omega, by omega⟩))))))
    · refine Or.inr (Or.inr (Or.inr (Or.inr (Or.inr (Or.inl ⟨by omega, by omega⟩)))))

/-! Decoding a lane value back to its coordinate. -/

theorem deXAux_testBit : ∀ k i t, (deXAux k i).testBit t =
    (decide (t < k) && i.testBit (2 * t)) := by
  intro k
  induction k with
  | zero =>
    intro i t
    simp [deXAux, Nat.zero_testBit]
  | succ k ih =>
    intro i t
    match t with
    | 0 =>
      have h2 : (i % 2 + 2 * deXAux k (i / 4)) % 2 = i % 2 := by omega
      simp only [deXAux, Nat.testBit_to_div_mod, pow_zero, Nat.div_one, h2]
      simp
    | t + 1 =>
      have h2 : (i % 2 + 2 * deXAux k (i / 4)) / 2 = deXAux k (i / 4) := by omega
      show (deXAux (k + 1) i).testBit (t + 1) = _
      rw [show deXAux (k + 1) i = i % 2 + 2 * deXAux k (i / 4) from rfl]
      rw [Nat.testBit_succ, h2, ih]
      have e1 : decide (t < k) = decide (t + 1 < k + 1) := by
        simp [decide_eq_decide]
      rw [← e1]
      congr 1
      have e2 : i / 4 = i / 2 / 2 := by omega
      rw [e2, ← Nat.testBit_succ, ← Nat.testBit_succ]
      congr 1

theorem deXAux_lt : ∀ k i, deXAux k i < 2 ^ k := by
  intro k
  induction k with
  | zero =>
    intro i
    simp [deXAux]
  | succ k ih =>
    intro i
    have := ih (i / 4)
    have hp : (2:Nat) ^ (k + 1) = 2 * 2 ^ k := by rw [pow_succ]; ring
    simp only [deXAux]
    omega

theorem MASK_X_testBit (j : Nat) : MASK_X.testBit j =
    (decide (j < 32) && decide (j % 2 = 0)) := by
  by_cases h32 : j < 32
  · interval_cases j <;> decide
  · have hf : MASK_X.testBit j = false :=
      Nat.testBit_eq_false_of_lt (lt_of_lt_of_le
        (by norm_num [MASK_X] : MASK_X < 2 ^ 32)
        (Nat.pow_le_pow_right (by norm_num) (by omega)))
    simp [hf, h32]

theorem MASK_Y_testBit (j : Nat) : MASK_Y.testBit j =
    (decide (j < 32) && decide (j % 2 = 1)) := by
  by_cases h32 : j < 32
  · interval_cases j <;> decide
  · have hf : MASK_Y.testBit j = false :=
      Nat.testBit_eq_false_of_lt (lt_of_lt_of_le
        (by norm_num [MASK_Y] : MASK_Y < 2 ^ 32)
        (Nat.pow_le_pow_right (by norm_num) (by omega)))
    simp [hf, h32]

/-- A value with only even (x-lane) bits is the spread of its decode. -/
theorem even_lane (v : Nat) (hv : v &&& MASK_X = v) : v = key (deX v) 0 := by
  apply Nat.eq_of_testBit_eq
  intro j
  have hj : v.testBit j = (v.testBit j && MASK_X.testBit j) := by
    conv_lhs => rw [← hv]
    rw [Nat.testBit_and]
  rw [MASK_X_testBit] at hj
  rw [key_testBit]
  by_cases h32 : j < 32 <;> by_cases h2 : j % 2 = 0
  · rw [if_pos h2, deX, deXAux_testBit, show 2 * (j / 2) = j by omega]
    have hd : decide (j / 2 < 16) = true := by simp; omega
    have h32d : decide (j < 32) = true := by simp [h32]
    rw [hd, h32d]
    simp
  · have : v.testBit j = false := by
      simpa [h2] using hj
    rw [this, if_neg h2]
    simp [Nat.zero_testBit]
  · have : v.testBit j = false := by
      simpa [h32] using hj
    rw [this]
    simp [h32]
  · have : v.testBit j = false := by
      simpa [h32] using hj
    rw [this]
    simp [h32]

/-- A value with only odd (y-lane) bits is the doubled spread of its decode. -/
theorem odd_lane (v : Nat) (hv : v &&& MASK_Y = v) : v = key 0 (deY v) := by
  apply Nat.eq_of_testBit_eq
  intro j
  have hj : v.testBit j = (v.testBit j && MASK_Y.testBit j) := by
    conv_lhs => rw [← hv]
    rw [Nat.testBit_and]
  rw [MASK_Y_testBit] at hj
  rw [key_testBit]
  by_cases h32 : j < 32 <;> by_cases h2 : j % 2 = 0
  · have : v.testBit j = false := by
      simpa [show ¬ (j % 2 = 1) by omega] using hj
    rw [this, if_pos h2]
    simp [Nat.zero_testBit]
  · rw [if_neg h2, deY, deXAux_testBit]
    rw [show (v / 2).testBit (2 * (j / 2)) = v.testBit (2 * (j / 2) + 1) from
      (Nat.testBit_succ v (2 * (j / 2))).symm, show 2 * (j / 2) + 1 = j by omega]
    have hd : decide (j / 2 < 16) = true := by simp; omega
    have h32d : decide (j < 32) = true := by simp [h32]
    rw [hd, h32d]
    simp
  · have : v.testBit j = false := by
      simpa [h32] using hj
    rw [this]
    simp [h32]
  · have : v.testBit j = false := by
      simpa [h32] using hj
    rw [this]
    simp [h32]

theorem and_mask_idem (a m : Nat) : (a &&& m) &&& m = a &&& m := by
  rw [Nat.and_assoc, Nat.and_self]

/-- Whenever a lane pair passes the bounds guard of a move, the resulting
raw index is inside the array, provided the grid side is a power of two. -/
theorem lane_guard_inbounds (g : GameField) (n : Nat) (hn : n ≤ 12) (hsz : g.size = 2 ^ n)
    (xv yv : Nat) (hxl : xv &&& MASK_X = xv) (hyl : yv &&& MASK_Y = yv)
    (hgx : ¬ g.size_x ≤ xv) (hgy : ¬ g.size_y ≤ yv) :
    xv ||| yv < g.size * g.size ∧ yv ||| xv < g.size * g.size := by
  have hNlt : g.size < 65536 := by
    have : (2:Nat) ^ n ≤ 2 ^ 12 := Nat.pow_le_pow_right (by norm_num) hn
    have := pow16_eq
    omega
  have hxv : xv = key (deX xv) 0 := even_lane xv hxl
  have hyv : yv = key 0 (deY yv) := odd_lane yv hyl
  have hdx : deX xv < 65536 := by
    rw [deX]
    have := deXAux_lt 16 xv
    have := pow16_eq
    omega
  have hdy : deY yv < 65536 := by
    rw [deY]
    have := deXAux_lt 16 (yv / 2)
    have := pow16_eq
    omega
  have hsx : g.size_x = key g.size 0 := by rw [GameField.size_x, interleaveXY_eq_key]
  have hsy : g.size_y = key 0 g.size := by
    rw [GameField.size_y, hsx, Nat.shiftLeft_eq]
    have hd := key_zero_left g.size
    have h2 : (2:Nat) ^ 1 = 2 := by norm_num
    omega
  have hux : deX xv < g.size := by
    rw [hsx, hxv] at hgx
    have := key_le_iff (deX xv) g.size hdx hNlt
    omega
  have huy : deY yv < g.size := by
    rw [hsy, hyv] at hgy
    have := key_le_iff_y (deY yv) g.size hdy hNlt
    omega
  have hks := key_lt_sq n (deX xv) (deY yv) (by omega) (by omega) (by omega)
  rw [← hsz] at hks
  constructor
  · rw [hxv, hyv, key_or, Nat.or_zero, Nat.zero_or]
    exact hks
  · rw [hxv, hyv, key_or, Nat.or_zero, Nat.zero_or]
    exact hks

/-! Read tracking: shadow functions computing, with the same arithmetic and
the same guards as the moves, which array index (if any) a move dereferences.
`none` means the off-grid sentinel path, which touches no memory. -/

def GameField.rightRead (g : GameField) : Option Nat :=
  let y := g.idx &&& MASK_Y
  let x := ((g.idx ||| MASK_Y) + 1) &&& MASK_X
  let idx := y ||| x
  if g.size_x ≤ x ∨ g.size_y ≤ y then none else some idx

def GameField.leftRead (g : GameField) : Option Nat :=
  let y := g.idx &&& MASK_Y
  let x := ((g.idx &&& MASK_X) + 4294967295) &&& MASK_X
  let idx := y ||| x
  if g.size_x ≤ x ∨ g.size_y ≤ y then none else some idx

def GameField.upRead (g : GameField) : Option Nat :=
  let x := g.idx &&& MASK_X
  let y := ((g.idx &&& MASK_Y) + 4294967295) &&& MASK_Y
  let idx := x ||| y
  if g.size_y ≤ y ∨ g.size_x ≤ x then none else some idx

def GameField.downRead (g : GameField) : Option Nat :=
  let x := g.idx &&& MASK_X
  let y := ((g.idx ||| MASK_X) + 1) &&& MASK_Y
  let idx := x ||| y
  if g.size_y ≤ y ∨ g.size_x ≤ x then none else some idx

/-- The array indices dereferenced by one `countAliveNeighbors` call, in walk
order, with off-grid queries contributing nothing. -/
def GameField.countAliveNeighborsReads (g : GameField) : List Nat :=
  let p1 := g.up 1
  let p2 := p1.2.left 1
  let p3 := p2.2.down 1
  let p4 := p3.2.down 1
  let p5 := p4.2.right 1
  let p6 := p5.2.right 1
  let p7 := p6.2.up 1
  List.filterMap id
    [g.upRead, p1.2.leftRead, p2.2.downRead, p3.2.downRead, p4.2.rightRead,
      p5.2.rightRead, p6.2.upRead, p7.2.upRead]

/-- Every index a move dereferences is inside the array, whatever the cursor
holds (even an off-grid key), as long as the grid side is the constructor's
power of two. -/
theorem reads_inbounds (g : GameField) (n : Nat) (hn : n ≤ 12) (hsz : g.size = 2 ^ n) :
    (∀ i, g.rightRead = some i → i < g.size * g.size) ∧
    (∀ i, g.leftRead = some i → i < g.size * g.size) ∧
    (∀ i, g.upRead = some i → i < g.size * g.size) ∧
    (∀ i, g.downRead = some i → i < g.size * g.size) := by
  refine ⟨?_, ?_, ?_, ?_⟩ <;> intro i h
  · simp only [GameField.rightRead] at h
    by_cases hg : g.size_x ≤ ((g.idx ||| MASK_Y) + 1) &&& MASK_X ∨ g.size_y ≤ g.idx &&& MASK_Y
    · rw [if_pos hg] at h
      exact absurd h (by simp)
    · rw [if_neg hg] at h
      push_neg at hg
      have := (lane_guard_inbounds g n hn hsz (((g.idx ||| MASK_Y) + 1) &&& MASK_X)
        (g.idx &&& MASK_Y) (and_mask_idem _ _) (and_mask_idem _ _)
        (by omega) (by omega)).2
      rw [Option.some.injEq] at h
      omega
  · simp only [GameField.leftRead] at h
    by_cases hg : g.size_x ≤ ((g.idx &&& MASK_X) + 4294967295) &&& MASK_X ∨
        g.size_y ≤ g.idx &&& MASK_Y
    · rw [if_pos hg] at h
      exact absurd h (by simp)
    · rw [if_neg hg] at h
      push_neg at hg
      have := (lane_guard_inbounds g n hn hsz (((g.idx &&& MASK_X) + 4294967295) &&& MASK_X)
        (g.idx &&& MASK_Y) (and_mask_idem _ _) (and_mask_idem _ _)
        (by omega) (by omega)).2
      rw [Option.some.injEq] at h
      omega
  · simp only [GameField.upRead] at h
    by_cases hg : g.size_y ≤ ((g.idx &&& MASK_Y) + 4294967295) &&& MASK_Y ∨
        g.size_x ≤ g.idx &&& MASK_X
    · rw [if_pos hg] at h
      exact absurd h (by simp)
    · rw [if_neg hg] at h
      push_neg at hg
      have := (lane_guard_inbounds g n hn hsz (g.idx &&& MASK_X)
        (((g.idx &&& MASK_Y) + 4294967295) &&& MASK_Y) (and_mask_idem _ _) (and_mask_idem _ _)
        (by omega) (by omega)).1
      rw [Option.some.injEq] at h
      omega
  · simp only [GameField.downRead] at h
    by_cases hg : g.size_y ≤ ((g.idx ||| MASK_X) + 1) &&& MASK_Y ∨
        g.size_x ≤ g.idx &&& MASK_X
    · rw [if_pos hg] at h
      exact absurd h (by simp)
    · rw [if_neg hg] at h
      push_neg at hg
      have := (lane_guard_inbounds g n hn hsz (g.idx &&& MASK_X)
        (((g.idx ||| MASK_X) + 1) &&& MASK_Y) (and_mask_idem _ _) (and_mask_idem _ _)
        (by omega) (by omega)).1
      rw [Option.some.injEq] at h
      omega

/-- Index read by one slot of the walk: the key, when in grid. -/
def slotRead (g : GameField) : Nat × Nat → Option Nat
  | (u, v) => if u < g.size ∧ v < g.size then some (key u v) else none

theorem rightRead_spec (g : GameField) (x y : Nat) (hx : x < 65536) (hy : y < 65536)
    (hN : g.size < 65536) (hidx : g.idx = key x y) :
    g.rightRead = (if (x + 1) % 65536 < g.size ∧ y < g.size
      then some (key ((x + 1) % 65536) y) else none) := by
  have hx1 : (x + 1) % 65536 < 65536 := by omega
  have hyl : g.idx &&& MASK_Y = key 0 y := by rw [hidx, key_and_MASK_Y]
  have hxl : ((g.idx ||| MASK_Y) + 1) &&& MASK_X = key ((x + 1) % 65536) 0 := by
    rw [hidx]; exact right_core x y hx
  simp only [GameField.rightRead, hyl, hxl]
  rw [show key 0 y ||| key ((x + 1) % 65536) 0 = key ((x + 1) % 65536) y by
    rw [key_or, Nat.zero_or, Nat.or_zero]]
  by_cases hc : (x + 1) % 65536 < g.size ∧ y < g.size
  · rw [if_pos hc, if_neg ((guard_iff g _ y hx1 hy hN).not.mpr (not_not_intro hc))]
  · rw [if_neg hc, if_pos ((guard_iff g _ y hx1 hy hN).mpr hc)]

theorem leftRead_spec (g : GameField) (x y : Nat) (hx : x < 65536) (hy : y < 65536)
    (hN : g.size < 65536) (hidx : g.idx = key x y) :
    g.leftRead = (if (x + 65535) % 65536 < g.size ∧ y < g.size
      then some (key ((x + 65535) % 65536) y) else none) := by
  have hx1 : (x + 65535) % 65536 < 65536 := by omega
  have hyl : g.idx &&& MASK_Y = key 0 y := by rw [hidx, key_and_MASK_Y]
  have hxl : ((g.idx &&& MASK_X) + 4294967295) &&& MASK_X = key ((x + 65535) % 65536) 0 := by
    rw [hidx]; exact left_core x y hx
  simp only [GameField.leftRead, hyl, hxl]
  rw [show key 0 y ||| key ((x + 65535) % 65536) 0 = key ((x + 65535) % 65536) y by
    rw [key_or, Nat.zero_or, Nat.or_zero]]
  by_cases hc : (x + 65535) % 65536 < g.size ∧ y < g.size
  · rw [if_pos hc, if_neg ((guard_iff g _ y hx1 hy hN).not.mpr (not_not_intro hc))]
  · rw [if_neg hc, if_pos ((guard_iff g _ y hx1 hy hN).mpr hc)]

theorem upRead_spec (g : GameField) (x y : Nat) (hx : x < 65536) (hy : y < 65536)
    (hN : g.size < 65536) (hidx : g.idx = key x y) :
    g.upRead = (if x < g.size ∧ (y + 65535) % 65536 < g.size
      then some (key x ((y + 65535) % 65536)) else none) := by
  have hy1 : (y + 65535) % 65536 < 65536 := by omega
  have hxl : g.idx &&& MASK_X = key x 0 := by rw [hidx, key_and_MASK_X]
  have hyl : ((g.idx &&& MASK_Y) + 4294967295) &&& MASK_Y = key 0 ((y + 65535) % 65536) := by
    rw [hidx]; exact up_core x y hy
  simp only [GameField.upRead, hxl, hyl]
  rw [show key x 0 ||| key 0 ((y + 65535) % 65536) = key x ((y + 65535) % 65536) by
    rw [key_or, Nat.zero_or, Nat.or_zero]]
  by_cases hc : x < g.size ∧ (y + 65535) % 65536 < g.size
  · rw [if_pos hc, if_neg ((guard_iff_y g x _ hx hy1 hN).not.mpr (not_not_intro hc))]
  · rw [if_neg hc, if_pos ((guard_iff_y g x _ hx hy1 hN).mpr hc)]

theorem downRead_spec (g : GameField) (x y : Nat) (hx : x < 65536) (hy : y < 65536)
    (hN : g.size < 65536) (hidx : g.idx = key x y) :
    g.downRead = (if x < g.size ∧ (y + 1) % 65536 < g.size
      then some (key x ((y + 1) % 65536)) else none) := by
  have hy1 : (y + 1) % 65536 < 65536 := by omega
  have hxl : g.idx &&& MASK_X = key x 0 := by rw [hidx, key_and_MASK_X]
  have hyl : ((g.idx ||| MASK_X) + 1) &&& MASK_Y = key 0 ((y + 1) % 65536) := by
    rw [hidx]; exact down_core x y hy
  simp only [GameField.downRead, hxl, hyl]
  rw [show key x 0 ||| key 0 ((y + 1) % 65536) = key x ((y + 1) % 65536) by
    rw [key_or, Nat.zero_or, Nat.or_zero]]
  by_cases hc : x < g.size ∧ (y + 1) % 65536 < g.size
  · rw [if_pos hc, if_neg ((guard_iff_y g x _ hx hy1 hN).not.mpr (not_not_intro hc))]
  · rw [if_neg hc, if_pos ((guard_iff_y g x _ hx hy1 hN).mpr hc)]

theorem countAliveNeighborsReads_spec (g : GameField) (x y : Nat) (hx : x < 65536)
    (hy : y < 65536) (hN : g.size < 65536) (hidx : g.idx = key x y) :
    g.countAliveNeighborsReads = ((nbrSlots x y).map (slotRead g)).filterMap id := by
  have hxl : (x + 65535) % 65536 < 65536 := by omega
  have hxr : (x + 1) % 65536 < 65536 := by omega
  have hyu : (y + 65535) % 65536 < 65536 := by omega
  have hyd : (y + 1) % 65536 < 65536 := by omega
  have e1 : ((y + 65535) % 65536 + 1) % 65536 = y := by omega
  have e2 : ((y + 1) % 65536 + 65535) % 65536 = y := by omega
  have e3 : ((x + 65535) % 65536 + 1) % 65536 = x := by omega
  have h1 := up_spec g 1 x y hx hy hN hidx
  have h2 := left_spec { g with idx := key x ((y + 65535) % 65536) } 1 x
    ((y + 65535) % 65536) hx hyu hN rfl
  have h3 := down_spec { g with idx := key ((x + 65535) % 65536) ((y + 65535) % 65536) } 1
    ((x + 65535) % 65536) ((y + 65535) % 65536) hxl hyu hN rfl
  rw [e1] at h3
  have h4 := down_spec { g with idx := key ((x + 65535) % 65536) y } 1
    ((x + 65535) % 65536) y hxl hy hN rfl
  have h5 := right_spec { g with idx := key ((x + 65535) % 65536) ((y + 1) % 65536) } 1
    ((x + 65535) % 65536) ((y + 1) % 65536) hxl hyd hN rfl
  rw [e3] at h5
  have h6 := right_spec { g with idx := key x ((y + 1) % 65536) } 1 x
    ((y + 1) % 65536) hx hyd hN rfl
  have h7 := up_spec { g with idx := key ((x + 1) % 65536) ((y + 1) % 65536) } 1
    ((x + 1) % 65536) ((y + 1) % 65536) hxr hyd hN rfl
  rw [e2] at h7
  have r1 := upRead_spec g x y hx hy hN hidx
  have r2 := leftRead_spec { g with idx := key x ((y + 65535) % 65536) } x
    ((y + 65535) % 65536) hx hyu hN rfl
  have r3 := downRead_spec { g with idx := key ((x + 65535) % 65536) ((y + 65535) % 65536) }
    ((x + 65535) % 65536) ((y + 65535) % 65536) hxl hyu hN rfl
  rw [e1] at r3
  have r4 := downRead_spec { g with idx := key ((x + 65535) % 65536) y }
    ((x + 65535) % 65536) y hxl hy hN rfl
  have r5 := rightRead_spec { g with idx := key ((x + 65535) % 65536) ((y + 1) % 65536) }
    ((x + 65535) % 65536) ((y + 1) % 65536) hxl hyd hN rfl
  rw [e3] at r5
  have r6 := rightRead_spec { g with idx := key x ((y + 1) % 65536) } x
    ((y + 1) % 65536) hx hyd hN rfl
  have r7 := upRead_spec { g with idx := key ((x + 1) % 65536) ((y + 1) % 65536) }
    ((x + 1) % 65536) ((y + 1) % 65536) hxr hyd hN rfl
  rw [e2] at r7
  have r8 := upRead_spec { g with idx := key ((x + 1) % 65536) y }
    ((x + 1) % 65536) y hxr hy hN rfl
  simp only [GameField.countAliveNeighborsReads, h1, h2, h3, h4, h5, h6, h7,
    r1, r2, r3, r4, r5, r6, r7, r8]
  simp only [nbrSlots, List.map_cons, List.map_nil, slotRead]

/-! Decode is a two-sided inverse of the Morton key on the relevant ranges,
so keys of distinct in-grid coordinates are distinct and every raw index
below `size * size` is the key of a unique coordinate pair. -/

theorem deX_key (x y : Nat) : deX (key x y) = x % 65536 := by
  apply Nat.eq_of_testBit_eq
  intro t
  rw [deX, deXAux_testBit, key_testBit]
  rw [show (65536:Nat) = 2 ^ 16 by norm_num, Nat.testBit_mod_two_pow]
  by_cases ht : t < 16
  · have h1 : 2 * t < 32 := by omega
    have h2 : 2 * t % 2 = 0 := by omega
    have h3 : 2 * t / 2 = t := by omega
    simp [ht, h1, h2, h3]
  · simp [ht, show ¬ 2 * t < 32 by omega]

theorem deY_key (x y : Nat) : deY (key x y) = y % 65536 := by
  apply Nat.eq_of_testBit_eq
  intro t
  rw [deY, deXAux_testBit]
  rw [show (key x y / 2).testBit (2 * t) = (key x y).testBit (2 * t + 1) from
    (Nat.testBit_succ _ _).symm]
  rw [key_testBit]
  rw [show (65536:Nat) = 2 ^ 16 by norm_num, Nat.testBit_mod_two_pow]
  by_cases ht : t < 16
  · have h1 : 2 * t + 1 < 32 := by omega
    have h2 : ¬ (2 * t + 1) % 2 = 0 := by omega
    have h3 : (2 * t + 1) / 2 = t := by omega
    simp [ht, h1, h2, h3]
  · simp [ht, show ¬ 2 * t + 1 < 32 by omega]

theorem key_inj (x y u v : Nat) (hx : x < 65536) (hy : y < 65536) (hu : u < 65536)
    (hv : v < 65536) (h : key x y = key u v) : x = u ∧ y = v := by
  have h1 := deX_key x y
  have h2 := deX_key u v
  have h3 := deY_key x y
  have h4 := deY_key u v
  rw [h] at h1 h3
  constructor <;> omega

theorem key_decode (i : Nat) (hi : i < 2 ^ 32) : key (deX i) (deY i) = i := by
  apply Nat.eq_of_testBit_eq
  intro j
  rw [key_testBit]
  by_cases h32 : j < 32
  · by_cases h2 : j % 2 = 0
    · rw [if_pos h2, deX, deXAux_testBit, show 2 * (j / 2) = j by omega]
      have : decide (j / 2 < 16) = true := by simp; omega
      simp [h32, this]
    · rw [if_neg h2, deY, deXAux_testBit]
      rw [show (i / 2).testBit (2 * (j / 2)) = i.testBit (2 * (j / 2) + 1) from
        (Nat.testBit_succ _ _).symm, show 2 * (j / 2) + 1 = j by omega]
      have : decide (j / 2 < 16) = true := by simp; omega
      simp [h32, this]
  · have : i.testBit j = false :=
      Nat.testBit_eq_false_of_lt
        (lt_of_lt_of_le hi (Nat.pow_le_pow_right (by norm_num) (by omega)))
    simp [h32, this]

theorem deXAux_lt_of_lt : ∀ m k i, m ≤ k → i < 4 ^ m → deXAux k i < 2 ^ m := by
  intro m
  induction m with
  | zero =>
    intro k i hm hi
    have : i = 0 := by omega
    subst this
    have hz : ∀ k, deXAux k 0 = 0 := by
      intro k
      induction k with
      | zero => rfl
      | succ k ih => simp [deXAux, ih]
    rw [hz]
    norm_num
  | succ m ih =>
    intro k i hm hi
    match k, hm with
    | k + 1, hm =>
      have h4p : (4:Nat) ^ (m + 1) = 4 * 4 ^ m := by rw [pow_succ]; ring
      have hp : (2:Nat) ^ (m + 1) = 2 * 2 ^ m := by rw [pow_succ]; ring
      have := ih k (i / 4) (by omega) (by omega)
      simp only [deXAux]
      omega

theorem deX_lt_of_sq (n i : Nat) (hn : n ≤ 16) (hi : i < 2 ^ n * 2 ^ n) :
    deX i < 2 ^ n ∧ deY i < 2 ^ n := by
  have h4 : (4:Nat) ^ n = 2 ^ n * 2 ^ n := by
    rw [show (4:Nat) = 2 * 2 by norm_num, mul_pow]
  constructor
  · exact deXAux_lt_of_lt n 16 i hn (by omega)
  · apply deXAux_lt_of_lt n 16 (i / 2) hn
    -- odd-position bits of i: i / 2 < 4 ^ n since i < 2 * 4 ^ n... this needs care:
    -- i < 4 ^ n, so i / 2 < 4 ^ n as well.
    omega

/-- Moore adjacency through the walk slots is symmetric for in-grid cells. -/
theorem nbrSlots_symm (N x y u v : Nat) (hN : N ≤ 4096) (hx : x < N) (hy : y < N)
    (hu : u < N) (hv : v < N) :
    ((u, v) ∈ nbrSlots x y ↔ (x, y) ∈ nbrSlots u v) := by
  rw [mem_nbrSlots_iff N x y u v hN hx hy hu hv,
    mem_nbrSlots_iff N u v x y hN hu hv hx hy]
  constructor
  · intro ⟨h1, h2, h3⟩
    exact ⟨by omega, by omega, by omega⟩
  · intro ⟨h1, h2, h3⟩
    exact ⟨by omega, by omega, by omega⟩

/-! The evaluate-pass invariant.  With `P` the list of raw indices already
processed by the outer loop, every cell's state (and the number of
`updateCell` applications it has received) is a function of the initial
grid and `P` alone; in particular it does not depend on the order of `P`,
only on membership. -/

/-- Contribution of a walk slot of `(x, y)` to the count of already
processed alive neighbors. -/
def slotProc (g0 : GameField) (P : List Nat) : Nat × Nat → Nat
  | (u, v) => if u < g0.size ∧ v < g0.size ∧ key u v ∈ P ∧
      g0.cells (key u v) = Cell.Alive then 1 else 0

/-- Number of already-processed alive neighbors of `(x, y)`. -/
def procNbrs (g0 : GameField) (P : List Nat) (x y : Nat) : Nat :=
  ((nbrSlots x y).map (slotProc g0 P)).sum

/-- State of cell `(x, y)` after the evaluate loop has processed exactly the
indices in `P`. -/
def evalState (g0 : GameField) (P : List Nat) (x y : Nat) : Cell :=
  if g0.cells (key x y) = Cell.Alive then
    (if key x y ∈ P then
      (if walkSum g0 x y < 2 ∨ walkSum g0 x y > 3 then Cell.Dying else Cell.Alive)
    else Cell.Alive)
  else
    (if 0 < procNbrs g0 P x y then
      (if walkSum g0 x y = 3 then Cell.Birthing else Cell.DeadVisited)
    else g0.cells (key x y))

/-- Number of `updateCell` applications cell `(x, y)` has received after the
evaluate loop has processed exactly the indices in `P`. -/
def countsState (g0 : GameField) (P : List Nat) (x y : Nat) : Nat :=
  if g0.cells (key x y) = Cell.Alive then (if key x y ∈ P then 1 else 0)
  else
    (if walkSum g0 x y = 3 then procNbrs g0 P x y else min 1 (procNbrs g0 P x y))

theorem evalState_lowbit (g0 : GameField) (P : List Nat) (x y : Nat)
    (hDA : g0.cells (key x y) = Cell.Dead ∨ g0.cells (key x y) = Cell.Alive) :
    Cell.code (evalState g0 P x y) &&& 1 = Cell.code (g0.cells (key x y)) &&& 1 := by
  unfold evalState
  by_cases hA : g0.cells (key x y) = Cell.Alive
  · rw [if_pos hA, hA]
    split
    · split <;> rfl
    · rfl
  · rw [if_neg hA]
    have hD : g0.cells (key x y) = Cell.Dead := by tauto
    rw [hD]
    split
    · split <;> rfl
    · rfl

/-- Helper: adding one new element to a nodup list shifts an indicator sum
by the element's multiplicity. -/
theorem sum_map_indicator (q : Nat × Nat) (f fq : Nat × Nat → Nat)
    (hpoint : ∀ p, fq p = f p + (if p = q then 1 else 0)) :
    ∀ l : List (Nat × Nat), l.Nodup →
    (l.map fq).sum = (l.map f).sum + (if q ∈ l then 1 else 0) := by
  intro l
  induction l with
  | nil => intro _; simp
  | cons a l ih =>
    intro hnd
    rcases List.nodup_cons.mp hnd with ⟨hna, hnd⟩
    simp only [List.map_cons, List.sum_cons, ih hnd, hpoint a, List.mem_cons]
    by_cases haq : a = q
    · subst haq
      rw [if_neg (fun h => hna h), if_pos (Or.inl rfl), if_pos rfl]
      omega
    · rw [if_neg haq]
      by_cases hq : q ∈ l
      · rw [if_pos hq, if_pos (Or.inr hq)]
        omega
      · rw [if_neg hq, if_neg (by tauto)]
        omega

/-- Appending a processed alive cell raises each neighbor's processed count
by exactly its adjacency indicator. -/
theorem procNbrs_append (g0 : GameField) (P : List Nat) (a ax ay : Nat)
    (hN : g0.size ≤ 4096) (hax : ax < g0.size) (hay : ay < g0.size)
    (hkey : key ax ay = a) (haP : a ∉ P) (haAlive : g0.cells a = Cell.Alive)
    (x y : Nat) (hx : x < g0.size) (hy : y < g0.size) :
    procNbrs g0 (P ++ [a]) x y =
      procNbrs g0 P x y + (if (ax, ay) ∈ nbrSlots x y then 1 else 0) := by
  have hpoint : ∀ p, slotProc g0 (P ++ [a]) p =
      slotProc g0 P p + (if p = (ax, ay) then 1 else 0) := by
    intro p
    rcases p with ⟨u, v⟩
    by_cases hp : (u, v) = (ax, ay)
    · rw [Prod.mk.injEq] at hp
      obtain ⟨h1, h2⟩ := hp
      subst h1
      subst h2
      simp only [slotProc]
      rw [hkey]
      rw [if_pos ⟨hax, hay, List.mem_append_right _ (List.mem_singleton_self a), haAlive⟩]
      rw [if_neg (fun hc => haP hc.2.2.1)]
      simp
    · have hp2 : ¬(u = ax ∧ v = ay) := fun hc => hp (by rw [hc.1, hc.2])
      simp only [slotProc]
      rw [if_neg hp]
      by_cases hg : u < g0.size ∧ v < g0.size
      · have hmem : key u v ∈ P ++ [a] ↔ key u v ∈ P := by
          rw [List.mem_append, List.mem_singleton]
          constructor
          · intro h
            rcases h with h | h
            · exact h
            · exfalso
              rw [← hkey] at h
              have := key_inj u v ax ay (by omega) (by omega) (by omega) (by omega) h
              exact hp2 ⟨this.1, this.2⟩
          · exact Or.inl
        by_cases hP : key u v ∈ P ∧ g0.cells (key u v) = Cell.Alive
        · rw [if_pos ⟨hg.1, hg.2, hmem.mpr hP.1, hP.2⟩, if_pos ⟨hg.1, hg.2, hP.1, hP.2⟩]
        · rw [if_neg (by
            intro hc
            exact hP ⟨hmem.mp hc.2.2.1, hc.2.2.2⟩), if_neg (by
            intro hc
            exact hP ⟨hc.2.2.1, hc.2.2.2⟩)]
      · rw [if_neg (fun hc => hg ⟨hc.1, hc.2.1⟩), if_neg (fun hc => hg ⟨hc.1, hc.2.1⟩)]
  have hnd := nbrSlots_nodup x y (by omega) (by omega)
  have h := sum_map_indicator (ax, ay) (slotProc g0 P) (slotProc g0 (P ++ [a])) hpoint
    (nbrSlots x y) hnd
  unfold procNbrs
  exact h

/-- Appending a non-alive index to the processed list changes nothing. -/
theorem procNbrs_append_dead (g0 : GameField) (P : List Nat) (a : Nat)
    (hnA : ¬ g0.cells a = Cell.Alive) (x y : Nat) :
    procNbrs g0 (P ++ [a]) x y = procNbrs g0 P x y := by
  unfold procNbrs
  congr 1
  apply List.map_eq_map_iff.mpr
  intro p _
  rcases p with ⟨u, v⟩
  simp only [slotProc]
  by_cases hc : u < g0.size ∧ v < g0.size ∧ key u v ∈ P ∧ g0.cells (key u v) = Cell.Alive
  · rw [if_pos ⟨hc.1, hc.2.1, List.mem_append_left _ hc.2.2.1, hc.2.2.2⟩, if_pos hc]
  · rw [if_neg (by
      intro hc2
      rcases List.mem_append.mp hc2.2.2.1 with h | h
      · exact hc ⟨hc2.1, hc2.2.1, h, hc2.2.2.2⟩
      · rw [List.mem_singleton.mp h] at hc2
        exact hnA hc2.2.2.2), if_neg hc]

theorem mem_append_singleton_iff_of_ne {i a : Nat} (P : List Nat) (h : i ≠ a) :
    i ∈ P ++ [a] ↔ i ∈ P := by
  rw [List.mem_append, List.mem_singleton]
  constructor
  · intro hc
    rcases hc with hc | hc
    · exact hc
    · exact absurd hc h
  · exact Or.inl

theorem evalState_append_dead (g0 : GameField) (P : List Nat) (a : Nat)
    (hnA : ¬ g0.cells a = Cell.Alive) (x y : Nat) :
    evalState g0 (P ++ [a]) x y = evalState g0 P x y ∧
    countsState g0 (P ++ [a]) x y = countsState g0 P x y := by
  have hproc := procNbrs_append_dead g0 P a hnA x y
  have hmem : g0.cells (key x y) = Cell.Alive → (key x y ∈ P ++ [a] ↔ key x y ∈ P) := by
    intro hA
    apply mem_append_singleton_iff_of_ne
    intro hk
    rw [hk] at hA
    exact hnA hA
  constructor
  · unfold evalState
    by_cases hA : g0.cells (key x y) = Cell.Alive
    · rw [if_pos hA, if_pos hA]
      by_cases hm : key x y ∈ P
      · rw [if_pos hm, if_pos ((hmem hA).mpr hm)]
      · rw [if_neg hm, if_neg (fun hc => hm ((hmem hA).mp hc))]
    · rw [if_neg hA, if_neg hA, hproc]
  · unfold countsState
    by_cases hA : g0.cells (key x y) = Cell.Alive
    · rw [if_pos hA, if_pos hA]
      by_cases hm : key x y ∈ P
      · rw [if_pos hm, if_pos ((hmem hA).mpr hm)]
      · rw [if_neg hm, if_neg (fun hc => hm ((hmem hA).mp hc))]
    · rw [if_neg hA, if_neg hA, hproc]

/-- Appending a processed alive cell changes nothing at cells that are
neither the cell itself nor one of its Moore neighbors. -/
theorem evalState_append_far (g0 : GameField) (P : List Nat) (a ax ay : Nat)
    (hN : g0.size ≤ 4096) (hax : ax < g0.size) (hay : ay < g0.size)
    (hkeya : key ax ay = a) (haP : a ∉ P) (haAlive : g0.cells a = Cell.Alive)
    (x y : Nat) (hx : x < g0.size) (hy : y < g0.size)
    (hne : key x y ≠ a) (hfar : ¬ (ax, ay) ∈ nbrSlots x y) :
    evalState g0 (P ++ [a]) x y = evalState g0 P x y ∧
    countsState g0 (P ++ [a]) x y = countsState g0 P x y := by
  have hproc : procNbrs g0 (P ++ [a]) x y = procNbrs g0 P x y := by
    rw [procNbrs_append g0 P a ax ay hN hax hay hkeya haP haAlive x y hx hy,
      if_neg hfar, Nat.add_zero]
  have hmem := mem_append_singleton_iff_of_ne (i := key x y) P hne
  constructor
  · unfold evalState
    by_cases hA : g0.cells (key x y) = Cell.Alive
    · rw [if_pos hA, if_pos hA]
      by_cases hm : key x y ∈ P
      · rw [if_pos hm, if_pos (hmem.mpr hm)]
      · rw [if_neg hm, if_neg (fun hc => hm (hmem.mp hc))]
    · rw [if_neg hA, if_neg hA, hproc]
  · unfold countsState
    by_cases hA : g0.cells (key x y) = Cell.Alive
    · rw [if_pos hA, if_pos hA]
      by_cases hm : key x y ∈ P
      · rw [if_pos hm, if_pos (hmem.mpr hm)]
      · rw [if_neg hm, if_neg (fun hc => hm (hmem.mp hc))]
    · rw [if_neg hA, if_neg hA, hproc]

/-- Neighbor sums only depend on the low bits of the cells. -/
theorem walkSum_congr (g1 g0 : GameField) (hsz : g1.size = g0.size) (n : Nat)
    (hn : n ≤ 12) (hpow : g0.size = 2 ^ n)
    (hlow : ∀ i, i < g0.size * g0.size →
      Cell.code (g1.cells i) &&& 1 = Cell.code (g0.cells i) &&& 1)
    (x y : Nat) : walkSum g1 x y = walkSum g0 x y := by
  unfold walkSum
  congr 1
  apply List.map_eq_map_iff.mpr
  intro p _
  rcases p with ⟨u, v⟩
  simp only [slotBit, hsz]
  by_cases hg : u < g0.size ∧ v < g0.size
  · rw [if_pos hg, if_pos hg]
    have hk : key u v < g0.size * g0.size := by
      rw [hpow]
      exact key_lt_sq n u v (by omega) (by omega) (by omega)
    exact hlow _ hk
  · rw [if_neg hg, if_neg hg]

/-- Any grid whose in-grid cells are all described by some `evalState` agrees
with the initial grid on all low bits. -/
theorem lowbit_of_states (g0 g : GameField) (n : Nat) (hn : n ≤ 12)
    (hpow : g0.size = 2 ^ n)
    (hDA : ∀ i, i < g0.size * g0.size → g0.cells i = Cell.Dead ∨ g0.cells i = Cell.Alive)
    (h : ∀ x y, x < g0.size → y < g0.size →
      ∃ P, g.cells (key x y) = evalState g0 P x y) :
    ∀ i, i < g0.size * g0.size →
      Cell.code (g.cells i) &&& 1 = Cell.code (g0.cells i) &&& 1 := by
  intro i hi
  have hsq : g0.size * g0.size ≤ 4096 * 4096 := by
    have hsz : g0.size ≤ 4096 := by
      rw [hpow]
      calc (2:Nat) ^ n ≤ 2 ^ 12 := Nat.pow_le_pow_right (by norm_num) hn
        _ = 4096 := by norm_num
    exact Nat.mul_le_mul hsz hsz
  have hi32 : i < 2 ^ 32 := by
    have h32 : (2:Nat) ^ 32 = 4294967296 := by norm_num
    omega
  have hd := deX_lt_of_sq n i (by omega) (by rw [← hpow]; exact hi)
  rw [← hpow] at hd
  obtain ⟨P, hP⟩ := h (deX i) (deY i) hd.1 hd.2
  rw [key_decode i hi32] at hP
  have hlow := evalState_lowbit g0 P (deX i) (deY i)
    (by rw [key_decode i hi32]; exact hDA i hi)
  rw [key_decode i hi32] at hlow
  rw [hP]
  exact hlow

/-! Before any index is processed, the invariant states are the initial grid
with zero counts. -/

theorem procNbrs_nil (g0 : GameField) (x y : Nat) : procNbrs g0 [] x y = 0 := by
  simp [procNbrs, slotProc, nbrSlots]

theorem evalState_nil (g0 : GameField) (x y : Nat) :
    evalState g0 [] x y = g0.cells (key x y) := by
  unfold evalState
  by_cases hA : g0.cells (key x y) = Cell.Alive
  · rw [if_pos hA, if_neg (List.not_mem_nil _), hA]
  · rw [if_neg hA, procNbrs_nil, if_neg (by omega)]

theorem countsState_nil (g0 : GameField) (x y : Nat) : countsState g0 [] x y = 0 := by
  unfold countsState
  by_cases hA : g0.cells (key x y) = Cell.Alive
  · rw [if_pos hA, if_neg (List.not_mem_nil _)]
  · rw [if_neg hA, procNbrs_nil]
    split
    · rfl
    · decide

/-- Appending a processed index other than an alive cell itself does not
change that alive cell's state or count. -/
theorem evalState_append_alive_other (g0 : GameField) (P : List Nat) (a x y : Nat)
    (hA : g0.cells (key x y) = Cell.Alive) (hne : key x y ≠ a) :
    evalState g0 (P ++ [a]) x y = evalState g0 P x y ∧
    countsState g0 (P ++ [a]) x y = countsState g0 P x y := by
  have hmem := mem_append_singleton_iff_of_ne (i := key x y) P hne
  constructor
  · unfold evalState
    rw [if_pos hA, if_pos hA]
    by_cases hm : key x y ∈ P
    · rw [if_pos hm, if_pos (hmem.mpr hm)]
    · rw [if_neg hm, if_neg (fun hc => hm (hmem.mp hc))]
  · unfold countsState
    rw [if_pos hA, if_pos hA]
    by_cases hm : key x y ∈ P
    · rw [if_pos hm, if_pos (hmem.mpr hm)]
    · rw [if_neg hm, if_neg (fun hc => hm (hmem.mp hc))]

/-! The loop invariant, and the mid-walk overlay invariant that holds while
one alive cell `a` is being evaluated: positions whose key is in `T` (the
cursor stops taken so far, including `a` itself) already show the state for
`P ++ [a]`, the rest still show the state for `P`. -/

def midCells (g0 : GameField) (P : List Nat) (a : Nat) (T : List Nat) (x y : Nat) : Cell :=
  if key x y ∈ T then evalState g0 (P ++ [a]) x y else evalState g0 P x y

def midCounts (g0 : GameField) (P : List Nat) (a : Nat) (T : List Nat) (x y : Nat) : Nat :=
  if key x y ∈ T then countsState g0 (P ++ [a]) x y else countsState g0 P x y

def InvC (g0 : GameField) (P : List Nat) (gc : GameField × (Nat → Nat)) : Prop :=
  gc.1.size = g0.size ∧
  (∀ x y, x < g0.size → y < g0.size →
    gc.1.cells (key x y) = evalState g0 P x y ∧
    gc.2 (key x y) = countsState g0 P x y) ∧
  (∀ i, g0.size * g0.size ≤ i → gc.1.cells i = g0.cells i ∧ gc.2 i = 0)

def MidInvC (g0 : GameField) (P : List Nat) (a : Nat) (T : List Nat)
    (gc : GameField × (Nat → Nat)) : Prop :=
  gc.1.size = g0.size ∧
  (∀ x y, x < g0.size → y < g0.size →
    gc.1.cells (key x y) = midCells g0 P a T x y ∧
    gc.2 (key x y) = midCounts g0 P a T x y) ∧
  (∀ i, g0.size * g0.size ≤ i → gc.1.cells i = g0.cells i ∧ gc.2 i = 0)

theorem InvC_nil (g0 : GameField) : InvC g0 [] (g0, fun _ => 0) :=
  ⟨rfl, fun x y _ _ => ⟨(evalState_nil g0 x y).symm, (countsState_nil g0 x y).symm⟩,
    fun _ _ => ⟨rfl, rfl⟩⟩

theorem MidInvC_lowbit (g0 : GameField) (P : List Nat) (a : Nat) (T : List Nat)
    (gc : GameField × (Nat → Nat)) (n : Nat) (hn : n ≤ 12) (hpow : g0.size = 2 ^ n)
    (hDA : ∀ i, i < g0.size * g0.size → g0.cells i = Cell.Dead ∨ g0.cells i = Cell.Alive)
    (hInv : MidInvC g0 P a T gc) :
    ∀ i, i < g0.size * g0.size →
      Cell.code (gc.1.cells i) &&& 1 = Cell.code (g0.cells i) &&& 1 := by
  apply lowbit_of_states g0 gc.1 n hn hpow hDA
  intro x y hx hy
  have h := (hInv.2.1 x y hx hy).1
  unfold midCells at h
  by_cases hm : key x y ∈ T
  · exact ⟨P ++ [a], by rw [h, if_pos hm]⟩
  · exact ⟨P, by rw [h, if_neg hm]⟩

theorem walkSum_mid (g0 : GameField) (P : List Nat) (a : Nat) (T : List Nat)
    (gc : GameField × (Nat → Nat)) (n : Nat) (hn : n ≤ 12) (hpow : g0.size = 2 ^ n)
    (hDA : ∀ i, i < g0.size * g0.size → g0.cells i = Cell.Dead ∨ g0.cells i = Cell.Alive)
    (hInv : MidInvC g0 P a T gc) (x y : Nat) :
    walkSum gc.1 x y = walkSum g0 x y :=
  walkSum_congr gc.1 g0 hInv.1 n hn hpow
    (MidInvC_lowbit g0 P a T gc n hn hpow hDA hInv) x y

/-- No walk slot is the walk's own center. -/
theorem mem_nbrSlots_ne_center (x y u v : Nat) (hx : x < 65536) (hy : y < 65536)
    (h : (u, v) ∈ nbrSlots x y) : ¬(u = x ∧ v = y) := by
  simp only [nbrSlots, List.mem_cons, List.not_mem_nil, or_false, Prod.mk.injEq] at h
  rcases h with h | h | h | h | h | h | h | h <;> omega

theorem cells_setIdx (g : GameField) (k : Nat) :
    ({ g with idx := k } : GameField).cells = g.cells := rfl

theorem size_setIdx (g : GameField) (k : Nat) :
    ({ g with idx := k } : GameField).size = g.size := rfl

theorem walkSum_setIdx (g : GameField) (k x y : Nat) :
    walkSum { g with idx := k } x y = walkSum g x y := rfl

theorem midCells_cons_ne (g0 : GameField) (P : List Nat) (a k : Nat) (T : List Nat)
    (x y : Nat) (hne : key x y ≠ k) :
    midCells g0 P a (k :: T) x y = midCells g0 P a T x y := by
  unfold midCells
  by_cases hm : key x y ∈ T
  · rw [if_pos (List.mem_cons_of_mem _ hm), if_pos hm]
  · rw [if_neg (fun hc => by
      rcases List.mem_cons.mp hc with h | h
      · exact hne h
      · exact hm h), if_neg hm]

theorem midCounts_cons_ne (g0 : GameField) (P : List Nat) (a k : Nat) (T : List Nat)
    (x y : Nat) (hne : key x y ≠ k) :
    midCounts g0 P a (k :: T) x y = midCounts g0 P a T x y := by
  unfold midCounts
  by_cases hm : key x y ∈ T
  · rw [if_pos (List.mem_cons_of_mem _ hm), if_pos hm]
  · rw [if_neg (fun hc => by
      rcases List.mem_cons.mp hc with h | h
      · exact hne h
      · exact hm h), if_neg hm]

theorem midCells_cons_self (g0 : GameField) (P : List Nat) (a k : Nat) (T : List Nat)
    (x y : Nat) (hk : key x y = k) :
    midCells g0 P a (k :: T) x y = evalState g0 (P ++ [a]) x y := by
  unfold midCells
  rw [if_pos (by rw [hk]; exact List.mem_cons_self _ _)]

theorem midCounts_cons_self (g0 : GameField) (P : List Nat) (a k : Nat) (T : List Nat)
    (x y : Nat) (hk : key x y = k) :
    midCounts g0 P a (k :: T) x y = countsState g0 (P ++ [a]) x y := by
  unfold midCounts
  rw [if_pos (by rw [hk]; exact List.mem_cons_self _ _)]

/-- Extending the overlay by a key whose cell state and count are unchanged
by the append preserves the mid-walk invariant without touching the pair. -/
theorem MidInvC_cons_noop (g0 : GameField) (P : List Nat) (a : Nat) (T : List Nat)
    (gc : GameField × (Nat → Nat)) (hInv : MidInvC g0 P a T gc) (k : Nat)
    (hk : ∀ x y, x < g0.size → y < g0.size → key x y = k →
      evalState g0 (P ++ [a]) x y = evalState g0 P x y ∧
      countsState g0 (P ++ [a]) x y = countsState g0 P x y) :
    MidInvC g0 P a (k :: T) gc := by
  obtain ⟨hsz, hcells, hframe⟩ := hInv
  refine ⟨hsz, ?_, hframe⟩
  intro x y hx hy
  obtain ⟨h1, h2⟩ := hcells x y hx hy
  by_cases hxy : key x y = k
  · rw [h1, h2, midCells_cons_self g0 P a k T x y hxy, midCounts_cons_self g0 P a k T x y hxy]
    obtain ⟨he, hc⟩ := hk x y hx hy hxy
    unfold midCells midCounts
    by_cases hm : key x y ∈ T
    · rw [if_pos hm, if_pos hm]
      exact ⟨rfl, rfl⟩
    · rw [if_neg hm, if_neg hm, he, hc]
      exact ⟨rfl, rfl⟩
  · rw [h1, h2, midCells_cons_ne g0 P a k T x y hxy, midCounts_cons_ne g0 P a k T x y hxy]
    exact ⟨rfl, rfl⟩

set_option maxHeartbeats 1600000 in
/-- One guarded walk step of the evaluate pass, taken from the walk around
alive cell `a = key ax ay` at a not-yet-visited slot `(u, v)`: the slot's key
joins the overlay and the cursor lands on it. -/
theorem visit_step (g0 : GameField) (n : Nat) (hn : n ≤ 12) (hpow : g0.size = 2 ^ n)
    (hDA : ∀ i, i < g0.size * g0.size → g0.cells i = Cell.Dead ∨ g0.cells i = Cell.Alive)
    (P : List Nat) (a ax ay : Nat) (hax : ax < g0.size) (hay : ay < g0.size)
    (hkeya : key ax ay = a) (haP : a ∉ P) (haAlive : g0.cells a = Cell.Alive)
    (T : List Nat) (g : GameField) (c : Nat → Nat)
    (hInv : MidInvC g0 P a T (g, c))
    (u v : Nat) (hu : u < 65536) (hv : v < 65536)
    (hadj : (u, v) ∈ nbrSlots ax ay)
    (hfresh : u < g0.size → v < g0.size → key u v ∉ T)
    (mv : GameField → Nat → Nat × GameField)
    (hmv : mv g maskAD = (if u < g.size ∧ v < g.size
        then Cell.code (g.cells (key u v)) &&& maskAD
        else Cell.code Cell.DeadVisited &&& maskAD, { g with idx := key u v })) :
    MidInvC g0 P a (key u v :: T) (visitStepI (g, c) mv) ∧
    (visitStepI (g, c) mv).1.idx = key u v := by
  obtain ⟨hsz, hcells, hframe⟩ := hInv
  have hN4096 : g0.size ≤ 4096 := by
    rw [hpow]
    calc (2:Nat) ^ n ≤ 2 ^ 12 := Nat.pow_le_pow_right (by norm_num) hn
      _ = 4096 := by norm_num
  have hN : g.size < 65536 := by rw [hsz]; omega
  have hax16 : ax < 65536 := by omega
  have hay16 : ay < 65536 := by omega
  have hne : key u v ≠ a := by
    intro he
    rw [← hkeya] at he
    obtain ⟨h1, h2⟩ := key_inj u v ax ay hu hv hax16 hay16 he
    exact mem_nbrSlots_ne_center ax ay u v hax16 hay16 hadj ⟨h1, h2⟩
  by_cases hg : u < g0.size ∧ v < g0.size
  · -- the slot is in the grid
    have hfreshT := hfresh hg.1 hg.2
    obtain ⟨hc1, hc2⟩ := hcells u v hg.1 hg.2
    have hcell : g.cells (key u v) = evalState g0 P u v :=
      hc1.trans (by unfold midCells; rw [if_neg hfreshT])
    have hcnt : c (key u v) = countsState g0 P u v :=
      hc2.trans (by unfold midCounts; rw [if_neg hfreshT])
    have hkuv_lt : key u v < g0.size * g0.size := by
      rw [hpow]
      exact key_lt_sq n u v (by omega) (by rw [← hpow]; exact hg.1)
        (by rw [← hpow]; exact hg.2)
    have hadj2 : (ax, ay) ∈ nbrSlots u v :=
      (nbrSlots_symm g0.size ax ay u v hN4096 hax hay hg.1 hg.2).mp hadj
    have hproc1 : procNbrs g0 (P ++ [a]) u v = procNbrs g0 P u v + 1 := by
      rw [procNbrs_append g0 P a ax ay hN4096 hax hay hkeya haP haAlive u v hg.1 hg.2,
        if_pos hadj2]
    have hws : walkSum g u v = walkSum g0 u v :=
      walkSum_mid g0 P a T (g, c) n hn hpow hDA ⟨hsz, hcells, hframe⟩ u v
    have hguard : u < g.size ∧ v < g.size :=
      ⟨by rw [hsz]; exact hg.1, by rw [hsz]; exact hg.2⟩
    rcases hDA (key u v) hkuv_lt with hD | hA
    · -- the slot started the generation Dead
      have hnA : ¬ g0.cells (key u v) = Cell.Alive := by rw [hD]; intro h; cases h
      have hstate : evalState g0 P u v =
          (if 0 < procNbrs g0 P u v then
            (if walkSum g0 u v = 3 then Cell.Birthing else Cell.DeadVisited)
          else Cell.Dead) := by
        unfold evalState
        rw [if_neg hnA, hD]
      have hcstate : countsState g0 P u v =
          (if walkSum g0 u v = 3 then procNbrs g0 P u v
          else min 1 (procNbrs g0 P u v)) := by
        unfold countsState
        rw [if_neg hnA]
      have hE2 : evalState g0 (P ++ [a]) u v =
          (if walkSum g0 u v = 3 then Cell.Birthing else Cell.DeadVisited) := by
        unfold evalState
        rw [if_neg hnA, hproc1, if_pos (by omega)]
      have hC2 : countsState g0 (P ++ [a]) u v =
          (if walkSum g0 u v = 3 then procNbrs g0 P u v + 1 else 1) := by
        unfold countsState
        rw [if_neg hnA, hproc1]
        by_cases hw : walkSum g0 u v = 3
        · rw [if_pos hw, if_pos hw]
        · rw [if_neg hw, if_neg hw]
          omega
      by_cases hp0 : procNbrs g0 P u v = 0
      · -- still Dead: masked read 0, the rule fires here
        have hcellD : g.cells (key u v) = Cell.Dead := by
          rw [hcell, hstate, if_neg (by omega)]
        have hmv2 : mv g maskAD = (0, { g with idx := key u v }) := by
          rw [hmv, if_pos hguard, hcellD,
            show Cell.code Cell.Dead &&& maskAD = 0 from rfl]
        have hres : visitStepI (g, c) mv = updateCellI ({ g with idx := key u v }, c) := by
          simp only [visitStepI, hmv2]
          rw [if_pos trivial]
        have hupd := updateCell_spec { g with idx := key u v } u v hu hv hN rfl
        have hcellsAfter : ∀ j, (updateCellI ({ g with idx := key u v }, c)).1.cells j =
            (if j = key u v then ruleCell (g.cells (key u v)) (walkSum g0 u v)
            else g.cells j) := by
          intro j
          show (({ g with idx := key u v } : GameField).updateCell).cells j = _
          rw [hupd]
          show (if j = key u v
              then ruleCell (g.cells (key u v)) (walkSum { g with idx := key u v } u v)
              else g.cells j) = _
          rw [walkSum_setIdx, hws]
        have hcountsAfter : ∀ j, (updateCellI ({ g with idx := key u v }, c)).2 j =
            (if j = key u v then c j + 1 else c j) := fun j => rfl
        have hidxAfter : (updateCellI ({ g with idx := key u v }, c)).1.idx = key u v := by
          show (({ g with idx := key u v } : GameField).updateCell).idx = key u v
          rw [hupd]
        have hsizeAfter : (updateCellI ({ g with idx := key u v }, c)).1.size = g.size := by
          show (({ g with idx := key u v } : GameField).updateCell).size = g.size
          rw [hupd]
        rw [hres]
        refine ⟨⟨?_, ?_, ?_⟩, hidxAfter⟩
        · rw [hsizeAfter]; exact hsz
        · intro x y hx hy
          by_cases hxy : key x y = key u v
          · obtain ⟨h1, h2⟩ := key_inj x y u v (by omega) (by omega) hu hv hxy
            subst h1; subst h2
            rw [hcellsAfter, hcountsAfter, if_pos rfl, if_pos rfl,
              midCells_cons_self g0 P a (key x y) T x y rfl,
              midCounts_cons_self g0 P a (key x y) T x y rfl]
            constructor
            · rw [hcellD, hE2]
              unfold ruleCell
              rw [if_neg (fun h => absurd h.1 (by decide)), if_pos rfl]
            · rw [hcnt, hcstate, hC2, hp0]
              by_cases hw : walkSum g0 x y = 3
              · rw [if_pos hw, if_pos hw]
              · rw [if_neg hw, if_neg hw]
                decide
          · rw [hcellsAfter, hcountsAfter, if_neg hxy, if_neg hxy,
              midCells_cons_ne g0 P a (key u v) T x y hxy,
              midCounts_cons_ne g0 P a (key u v) T x y hxy]
            exact hcells x y hx hy
        · intro i hi
          have hine : i ≠ key u v := by omega
          rw [hcellsAfter, hcountsAfter, if_neg hine, if_neg hine]
          exact hframe i hi
      · by_cases hw3 : walkSum g0 u v = 3
        · -- already Birthing: masked read 0, the rule fires again (as a no-op)
          have hcellB : g.cells (key u v) = Cell.Birthing := by
            rw [hcell, hstate, if_pos (by omega), if_pos hw3]
          have hmv2 : mv g maskAD = (0, { g with idx := key u v }) := by
            rw [hmv, if_pos hguard, hcellB,
              show Cell.code Cell.Birthing &&& maskAD = 0 from rfl]
          have hres : visitStepI (g, c) mv = updateCellI ({ g with idx := key u v }, c) := by
            simp only [visitStepI, hmv2]
            rw [if_pos trivial]
          have hupd := updateCell_spec { g with idx := key u v } u v hu hv hN rfl
          have hcellsAfter : ∀ j, (updateCellI ({ g with idx := key u v }, c)).1.cells j =
              (if j = key u v then ruleCell (g.cells (key u v)) (walkSum g0 u v)
              else g.cells j) := by
            intro j
            show (({ g with idx := key u v } : GameField).updateCell).cells j = _
            rw [hupd]
            show (if j = key u v
                then ruleCell (g.cells (key u v)) (walkSum { g with idx := key u v } u v)
                else g.cells j) = _
            rw [walkSum_setIdx, hws]
          have hcountsAfter : ∀ j, (updateCellI ({ g with idx := key u v }, c)).2 j =
              (if j = key u v then c j + 1 else c j) := fun j => rfl
          have hidxAfter : (updateCellI ({ g with idx := key u v }, c)).1.idx = key u v := by
            show (({ g with idx := key u v } : GameField).updateCell).idx = key u v
            rw [hupd]
          have hsizeAfter : (updateCellI ({ g with idx := key u v }, c)).1.size = g.size := by
            show (({ g with idx := key u v } : GameField).updateCell).size = g.size
            rw [hupd]
          rw [hres]
          refine ⟨⟨?_, ?_, ?_⟩, hidxAfter⟩
          · rw [hsizeAfter]; exact hsz
          · intro x y hx hy
            by_cases hxy : key x y = key u v
            · obtain ⟨h1, h2⟩ := key_inj x y u v (by omega) (by omega) hu hv hxy
              subst h1; subst h2
              rw [hcellsAfter, hcountsAfter, if_pos rfl, if_pos rfl,
                midCells_cons_self g0 P a (key x y) T x y rfl,
                midCounts_cons_self g0 P a (key x y) T x y rfl]
              constructor
              · rw [hcellB, hE2, if_pos hw3]
                unfold ruleCell
                rw [if_neg (fun h => absurd h.1 (by decide)), if_neg (by decide)]
              · rw [hcnt, hcstate, hC2, if_pos hw3, if_pos hw3]
            · rw [hcellsAfter, hcountsAfter, if_neg hxy, if_neg hxy,
                midCells_cons_ne g0 P a (key u v) T x y hxy,
                midCounts_cons_ne g0 P a (key u v) T x y hxy]
              exact hcells x y hx hy
          · intro i hi
            have hine : i ≠ key u v := by omega
            rw [hcellsAfter, hcountsAfter, if_neg hine, if_neg hine]
            exact hframe i hi
        · -- already DeadVisited: masked read is DeadVisited itself, skipped
          have hcellDV : g.cells (key u v) = Cell.DeadVisited := by
            rw [hcell, hstate, if_pos (by omega), if_neg hw3]
          have hmv2 : mv g maskAD =
              (Cell.code Cell.DeadVisited &&& maskAD, { g with idx := key u v }) := by
            rw [hmv, if_pos hguard, hcellDV]
          have hres : visitStepI (g, c) mv = ({ g with idx := key u v }, c) := by
            simp only [visitStepI, hmv2]
            rw [if_neg (by decide : ¬(Cell.code Cell.DeadVisited &&& maskAD = 0))]
          have hk : ∀ x y, x < g0.size → y < g0.size → key x y = key u v →
              evalState g0 (P ++ [a]) x y = evalState g0 P x y ∧
              countsState g0 (P ++ [a]) x y = countsState g0 P x y := by
            intro x y hx hy hxy
            obtain ⟨h1, h2⟩ := key_inj x y u v (by omega) (by omega) hu hv hxy
            subst h1; subst h2
            constructor
            · rw [hE2, if_neg hw3, hstate, if_pos (by omega), if_neg hw3]
            · rw [hC2, if_neg hw3, hcstate, if_neg hw3]
              omega
          have hni := MidInvC_cons_noop g0 P a T (g, c) ⟨hsz, hcells, hframe⟩ (key u v) hk
          rw [hres]
          exact ⟨⟨hni.1, hni.2.1, hni.2.2⟩, rfl⟩
    · -- the slot started the generation Alive: masked read nonzero, skipped
      have hread : Cell.code (g.cells (key u v)) &&& maskAD ≠ 0 := by
        rw [hcell]
        unfold evalState
        rw [if_pos hA]
        split
        · split <;> decide
        · decide
      have hmv2 : mv g maskAD =
          (Cell.code (g.cells (key u v)) &&& maskAD, { g with idx := key u v }) := by
        rw [hmv, if_pos hguard]
      have hres : visitStepI (g, c) mv = ({ g with idx := key u v }, c) := by
        simp only [visitStepI, hmv2]
        rw [if_neg hread]
      have hk : ∀ x y, x < g0.size → y < g0.size → key x y = key u v →
          evalState g0 (P ++ [a]) x y = evalState g0 P x y ∧
          countsState g0 (P ++ [a]) x y = countsState g0 P x y := by
        intro x y hx hy hxy
        obtain ⟨h1, h2⟩ := key_inj x y u v (by omega) (by omega) hu hv hxy
        subst h1; subst h2
        exact evalState_append_alive_other g0 P a x y hA hne
      have hni := MidInvC_cons_noop g0 P a T (g, c) ⟨hsz, hcells, hframe⟩ (key u v) hk
      rw [hres]
      exact ⟨⟨hni.1, hni.2.1, hni.2.2⟩, rfl⟩
  · -- off-grid slot: sentinel read, skipped
    have hmv2 : mv g maskAD =
        (Cell.code Cell.DeadVisited &&& maskAD, { g with idx := key u v }) := by
      rw [hmv, if_neg (fun hc => hg ⟨by rw [← hsz]; exact hc.1, by rw [← hsz]; exact hc.2⟩)]
    have hres : visitStepI (g, c) mv = ({ g with idx := key u v }, c) := by
      simp only [visitStepI, hmv2]
      rw [if_neg (by decide : ¬(Cell.code Cell.DeadVisited &&& maskAD = 0))]
    have hk : ∀ x y, x < g0.size → y < g0.size → key x y = key u v →
        evalState g0 (P ++ [a]) x y = evalState g0 P x y ∧
        countsState g0 (P ++ [a]) x y = countsState g0 P x y := by
      intro x y hx hy hxy
      obtain ⟨h1, h2⟩ := key_inj x y u v (by omega) (by omega) hu hv hxy
      exact absurd ⟨h1 ▸ hx, h2 ▸ hy⟩ hg
    have hni := MidInvC_cons_noop g0 P a T (g, c) ⟨hsz, hcells, hframe⟩ (key u v) hk
    rw [hres]
    exact ⟨⟨hni.1, hni.2.1, hni.2.2⟩, rfl⟩

theorem midCells_nil (g0 : GameField) (P : List Nat) (a x y : Nat) :
    midCells g0 P a [] x y = evalState g0 P x y := by
  unfold midCells; rw [if_neg (List.not_mem_nil _)]

theorem midCounts_nil (g0 : GameField) (P : List Nat) (a x y : Nat) :
    midCounts g0 P a [] x y = countsState g0 P x y := by
  unfold midCounts; rw [if_neg (List.not_mem_nil _)]

set_option maxHeartbeats 800000 in
/-- The unconditional `updateCell` at the alive cell `a` itself that opens its
evaluation: it establishes the overlay invariant with `T = [a]` and leaves the
cursor on `a`. -/
theorem center_step (g0 : GameField) (n : Nat) (hn : n ≤ 12) (hpow : g0.size = 2 ^ n)
    (hDA : ∀ i, i < g0.size * g0.size → g0.cells i = Cell.Dead ∨ g0.cells i = Cell.Alive)
    (P : List Nat) (a ax ay : Nat) (hax : ax < g0.size) (hay : ay < g0.size)
    (hkeya : key ax ay = a) (haP : a ∉ P) (haAlive : g0.cells a = Cell.Alive)
    (g : GameField) (c : Nat → Nat) (hInv : InvC g0 P (g, c)) :
    MidInvC g0 P a [a] (updateCellI ({ g with idx := a }, c)) ∧
    (updateCellI ({ g with idx := a }, c)).1.idx = a := by
  obtain ⟨hsz, hcells, hframe⟩ := hInv
  have hN4096 : g0.size ≤ 4096 := by
    rw [hpow]
    calc (2:Nat) ^ n ≤ 2 ^ 12 := Nat.pow_le_pow_right (by norm_num) hn
      _ = 4096 := by norm_num
  have hN : g.size < 65536 := by rw [hsz]; omega
  have hax16 : ax < 65536 := by omega
  have hay16 : ay < 65536 := by omega
  have ha_lt : a < g0.size * g0.size := by
    rw [← hkeya, hpow]
    exact key_lt_sq n ax ay (by omega) (by rw [← hpow]; exact hax)
      (by rw [← hpow]; exact hay)
  have hlow : ∀ i, i < g0.size * g0.size →
      Cell.code (g.cells i) &&& 1 = Cell.code (g0.cells i) &&& 1 :=
    lowbit_of_states g0 g n hn hpow hDA (fun x y hx hy => ⟨P, (hcells x y hx hy).1⟩)
  have hws : walkSum g ax ay = walkSum g0 ax ay :=
    walkSum_congr g g0 hsz n hn hpow hlow ax ay
  have hAxy : g0.cells (key ax ay) = Cell.Alive := by rw [hkeya]; exact haAlive
  have hPxy : key ax ay ∉ P := by rw [hkeya]; exact haP
  have hcellA : g.cells (key ax ay) = Cell.Alive :=
    ((hcells ax ay hax hay).1).trans (by
      unfold evalState; rw [if_pos hAxy, if_neg hPxy])
  have hcntA : c (key ax ay) = 0 :=
    ((hcells ax ay hax hay).2).trans (by
      unfold countsState; rw [if_pos hAxy, if_neg hPxy])
  have hmemA : key ax ay ∈ P ++ [a] := by
    rw [hkeya]
    exact List.mem_append_right _ (List.mem_singleton_self a)
  have hupd := updateCell_spec { g with idx := a } ax ay hax16 hay16 hN hkeya.symm
  have hcellsAfter : ∀ j, (updateCellI ({ g with idx := a }, c)).1.cells j =
      (if j = key ax ay then ruleCell (g.cells (key ax ay)) (walkSum g0 ax ay)
      else g.cells j) := by
    intro j
    show (({ g with idx := a } : GameField).updateCell).cells j = _
    rw [hupd]
    show (if j = key ax ay
        then ruleCell (g.cells (key ax ay)) (walkSum { g with idx := a } ax ay)
        else g.cells j) = _
    rw [walkSum_setIdx, hws]
  have hcountsAfter : ∀ j, (updateCellI ({ g with idx := a }, c)).2 j =
      (if j = a then c j + 1 else c j) := fun j => rfl
  have hidxAfter : (updateCellI ({ g with idx := a }, c)).1.idx = a := by
    show (({ g with idx := a } : GameField).updateCell).idx = a
    rw [hupd]
  have hsizeAfter : (updateCellI ({ g with idx := a }, c)).1.size = g.size := by
    show (({ g with idx := a } : GameField).updateCell).size = g.size
    rw [hupd]
  refine ⟨⟨?_, ?_, ?_⟩, hidxAfter⟩
  · rw [hsizeAfter]; exact hsz
  · intro x y hx hy
    by_cases hxy : key x y = a
    · have hk2 : key x y = key ax ay := by rw [hkeya]; exact hxy
      obtain ⟨h1, h2⟩ := key_inj x y ax ay (by omega) (by omega) hax16 hay16 hk2
      subst h1; subst h2
      have hE2 : evalState g0 (P ++ [a]) x y =
          (if walkSum g0 x y < 2 ∨ walkSum g0 x y > 3 then Cell.Dying else Cell.Alive) := by
        unfold evalState
        rw [if_pos hAxy, if_pos hmemA]
      have hC2c : countsState g0 (P ++ [a]) x y = 1 := by
        unfold countsState
        rw [if_pos hAxy, if_pos hmemA]
      rw [hcellsAfter, hcountsAfter, if_pos rfl, if_pos hxy,
        midCells_cons_self g0 P a a [] x y hxy,
        midCounts_cons_self g0 P a a [] x y hxy, hE2, hC2c, hcellA, hcntA]
      constructor
      · unfold ruleCell
        by_cases hw : walkSum g0 x y < 2 ∨ walkSum g0 x y > 3
        · rw [if_pos ⟨rfl, hw⟩, if_pos hw]
        · rw [if_neg (fun h => hw h.2), if_neg hw, if_neg (by decide)]
      · rfl
    · have hxy2 : key x y ≠ key ax ay := by rw [hkeya]; exact hxy
      rw [hcellsAfter, hcountsAfter, if_neg hxy2, if_neg hxy,
        midCells_cons_ne g0 P a a [] x y hxy, midCounts_cons_ne g0 P a a [] x y hxy,
        midCells_nil, midCounts_nil]
      exact hcells x y hx hy
  · intro i hi
    have hia : i ≠ a := by omega
    have hik : i ≠ key ax ay := by rw [hkeya]; exact hia
    rw [hcellsAfter, hcountsAfter, if_neg hik, if_neg hia]
    exact hframe i hi

set_option maxHeartbeats 1600000 in
/-- Evaluating one alive cell `a` — the unconditional rule application at `a`
followed by the eight guarded walk steps — carries the loop invariant from
`P` to `P ++ [a]`. -/
theorem evalAliveCellI_inv (g0 : GameField) (n : Nat) (hn : n ≤ 12) (hpow : g0.size = 2 ^ n)
    (hDA : ∀ i, i < g0.size * g0.size → g0.cells i = Cell.Dead ∨ g0.cells i = Cell.Alive)
    (P : List Nat) (a ax ay : Nat) (hax : ax < g0.size) (hay : ay < g0.size)
    (hkeya : key ax ay = a) (haP : a ∉ P) (haAlive : g0.cells a = Cell.Alive)
    (g : GameField) (c : Nat → Nat) (hInv : InvC g0 P (g, c)) :
    InvC g0 (P ++ [a]) (evalAliveCellI (g, c) a) := by
  have hN4096 : g0.size ≤ 4096 := by
    rw [hpow]
    calc (2:Nat) ^ n ≤ 2 ^ 12 := Nat.pow_le_pow_right (by norm_num) hn
      _ = 4096 := by norm_num
  have hax16 : ax < 65536 := by omega
  have hay16 : ay < 65536 := by omega
  have e1 : ((ay + 65535) % 65536 + 1) % 65536 = ay := by omega
  have e2 : ((ay + 1) % 65536 + 65535) % 65536 = ay := by omega
  have e3 : ((ax + 65535) % 65536 + 1) % 65536 = ax := by omega
  -- the eight freshness facts for the walk stops
  have hf1 : key ax ((ay + 65535) % 65536) ∉ ([a] : List Nat) := by
    intro hmem
    rw [List.mem_singleton] at hmem
    rw [← hkeya] at hmem
    have hY := congrArg deY hmem
    rw [deY_key, deY_key] at hY
    omega
  have hf2 : key ((ax + 65535) % 65536) ((ay + 65535) % 65536) ∉
      [key ax ((ay + 65535) % 65536), a] := by
    intro hmem
    simp only [List.mem_cons, List.mem_singleton, List.not_mem_nil, or_false] at hmem
    rcases hmem with h | h
    all_goals try rw [← hkeya] at h
    all_goals have hX := congrArg deX h
    all_goals have hY := congrArg deY h
    all_goals rw [deX_key, deX_key] at hX
    all_goals rw [deY_key, deY_key] at hY
    all_goals omega
  have hf3 : key ((ax + 65535) % 65536) ay ∉
      [key ((ax + 65535) % 65536) ((ay + 65535) % 65536),
       key ax ((ay + 65535) % 65536), a] := by
    intro hmem
    simp only [List.mem_cons, List.mem_singleton, List.not_mem_nil, or_false] at hmem
    rcases hmem with h | h | h
    all_goals try rw [← hkeya] at h
    all_goals have hX := congrArg deX h
    all_goals have hY := congrArg deY h
    all_goals rw [deX_key, deX_key] at hX
    all_goals rw [deY_key, deY_key] at hY
    all_goals omega
  have hf4 : key ((ax + 65535) % 65536) ((ay + 1) % 65536) ∉
      [key ((ax + 65535) % 65536) ay,
       key ((ax + 65535) % 65536) ((ay + 65535) % 65536),
       key ax ((ay + 65535) % 65536), a] := by
    intro hmem
    simp only [List.mem_cons, List.mem_singleton, List.not_mem_nil, or_false] at hmem
    rcases hmem with h | h | h | h
    all_goals try rw [← hkeya] at h
    all_goals have hX := congrArg deX h
    all_goals have hY := congrArg deY h
    all_goals rw [deX_key, deX_key] at hX
    all_goals rw [deY_key, deY_key] at hY
    all_goals omega
  have hf5 : key ax ((ay + 1) % 65536) ∉
      [key ((ax + 65535) % 65536) ((ay + 1) % 65536),
       key ((ax + 65535) % 65536) ay,
       key ((ax + 65535) % 65536) ((ay + 65535) % 65536),
       key ax ((ay + 65535) % 65536), a] := by
    intro hmem
    simp only [List.mem_cons, List.mem_singleton, List.not_mem_nil, or_false] at hmem
    rcases hmem with h | h | h | h | h
    all_goals try rw [← hkeya] at h
    all_goals have hX := congrArg deX h
    all_goals have hY := congrArg deY h
    all_goals rw [deX_key, deX_key] at hX
    all_goals rw [deY_key, deY_key] at hY
    all_goals omega
  have hf6 : key ((ax + 1) % 65536) ((ay + 1) % 65536) ∉
      [key ax ((ay + 1) % 65536),
       key ((ax + 65535) % 65536) ((ay + 1) % 65536),
       key ((ax + 65535) % 65536) ay,
       key ((ax + 65535) % 65536) ((ay + 65535) % 65536),
       key ax ((ay + 65535) % 65536), a] := by
    intro hmem
    simp only [List.mem_cons, List.mem_singleton, List.not_mem_nil, or_false] at hmem
    rcases hmem with h | h | h | h | h | h
    all_goals try rw [← hkeya] at h
    all_goals have hX := congrArg deX h
    all_goals have hY := congrArg deY h
    all_goals rw [deX_key, deX_key] at hX
    all_goals rw [deY_key, deY_key] at hY
    all_goals omega
  have hf7 : key ((ax + 1) % 65536) ay ∉
      [key ((ax + 1) % 65536) ((ay + 1) % 65536),
       key ax ((ay + 1) % 65536),
       key ((ax + 65535) % 65536) ((ay + 1) % 65536),
       key ((ax + 65535) % 65536) ay,
       key ((ax + 65535) % 65536) ((ay + 65535) % 65536),
       key ax ((ay + 65535) % 65536), a] := by
    intro hmem
    simp only [List.mem_cons, List.mem_singleton, List.not_mem_nil, or_false] at hmem
    rcases hmem with h | h | h | h | h | h | h
    all_goals try rw [← hkeya] at h
    all_goals have hX := congrArg deX h
    all_goals have hY := congrArg deY h
    all_goals rw [deX_key, deX_key] at hX
    all_goals rw [deY_key, deY_key] at hY
    all_goals omega
  have hf8 : key ((ax + 1) % 65536) ((ay + 65535) % 65536) ∉
      [key ((ax + 1) % 65536) ay,
       key ((ax + 1) % 65536) ((ay + 1) % 65536),
       key ax ((ay + 1) % 65536),
       key ((ax + 65535) % 65536) ((ay + 1) % 65536),
       key ((ax + 65535) % 65536) ay,
       key ((ax + 65535) % 65536) ((ay + 65535) % 65536),
       key ax ((ay + 65535) % 65536), a] := by
    intro hmem
    simp only [List.mem_cons, List.mem_singleton, List.not_mem_nil, or_false] at hmem
    rcases hmem with h | h | h | h | h | h | h | h
    all_goals try rw [← hkeya] at h
    all_goals have hX := congrArg deX h
    all_goals have hY := congrArg deY h
    all_goals rw [deX_key, deX_key] at hX
    all_goals rw [deY_key, deY_key] at hY
    all_goals omega
  -- walk through the eight guarded steps
  have h0 := center_step g0 n hn hpow hDA P a ax ay hax hay hkeya haP haAlive g c hInv
  set gc0 := updateCellI ({ g with idx := a }, c) with hgc0
  have hsize0 : gc0.1.size < 65536 := by have := h0.1.1; omega
  have hidx0 : gc0.1.idx = key ax ay := h0.2.trans hkeya.symm
  have hmv1 := up_spec gc0.1 maskAD ax ay hax16 hay16 hsize0 hidx0
  have h1 := visit_step g0 n hn hpow hDA P a ax ay hax hay hkeya haP haAlive
    [a] gc0.1 gc0.2 h0.1 ax ((ay + 65535) % 65536) hax16 (by omega)
    (by simp [nbrSlots]) (fun _ _ => hf1) GameField.up hmv1
  set gc1 := visitStepI gc0 GameField.up with hgc1
  have hsize1 : gc1.1.size < 65536 := by have := h1.1.1; omega
  have hmv2 := left_spec gc1.1 maskAD ax ((ay + 65535) % 65536) hax16 (by omega) hsize1 h1.2
  have h2 := visit_step g0 n hn hpow hDA P a ax ay hax hay hkeya haP haAlive
    _ gc1.1 gc1.2 h1.1 ((ax + 65535) % 65536) ((ay + 65535) % 65536) (by omega) (by omega)
    (by simp [nbrSlots]) (fun _ _ => hf2) GameField.left hmv2
  set gc2 := visitStepI gc1 GameField.left with hgc2
  have hsize2 : gc2.1.size < 65536 := by have := h2.1.1; omega
  have hmv3 := down_spec gc2.1 maskAD ((ax + 65535) % 65536) ((ay + 65535) % 65536)
    (by omega) (by omega) hsize2 h2.2
  rw [e1] at hmv3
  have h3 := visit_step g0 n hn hpow hDA P a ax ay hax hay hkeya haP haAlive
    _ gc2.1 gc2.2 h2.1 ((ax + 65535) % 65536) ay (by omega) hay16
    (by simp [nbrSlots]) (fun _ _ => hf3) GameField.down hmv3
  set gc3 := visitStepI gc2 GameField.down with hgc3
  have hsize3 : gc3.1.size < 65536 := by have := h3.1.1; omega
  have hmv4 := down_spec gc3.1 maskAD ((ax + 65535) % 65536) ay (by omega) hay16 hsize3 h3.2
  have h4 := visit_step g0 n hn hpow hDA P a ax ay hax hay hkeya haP haAlive
    _ gc3.1 gc3.2 h3.1 ((ax + 65535) % 65536) ((ay + 1) % 65536) (by omega) (by omega)
    (by simp [nbrSlots]) (fun _ _ => hf4) GameField.down hmv4
  set gc4 := visitStepI gc3 GameField.down with hgc4
  have hsize4 : gc4.1.size < 65536 := by have := h4.1.1; omega
  have hmv5 := right_spec gc4.1 maskAD ((ax + 65535) % 65536) ((ay + 1) % 65536)
    (by omega) (by omega) hsize4 h4.2
  rw [e3] at hmv5
  have h5 := visit_step g0 n hn hpow hDA P a ax ay hax hay hkeya haP haAlive
    _ gc4.1 gc4.2 h4.1 ax ((ay + 1) % 65536) hax16 (by omega)
    (by simp [nbrSlots]) (fun _ _ => hf5) GameField.right hmv5
  set gc5 := visitStepI gc4 GameField.right with hgc5
  have hsize5 : gc5.1.size < 65536 := by have := h5.1.1; omega
  have hmv6 := right_spec gc5.1 maskAD ax ((ay + 1) % 65536) hax16 (by omega) hsize5 h5.2
  have h6 := visit_step g0 n hn hpow hDA P a ax ay hax hay hkeya haP haAlive
    _ gc5.1 gc5.2 h5.1 ((ax + 1) % 65536) ((ay + 1) % 65536) (by omega) (by omega)
    (by simp [nbrSlots]) (fun _ _ => hf6) GameField.right hmv6
  set gc6 := visitStepI gc5 GameField.right with hgc6
  have hsize6 : gc6.1.size < 65536 := by have := h6.1.1; omega
  have hmv7 := up_spec gc6.1 maskAD ((ax + 1) % 65536) ((ay + 1) % 65536)
    (by omega) (by omega) hsize6 h6.2
  rw [e2] at hmv7
  have h7 := visit_step g0 n hn hpow hDA P a ax ay hax hay hkeya haP haAlive
    _ gc6.1 gc6.2 h6.1 ((ax + 1) % 65536) ay (by omega) hay16
    (by simp [nbrSlots]) (fun _ _ => hf7) GameField.up hmv7
  set gc7 := visitStepI gc6 GameField.up with hgc7
  have hsize7 : gc7.1.size < 65536 := by have := h7.1.1; omega
  have hmv8 := up_spec gc7.1 maskAD ((ax + 1) % 65536) ay (by omega) hay16 hsize7 h7.2
  have h8 := visit_step g0 n hn hpow hDA P a ax ay hax hay hkeya haP haAlive
    _ gc7.1 gc7.2 h7.1 ((ax + 1) % 65536) ((ay + 65535) % 65536) (by omega) (by omega)
    (by simp [nbrSlots]) (fun _ _ => hf8) GameField.up hmv8
  set gc8 := visitStepI gc7 GameField.up with hgc8
  -- collapse the completed overlay to the plain invariant for `P ++ [a]`
  have hmid := h8.1
  show InvC g0 (P ++ [a]) gc8
  refine ⟨hmid.1, ?_, hmid.2.2⟩
  intro x y hx hy
  obtain ⟨hc1, hc2⟩ := hmid.2.1 x y hx hy
  unfold midCells at hc1
  unfold midCounts at hc2
  by_cases hmem : key x y ∈
      key ((ax + 1) % 65536) ((ay + 65535) % 65536) ::
      key ((ax + 1) % 65536) ay ::
      key ((ax + 1) % 65536) ((ay + 1) % 65536) ::
      key ax ((ay + 1) % 65536) ::
      key ((ax + 65535) % 65536) ((ay + 1) % 65536) ::
      key ((ax + 65535) % 65536) ay ::
      key ((ax + 65535) % 65536) ((ay + 65535) % 65536) ::
      key ax ((ay + 65535) % 65536) :: [a]
  · rw [if_pos hmem] at hc1 hc2
    exact ⟨hc1, hc2⟩
  · rw [if_neg hmem] at hc1 hc2
    have hnea : key x y ≠ a := by
      intro he
      exact hmem (by rw [he]; simp)
    have hfar : ¬ (ax, ay) ∈ nbrSlots x y := by
      intro hadj
      have hadj2 : (x, y) ∈ nbrSlots ax ay :=
        (nbrSlots_symm g0.size x y ax ay hN4096 hx hy hax hay).mp hadj
      simp only [nbrSlots, List.mem_cons, List.not_mem_nil, or_false, Prod.mk.injEq] at hadj2
      rcases hadj2 with h | h | h | h | h | h | h | h
      all_goals obtain ⟨h1, h2⟩ := h
      all_goals exact hmem (by rw [h1, h2]; simp)
    obtain ⟨he, hc⟩ := evalState_append_far g0 P a ax ay hN4096 hax hay hkeya haP haAlive
      x y hx hy hnea hfar
    exact ⟨hc1.trans he.symm, hc2.trans hc.symm⟩

/-- One iteration of the evaluate loop carries the invariant from `P` to
`P ++ [a]`, whether the guard fires (the cell reads `Alive`) or not. -/
theorem evalStepI_inv (g0 : GameField) (n : Nat) (hn : n ≤ 12) (hpow : g0.size = 2 ^ n)
    (hDA : ∀ i, i < g0.size * g0.size → g0.cells i = Cell.Dead ∨ g0.cells i = Cell.Alive)
    (P : List Nat) (a : Nat) (ha : a < g0.size * g0.size) (haP : a ∉ P)
    (g : GameField) (c : Nat → Nat) (hInv : InvC g0 P (g, c)) :
    InvC g0 (P ++ [a]) (evalStepI (g, c) a) := by
  have hsq : g0.size * g0.size ≤ 4096 * 4096 := by
    have hsz : g0.size ≤ 4096 := by
      rw [hpow]
      calc (2:Nat) ^ n ≤ 2 ^ 12 := Nat.pow_le_pow_right (by norm_num) hn
        _ = 4096 := by norm_num
    exact Nat.mul_le_mul hsz hsz
  have ha32 : a < 2 ^ 32 := by
    have h32 : (2:Nat) ^ 32 = 4294967296 := by norm_num
    omega
  have hkeya : key (deX a) (deY a) = a := key_decode a ha32
  have hd := deX_lt_of_sq n a (by omega) (by rw [← hpow]; exact ha)
  rw [← hpow] at hd
  have hcell : g.cells a = evalState g0 P (deX a) (deY a) := by
    have h := (hInv.2.1 (deX a) (deY a) hd.1 hd.2).1
    rw [hkeya] at h
    exact h
  rcases hDA a ha with hD | hA
  · -- not alive at the start: the guard cannot fire, and appending is a no-op
    have hnA : ¬ g0.cells a = Cell.Alive := by rw [hD]; intro h; cases h
    have hg0k : g0.cells (key (deX a) (deY a)) = Cell.Dead := by rw [hkeya]; exact hD
    have hnAk : ¬ g0.cells (key (deX a) (deY a)) = Cell.Alive := by
      rw [hg0k]; intro h; cases h
    have hguard : ¬ g.cells a = Cell.Alive := by
      rw [hcell]
      unfold evalState
      rw [if_neg hnAk, hg0k]
      split
      · split <;> decide
      · decide
    rw [show evalStepI (g, c) a = (g, c) from by
      unfold evalStepI; rw [if_neg hguard]]
    refine ⟨hInv.1, ?_, hInv.2.2⟩
    intro x y hx hy
    obtain ⟨he, hc⟩ := evalState_append_dead g0 P a hnA x y
    exact ⟨(hInv.2.1 x y hx hy).1.trans he.symm, (hInv.2.1 x y hx hy).2.trans hc.symm⟩
  · -- alive: the guard fires and the full walk runs
    have hPk : key (deX a) (deY a) ∉ P := by rw [hkeya]; exact haP
    have hAk : g0.cells (key (deX a) (deY a)) = Cell.Alive := by rw [hkeya]; exact hA
    have hguard : g.cells a = Cell.Alive := by
      rw [hcell]
      unfold evalState
      rw [if_pos hAk, if_neg hPk]
    rw [show evalStepI (g, c) a = evalAliveCellI (g, c) a from by
      unfold evalStepI; rw [if_pos hguard]]
    exact evalAliveCellI_inv g0 n hn hpow hDA P a (deX a) (deY a) hd.1 hd.2 hkeya haP hA
      g c hInv

/-- The evaluate loop over any enumeration carries the invariant across the
whole list of processed indices. -/
theorem evalPassI_inv (g0 : GameField) (n : Nat) (hn : n ≤ 12) (hpow : g0.size = 2 ^ n)
    (hDA : ∀ i, i < g0.size * g0.size → g0.cells i = Cell.Dead ∨ g0.cells i = Cell.Alive) :
    ∀ (order P : List Nat) (gc : GameField × (Nat → Nat)),
      order.Nodup → (∀ i ∈ order, i < g0.size * g0.size) → (∀ i ∈ order, i ∉ P) →
      InvC g0 P gc → InvC g0 (P ++ order) (evalPassI order gc) := by
  intro order
  induction order with
  | nil =>
    intro P gc _ _ _ h
    simpa using h
  | cons b l ih =>
    intro P gc hnd hlt hnotP hInv
    have h1 : InvC g0 (P ++ [b]) (evalStepI gc b) :=
      evalStepI_inv g0 n hn hpow hDA P b (hlt b (List.mem_cons_self b l))
        (hnotP b (List.mem_cons_self b l)) gc.1 gc.2 hInv
    have h2 := ih (P ++ [b]) (evalStepI gc b) (List.nodup_cons.mp hnd).2
      (fun i hi => hlt i (List.mem_cons_of_mem _ hi))
      (fun i hi hmem => by
        rcases List.mem_append.mp hmem with h | h
        · exact hnotP i (List.mem_cons_of_mem _ hi) h
        · rw [List.mem_singleton] at h
          rw [h] at hi
          exact (List.nodup_cons.mp hnd).1 hi)
      h1
    rw [show (P ++ [b]) ++ l = P ++ b :: l from by simp] at h2
    exact h2

/-- After the evaluate loop has run over a complete duplicate-free
enumeration, starting from the initial grid with zero counts, the invariant
holds with that enumeration as the processed list. -/
theorem evalPassI_complete (g0 : GameField) (n : Nat) (hn : n ≤ 12) (hpow : g0.size = 2 ^ n)
    (hDA : ∀ i, i < g0.size * g0.size → g0.cells i = Cell.Dead ∨ g0.cells i = Cell.Alive)
    (order : List Nat) (hnd : order.Nodup)
    (hlt : ∀ i ∈ order, i < g0.size * g0.size) :
    InvC g0 order (evalPassI order (g0, fun _ => 0)) := by
  have h := evalPassI_inv g0 n hn hpow hDA order [] (g0, fun _ => 0) hnd hlt
    (fun i _ => List.not_mem_nil i) (InvC_nil g0)
  simpa using h

/-- Once every raw index has been processed, the processed-alive-neighbor
count coincides with the plain alive-neighbor count of the initial grid. -/
theorem procNbrs_full (g0 : GameField) (n : Nat) (hn : n ≤ 12) (hpow : g0.size = 2 ^ n)
    (hDA : ∀ i, i < g0.size * g0.size → g0.cells i = Cell.Dead ∨ g0.cells i = Cell.Alive)
    (order : List Nat) (hfull : ∀ j, j < g0.size * g0.size → j ∈ order)
    (x y : Nat) : procNbrs g0 order x y = walkSum g0 x y := by
  unfold procNbrs walkSum
  congr 1
  apply List.map_eq_map_iff.mpr
  intro p _
  rcases p with ⟨u, v⟩
  simp only [slotProc, slotBit]
  by_cases hg : u < g0.size ∧ v < g0.size
  · have hk : key u v < g0.size * g0.size := by
      rw [hpow]
      exact key_lt_sq n u v (by omega) (by rw [← hpow]; exact hg.1)
        (by rw [← hpow]; exact hg.2)
    have hmem : key u v ∈ order := hfull _ hk
    rcases hDA (key u v) hk with hD | hA
    · rw [if_neg (fun hc => absurd hc.2.2.2 (by rw [hD]; intro h; cases h)),
        if_pos hg, hD]
      decide
    · rw [if_pos ⟨hg.1, hg.2, hmem, hA⟩, if_pos hg, hA]
      decide
  · rw [if_neg (fun hc => hg ⟨hc.1, hc.2.1⟩), if_neg hg]

/-- The end state of the evaluate pass in terms of the initial grid alone. -/
theorem evalState_full (g0 : GameField) (n : Nat) (hn : n ≤ 12) (hpow : g0.size = 2 ^ n)
    (hDA : ∀ i, i < g0.size * g0.size → g0.cells i = Cell.Dead ∨ g0.cells i = Cell.Alive)
    (order : List Nat) (hfull : ∀ j, j < g0.size * g0.size → j ∈ order)
    (x y : Nat) (hx : x < g0.size) (hy : y < g0.size) :
    evalState g0 order x y =
      (if g0.cells (key x y) = Cell.Alive then
        (if walkSum g0 x y < 2 ∨ walkSum g0 x y > 3 then Cell.Dying else Cell.Alive)
      else
        (if 0 < walkSum g0 x y then
          (if walkSum g0 x y = 3 then Cell.Birthing else Cell.DeadVisited)
        else g0.cells (key x y))) := by
  have hk : key x y < g0.size * g0.size := by
    rw [hpow]
    exact key_lt_sq n x y (by omega) (by rw [← hpow]; exact hx)
      (by rw [← hpow]; exact hy)
  unfold evalState
  by_cases hA : g0.cells (key x y) = Cell.Alive
  · rw [if_pos hA, if_pos hA, if_pos (hfull _ hk)]
  · rw [if_neg hA, if_neg hA, procNbrs_full g0 n hn hpow hDA order hfull x y]

/-- The per-cell `updateCell` application counts of one full evaluate pass in
terms of the initial grid alone. -/
theorem countsState_full (g0 : GameField) (n : Nat) (hn : n ≤ 12) (hpow : g0.size = 2 ^ n)
    (hDA : ∀ i, i < g0.size * g0.size → g0.cells i = Cell.Dead ∨ g0.cells i = Cell.Alive)
    (order : List Nat) (hfull : ∀ j, j < g0.size * g0.size → j ∈ order)
    (x y : Nat) (hx : x < g0.size) (hy : y < g0.size) :
    countsState g0 order x y =
      (if g0.cells (key x y) = Cell.Alive then 1
      else
        (if walkSum g0 x y = 3 then walkSum g0 x y
        else min 1 (walkSum g0 x y))) := by
  have hk : key x y < g0.size * g0.size := by
    rw [hpow]
    exact key_lt_sq n x y (by omega) (by rw [← hpow]; exact hx)
      (by rw [← hpow]; exact hy)
  unfold countsState
  by_cases hA : g0.cells (key x y) = Cell.Alive
  · rw [if_pos hA, if_pos hA, if_pos (hfull _ hk)]
  · rw [if_neg hA, if_neg hA, procNbrs_full g0 n hn hpow hDA order hfull x y]

/-- Plain-pass consequences of the instrumented invariant. -/
theorem evalPass_facts (g0 : GameField) (n : Nat) (hn : n ≤ 12) (hpow : g0.size = 2 ^ n)
    (hDA : ∀ i, i < g0.size * g0.size → g0.cells i = Cell.Dead ∨ g0.cells i = Cell.Alive)
    (order : List Nat) (hnd : order.Nodup)
    (hlt : ∀ i ∈ order, i < g0.size * g0.size) :
    (evalPass order g0).size = g0.size ∧
    (∀ x y, x < g0.size → y < g0.size →
      (evalPass order g0).cells (key x y) = evalState g0 order x y) ∧
    (∀ i, g0.size * g0.size ≤ i → (evalPass order g0).cells i = g0.cells i) := by
  have h := evalPassI_complete g0 n hn hpow hDA order hnd hlt
  have hf2 : (evalPassI order (g0, fun _ => 0)).1 = evalPass order g0 :=
    evalPassI_fst order (g0, fun _ => 0)
  have h1 := h.1
  rw [hf2] at h1
  refine ⟨h1, ?_, ?_⟩
  · intro x y hx hy
    have h2 := (h.2.1 x y hx hy).1
    rw [hf2] at h2
    exact h2
  · intro i hi
    have h3 := (h.2.2 i hi).1
    rw [hf2] at h3
    exact h3

theorem commitPass_cells (g : GameField) (i : Nat) :
    (commitPass g).cells i =
      (if i < g.size * g.size then commitCell (g.cells i) else g.cells i) := rfl

/-- One evaluate-plus-commit pass over any complete duplicate-free
enumeration computes the Life successor at every in-grid cell. -/
theorem tick_cells (g0 : GameField) (n : Nat) (hn : n ≤ 12) (hpow : g0.size = 2 ^ n)
    (hDA : ∀ i, i < g0.size * g0.size → g0.cells i = Cell.Dead ∨ g0.cells i = Cell.Alive)
    (order : List Nat) (hnd : order.Nodup)
    (hmem : ∀ i, i ∈ order ↔ i < g0.size * g0.size)
    (x y : Nat) (hx : x < g0.size) (hy : y < g0.size) :
    (commitPass (evalPass order g0)).cells (key x y) =
      (if g0.cells (key x y) = Cell.Alive then
        (if walkSum g0 x y < 2 ∨ walkSum g0 x y > 3 then Cell.Dead else Cell.Alive)
      else (if walkSum g0 x y = 3 then Cell.Alive else Cell.Dead)) := by
  obtain ⟨hsz, hcells, hframe⟩ :=
    evalPass_facts g0 n hn hpow hDA order hnd (fun i hi => (hmem i).mp hi)
  have hk : key x y < g0.size * g0.size := by
    rw [hpow]
    exact key_lt_sq n x y (by omega) (by rw [← hpow]; exact hx)
      (by rw [← hpow]; exact hy)
  rw [commitPass_cells, hsz, if_pos hk, hcells x y hx hy,
    evalState_full g0 n hn hpow hDA order (fun j hj => (hmem j).mpr hj) x y hx hy]
  by_cases hA : g0.cells (key x y) = Cell.Alive
  · rw [if_pos hA, if_pos hA]
    by_cases hw : walkSum g0 x y < 2 ∨ walkSum g0 x y > 3
    · rw [if_pos hw, if_pos hw]; rfl
    · rw [if_neg hw, if_neg hw]; rfl
  · rw [if_neg hA, if_neg hA]
    by_cases h0 : 0 < walkSum g0 x y
    · rw [if_pos h0]
      by_cases hw : walkSum g0 x y = 3
      · rw [if_pos hw, if_pos hw]; rfl
      · rw [if_neg hw, if_neg hw]; rfl
    · rw [if_neg h0, if_neg (by omega : ¬ walkSum g0 x y = 3)]
      rcases hDA (key x y) hk with hD | hA2
      · rw [hD]; rfl
      · exact absurd hA2 hA

theorem tick_frame (g0 : GameField) (n : Nat) (hn : n ≤ 12) (hpow : g0.size = 2 ^ n)
    (hDA : ∀ i, i < g0.size * g0.size → g0.cells i = Cell.Dead ∨ g0.cells i = Cell.Alive)
    (order : List Nat) (hnd : order.Nodup)
    (hmem : ∀ i, i ∈ order ↔ i < g0.size * g0.size) :
    ∀ i, g0.size * g0.size ≤ i →
      (commitPass (evalPass order g0)).cells i = g0.cells i := by
  obtain ⟨hsz, hcells, hframe⟩ :=
    evalPass_facts g0 n hn hpow hDA order hnd (fun i hi => (hmem i).mp hi)
  intro i hi
  rw [commitPass_cells, hsz, if_neg (by omega), hframe i hi]

/-- `simulationTick` in coordinate terms. -/
theorem simulationTick_cells (g0 : GameField) (n : Nat) (hn : n ≤ 12)
    (hpow : g0.size = 2 ^ n)
    (hDA : ∀ i, i < g0.size * g0.size → g0.cells i = Cell.Dead ∨ g0.cells i = Cell.Alive)
    (x y : Nat) (hx : x < g0.size) (hy : y < g0.size) :
    (simulationTick g0).cells (key x y) =
      (if g0.cells (key x y) = Cell.Alive then
        (if walkSum g0 x y < 2 ∨ walkSum g0 x y > 3 then Cell.Dead else Cell.Alive)
      else (if walkSum g0 x y = 3 then Cell.Alive else Cell.Dead)) := by
  unfold simulationTick
  exact tick_cells g0 n hn hpow hDA (List.range (g0.size * g0.size))
    (List.nodup_range _) (fun i => List.mem_range) x y hx hy

/-- Whatever duplicate-free enumeration the evaluate pass uses, the committed
grid is the same. -/
theorem tick_order_irrelevant (g0 : GameField) (n : Nat) (hn : n ≤ 12)
    (hpow : g0.size = 2 ^ n)
    (hDA : ∀ i, i < g0.size * g0.size → g0.cells i = Cell.Dead ∨ g0.cells i = Cell.Alive)
    (order : List Nat) (hnd : order.Nodup)
    (hmem : ∀ i, i ∈ order ↔ i < g0.size * g0.size) :
    ∀ i, (commitPass (evalPass order g0)).cells i = (simulationTick g0).cells i := by
  intro i
  by_cases hi : i < g0.size * g0.size
  · have hsq : g0.size * g0.size ≤ 4096 * 4096 := by
      have hsz : g0.size ≤ 4096 := by
        rw [hpow]
        calc (2:Nat) ^ n ≤ 2 ^ 12 := Nat.pow_le_pow_right (by norm_num) hn
          _ = 4096 := by norm_num
      exact Nat.mul_le_mul hsz hsz
    have hi32 : i < 2 ^ 32 := by
      have h32 : (2:Nat) ^ 32 = 4294967296 := by norm_num
      omega
    have hd := deX_lt_of_sq n i (by omega) (by rw [← hpow]; exact hi)
    rw [← hpow] at hd
    have h1 := tick_cells g0 n hn hpow hDA order hnd hmem (deX i) (deY i) hd.1 hd.2
    have h2 := simulationTick_cells g0 n hn hpow hDA (deX i) (deY i) hd.1 hd.2
    rw [key_decode i hi32] at h1 h2
    exact h1.trans h2.symm
  · rw [tick_frame g0 n hn hpow hDA order hnd hmem i (by omega)]
    unfold simulationTick
    rw [tick_frame g0 n hn hpow hDA (List.range (g0.size * g0.size))
      (List.nodup_range _) (fun j => List.mem_range) i (by omega)]

/-! Specification-side Life rule, written from the claim's words: the Moore
neighborhood on the bounded `N × N` board with off-grid neighbors counted as
dead.  This is deliberately independent of the cursor-walk material above and
is compared against it. -/

/-- Specification-side: 1 if the integer coordinate pair lies on the board
and holds an `Alive` cell, 0 otherwise (off-grid counted as dead). -/
def aliveAtZ (g : GameField) (p : Int × Int) : Nat :=
  if 0 ≤ p.1 ∧ 0 ≤ p.2 ∧ p.1 < (g.size : Int) ∧ p.2 < (g.size : Int) ∧
      g.cells (key p.1.toNat p.2.toNat) = Cell.Alive then 1 else 0

/-- Specification-side Moore neighbor count on the bounded board. -/
def stdNeighborCount (g : GameField) (x y : Nat) : Nat :=
  (([((0:Int), (-1:Int)), (-1, -1), (-1, 0), (-1, 1),
     (0, 1), (1, 1), (1, 0), (1, -1)]).map
    (fun d => aliveAtZ g ((x : Int) + d.1, (y : Int) + d.2))).sum

theorem slotBit_eq_aliveAtZ (g : GameField) (n : Nat) (hn : n ≤ 12)
    (hpow : g.size = 2 ^ n)
    (hDA : ∀ i, i < g.size * g.size → g.cells i = Cell.Dead ∨ g.cells i = Cell.Alive)
    (u v : Nat) (hu : u < 65536) (hv : v < 65536) (px py : Int)
    (hbound : (0 ≤ px ∧ 0 ≤ py ∧ px < (g.size : Int) ∧ py < (g.size : Int)) ↔
      (u < g.size ∧ v < g.size))
    (hcoord : u < g.size → v < g.size → px.toNat = u ∧ py.toNat = v) :
    slotBit g (u, v) = aliveAtZ g (px, py) := by
  by_cases hg : u < g.size ∧ v < g.size
  · obtain ⟨hc1, hc2⟩ := hcoord hg.1 hg.2
    have hk : key u v < g.size * g.size := by
      rw [hpow]
      exact key_lt_sq n u v (by omega) (by rw [← hpow]; exact hg.1)
        (by rw [← hpow]; exact hg.2)
    obtain ⟨hb1, hb2, hb3, hb4⟩ := hbound.mpr hg
    simp only [slotBit, aliveAtZ]
    rw [hc1, hc2]
    rcases hDA (key u v) hk with hD | hA
    · rw [if_pos hg, if_neg (fun hcond =>
        absurd hcond.2.2.2.2 (by rw [hD]; intro h; cases h)), hD]
      decide
    · rw [if_pos hg, if_pos ⟨hb1, hb2, hb3, hb4, hA⟩, hA]
      decide
  · simp only [slotBit, aliveAtZ]
    rw [if_neg hg, if_neg (fun hcond =>
      hg (hbound.mp ⟨hcond.1, hcond.2.1, hcond.2.2.1, hcond.2.2.2.1⟩))]

theorem stdNeighborCount_eq_walkSum (g : GameField) (n : Nat) (hn : n ≤ 12)
    (hpow : g.size = 2 ^ n)
    (hDA : ∀ i, i < g.size * g.size → g.cells i = Cell.Dead ∨ g.cells i = Cell.Alive)
    (x y : Nat) (hx : x < g.size) (hy : y < g.size) :
    stdNeighborCount g x y = walkSum g x y := by
  have hsz : g.size ≤ 4096 := by
    rw [hpow]
    calc (2:Nat) ^ n ≤ 2 ^ 12 := Nat.pow_le_pow_right (by norm_num) hn
      _ = 4096 := by norm_num
  have hx16 : x < 65536 := by omega
  have hy16 : y < 65536 := by omega
  have h1 := slotBit_eq_aliveAtZ g n hn hpow hDA x ((y + 65535) % 65536) hx16 (by omega)
    ((x : Int) + 0) ((y : Int) + (-1)) (by omega) (fun _ _ => by omega)
  have h2 := slotBit_eq_aliveAtZ g n hn hpow hDA ((x + 65535) % 65536) ((y + 65535) % 65536)
    (by omega) (by omega) ((x : Int) + (-1)) ((y : Int) + (-1)) (by omega) (fun _ _ => by omega)
  have h3 := slotBit_eq_aliveAtZ g n hn hpow hDA ((x + 65535) % 65536) y (by omega) hy16
    ((x : Int) + (-1)) ((y : Int) + 0) (by omega) (fun _ _ => by omega)
  have h4 := slotBit_eq_aliveAtZ g n hn hpow hDA ((x + 65535) % 65536) ((y + 1) % 65536)
    (by omega) (by omega) ((x : Int) + (-1)) ((y : Int) + 1) (by omega) (fun _ _ => by omega)
  have h5 := slotBit_eq_aliveAtZ g n hn hpow hDA x ((y + 1) % 65536) hx16 (by omega)
    ((x : Int) + 0) ((y : Int) + 1) (by omega) (fun _ _ => by omega)
  have h6 := slotBit_eq_aliveAtZ g n hn hpow hDA ((x + 1) % 65536) ((y + 1) % 65536)
    (by omega) (by omega) ((x : Int) + 1) ((y : Int) + 1) (by omega) (fun _ _ => by omega)
  have h7 := slotBit_eq_aliveAtZ g n hn hpow hDA ((x + 1) % 65536) y (by omega) hy16
    ((x : Int) + 1) ((y : Int) + 0) (by omega) (fun _ _ => by omega)
  have h8 := slotBit_eq_aliveAtZ g n hn hpow hDA ((x + 1) % 65536) ((y + 65535) % 65536)
    (by omega) (by omega) ((x : Int) + 1) ((y : Int) + (-1)) (by omega) (fun _ _ => by omega)
  simp only [stdNeighborCount, walkSum, nbrSlots, List.map_cons, List.map_nil,
    List.sum_cons, List.sum_nil]
  rw [h1, h2, h3, h4, h5, h6, h7, h8]

/-! The ten claims. -/

/-- A 2×2 board with `Alive` at raw indices 0, 1, 2 (the cells (0,0), (1,0)
and (0,1)); the cell (1,1) — raw index 3 — is `Dead` with three alive
neighbors. -/
def cexGrid : GameField :=
  { size := 2, cells := fun i => if i < 3 then Cell.Alive else Cell.Dead, idx := 0 }

/-- C1: for a grid whose cells are all `Dead` or `Alive` (side a power of two
at most 4096, as the constructor guarantees), one `simulationTick` makes a
cell `Alive` exactly when the standard bounded-board Life rule says so —
alive with 2 or 3 alive Moore neighbors, or dead with exactly 3, off-grid
neighbors counted as dead — and the committed grid does not depend on which
duplicate-free enumeration of the raw indices the evaluate pass uses. -/
theorem claim_C1 (g0 : GameField) (n : Nat) (hn : n ≤ 12) (hpow : g0.size = 2 ^ n)
    (hDA : ∀ i, i < g0.size * g0.size → g0.cells i = Cell.Dead ∨ g0.cells i = Cell.Alive) :
    (∀ x y, x < g0.size → y < g0.size →
      ((simulationTick g0).cells (key x y) = Cell.Alive ↔
        ((g0.cells (key x y) = Cell.Alive ∧
            (stdNeighborCount g0 x y = 2 ∨ stdNeighborCount g0 x y = 3)) ∨
          (g0.cells (key x y) = Cell.Dead ∧ stdNeighborCount g0 x y = 3)))) ∧
    (∀ order : List Nat, order.Nodup → (∀ i, i ∈ order ↔ i < g0.size * g0.size) →
      ∀ i, (commitPass (evalPass order g0)).cells i = (simulationTick g0).cells i) := by
  constructor
  · intro x y hx hy
    have hk : key x y < g0.size * g0.size := by
      rw [hpow]
      exact key_lt_sq n x y (by omega) (by rw [← hpow]; exact hx)
        (by rw [← hpow]; exact hy)
    rw [simulationTick_cells g0 n hn hpow hDA x y hx hy,
      stdNeighborCount_eq_walkSum g0 n hn hpow hDA x y hx hy]
    rcases hDA (key x y) hk with hD | hA
    · rw [if_neg (by rw [hD]; intro h; cases h)]
      by_cases hw : walkSum g0 x y = 3
      · rw [if_pos hw]
        exact ⟨fun _ => Or.inr ⟨hD, hw⟩, fun _ => rfl⟩
      · rw [if_neg hw]
        constructor
        · intro h; cases h
        · intro h
          rcases h with ⟨hA2, _⟩ | ⟨_, hw2⟩
          · rw [hD] at hA2; cases hA2
          · exact absurd hw2 hw
    · rw [if_pos hA]
      by_cases hw : walkSum g0 x y < 2 ∨ walkSum g0 x y > 3
      · rw [if_pos hw]
        constructor
        · intro h; cases h
        · intro h
          rcases h with ⟨_, hc⟩ | ⟨hD2, _⟩
          · omega
          · rw [hA] at hD2; cases hD2
      · rw [if_neg hw]
        exact ⟨fun _ => Or.inl ⟨hA, by omega⟩, fun _ => rfl⟩
  · intro order hnd hmem i
    exact tick_order_irrelevant g0 n hn hpow hDA order hnd hmem i

/-- C1 witness: on the concrete 2×2 grid, the dead corner (1,1) with three
alive neighbors obeys the Life characterization. -/
theorem claim_C1_witness :
    cexGrid.size = 2 ^ 1 ∧
    ((simulationTick cexGrid).cells (key 1 1) = Cell.Alive ↔
      ((cexGrid.cells (key 1 1) = Cell.Alive ∧
          (stdNeighborCount cexGrid 1 1 = 2 ∨ stdNeighborCount cexGrid 1 1 = 3)) ∨
        (cexGrid.cells (key 1 1) = Cell.Dead ∧ stdNeighborCount cexGrid 1 1 = 3))) :=
  ⟨rfl, (claim_C1 cexGrid 1 (by decide) rfl
    (fun i hi => by
      have h4 : i < 4 := hi
      interval_cases i <;> decide)).1 1 1 (by decide) (by decide)⟩

set_option maxRecDepth 8000 in
set_option maxHeartbeats 1600000 in
/-- C2 counterexample: on the 2×2 board with three alive cells, the dead
corner (1,1) borders three alive cells yet receives `updateCell` three times
during the evaluate pass of one tick — not exactly once.  (The first visit
makes it `Birthing`, and `Birthing &&& (Alive ||| DeadVisited) = 0`, so the
two later visits re-apply the rule instead of skipping.) -/
theorem claim_C2_counterexample :
    cexGrid.cells (key 1 1) = Cell.Dead ∧
    0 < walkSum cexGrid 1 1 ∧
    (evalPassI (List.range (cexGrid.size * cexGrid.size))
      (cexGrid, fun _ => 0)).2 (key 1 1) = 3 :=
  ⟨by decide, by decide, by decide⟩

/-- C2 as amended: during one tick, a dead cell bordering at least one alive
cell has `updateCell` applied exactly once when its alive-neighbor count is
not 3 (later visits read `DeadVisited` and skip), but exactly three times
when its count is 3 (later visits read `Birthing`, whose masked read is 0,
and re-apply the rule as a no-op). -/
theorem claim_C2_amended (g0 : GameField) (n : Nat) (hn : n ≤ 12)
    (hpow : g0.size = 2 ^ n)
    (hDA : ∀ i, i < g0.size * g0.size → g0.cells i = Cell.Dead ∨ g0.cells i = Cell.Alive)
    (order : List Nat) (hnd : order.Nodup)
    (hmem : ∀ i, i ∈ order ↔ i < g0.size * g0.size)
    (x y : Nat) (hx : x < g0.size) (hy : y < g0.size)
    (hDead : g0.cells (key x y) = Cell.Dead) (hnb : 0 < walkSum g0 x y) :
    (evalPassI order (g0, fun _ => 0)).2 (key x y) =
      (if walkSum g0 x y = 3 then 3 else 1) := by
  have h := evalPassI_complete g0 n hn hpow hDA order hnd (fun i hi => (hmem i).mp hi)
  have h2 := (h.2.1 x y hx hy).2
  rw [countsState_full g0 n hn hpow hDA order (fun j hj => (hmem j).mpr hj) x y hx hy] at h2
  rw [h2, if_neg (by rw [hDead]; intro hh; cases hh)]
  by_cases hw : walkSum g0 x y = 3
  · rw [if_pos hw, if_pos hw, hw]
  · rw [if_neg hw, if_neg hw]
    omega

/-- C2 witness: the amended count at the concrete grid's dead corner. -/
theorem claim_C2_amended_witness :
    cexGrid.cells (key 1 1) = Cell.Dead ∧
    (evalPassI (List.range 4) (cexGrid, fun _ => 0)).2 (key 1 1) =
      (if walkSum cexGrid 1 1 = 3 then 3 else 1) :=
  ⟨by decide, claim_C2_amended cexGrid 1 (by decide) rfl
    (fun i hi => by
      have h4 : i < 4 := hi
      interval_cases i <;> decide)
    (List.range 4) (List.nodup_range _) (fun i => List.mem_range)
    1 1 (by decide) (by decide) (by decide) (by decide)⟩

/-- C3: the low bit of a cell's numeric code means "was `Alive` when the tick
began" — it is 1 exactly for `Alive` and `Dying`; neither `updateCell` nor
any evaluate pass changes any cell's low bit; the commit pass is the phase
that rewrites it (e.g. on `Dying`). -/
theorem claim_C3 :
    (∀ (g : GameField) (i : Nat),
      Cell.code ((g.updateCell).cells i) &&& 1 = Cell.code (g.cells i) &&& 1) ∧
    (∀ (g : GameField) (order : List Nat) (i : Nat),
      Cell.code ((evalPass order g).cells i) &&& 1 = Cell.code (g.cells i) &&& 1) ∧
    (∀ c : Cell, Cell.code c &&& 1 = 1 ↔ (c = Cell.Alive ∨ c = Cell.Dying)) ∧
    Cell.code (commitCell Cell.Dying) &&& 1 ≠ Cell.code Cell.Dying &&& 1 := by
  refine ⟨updateCell_lowbit, fun g order i => evalPass_lowbit order g i, ?_, by decide⟩
  intro c
  cases c <;> decide

/-- A 2×2 board with three alive cells and the cursor on (1, 1). -/
def c4Grid : GameField :=
  { size := 2, cells := fun i => if i < 3 then Cell.Alive else Cell.Dead, idx := key 1 1 }

/-- C4: with the cursor on an in-grid cell, `countAliveNeighbors` returns the
cursor to its start, its N,W,S,S,E,E,N,N walk stops at 8 pairwise distinct
positions that are exactly the Moore neighbors (for in-grid stops), and the
returned count is the sum of the visited cells' was-alive low bits, off-grid
stops contributing 0 (the definition of `walkSum`). -/
theorem claim_C4 (g : GameField) (x y : Nat) (hx : x < g.size) (hy : y < g.size)
    (hN : g.size ≤ 4096) (hidx : g.idx = key x y) :
    g.countAliveNeighbors = (walkSum g x y, g) ∧
    (nbrSlots x y).Nodup ∧
    (nbrSlots x y).length = 8 ∧
    (∀ u v, u < g.size → v < g.size →
      ((u, v) ∈ nbrSlots x y ↔
        (¬(u = x ∧ v = y) ∧ (u = x ∨ u + 1 = x ∨ x + 1 = u) ∧
          (v = y ∨ v + 1 = y ∨ y + 1 = v)))) ∧
    walkSum g x y = ((nbrSlots x y).map (slotBit g)).sum :=
  ⟨countAliveNeighbors_spec g x y (by omega) (by omega) (by omega) hidx,
    nbrSlots_nodup x y (by omega) (by omega), rfl,
    fun u v hu hv => mem_nbrSlots_iff g.size x y u v hN hx hy hu hv, rfl⟩

/-- C4 witness at the concrete grid with the cursor on (1, 1). -/
theorem claim_C4_witness :
    c4Grid.countAliveNeighbors = (walkSum c4Grid 1 1, c4Grid) ∧
    (nbrSlots 1 1).Nodup :=
  ⟨(claim_C4 c4Grid 1 1 (by decide) (by decide) (by decide) rfl).1,
   (claim_C4 c4Grid 1 1 (by decide) (by decide) (by decide) rfl).2.1⟩

/-- C5: grid construction (also used by resize-on-load) throws exactly when
the requested size is not a power of two or exceeds 4096 (`2 ^ 12`); a
successful construction has every cell `Dead` and the cursor at 0; and a
failed resize-on-load returns the previous field — size, cells and cursor —
exactly as it was. -/
theorem claim_C5 (N : Nat) :
    ((∃ g, constructField N = some g) ↔ (∃ k, k ≤ 12 ∧ N = 2 ^ k)) ∧
    (∀ g, constructField N = some g →
      g.size = N ∧ g.idx = 0 ∧ ∀ i, g.cells i = Cell.Dead) ∧
    (∀ (field : GameField) (rest : List Nat), N ≠ field.size →
      constructField N = none → openFile field (N :: rest) = field) := by
  refine ⟨constructField_some_iff N, ?_, ?_⟩
  · intro g hg
    simp only [constructField] at hg
    by_cases h1 : (scanLoop 64 0 N).1 = 64 ∨ (scanLoop 64 0 N).2 ≠ 0
    · rw [if_pos h1] at hg
      exact absurd hg (by simp)
    · rw [if_neg h1] at hg
      by_cases h2 : 12 < (scanLoop 64 0 N).1
      · rw [if_pos h2] at hg
        exact absurd hg (by simp)
      · rw [if_neg h2] at hg
        rw [Option.some.injEq] at hg
        rw [← hg]
        exact ⟨rfl, rfl, fun i => rfl⟩
  · intro field rest hne hnone
    simp only [openFile]
    rw [if_pos hne, hnone]

/-- A 2×2 board with a single alive cell at the corner (0, 0) and the cursor
on it. -/
def cornerGrid : GameField :=
  { size := 2, cells := fun i => if i = 0 then Cell.Alive else Cell.Dead, idx := key 0 0 }

/-- The walk from a corner dereferences exactly the three in-grid neighbors,
in walk order; the other five stops report off-grid. -/
theorem corner_reads (g : GameField) (n : Nat) (h1 : 1 ≤ n) (hn : n ≤ 12)
    (hsz : g.size = 2 ^ n) (hidx : g.idx = key 0 0) :
    g.countAliveNeighborsReads = [key 0 1, key 1 1, key 1 0] := by
  have h4096 : g.size ≤ 4096 := by
    rw [hsz]
    calc (2:Nat) ^ n ≤ 2 ^ 12 := Nat.pow_le_pow_right (by norm_num) hn
      _ = 4096 := by norm_num
  have h2 : 2 ≤ g.size := by
    rw [hsz]
    calc (2:Nat) = 2 ^ 1 := by norm_num
      _ ≤ 2 ^ n := Nat.pow_le_pow_right (by norm_num) h1
  have hN : g.size < 65536 := by omega
  rw [countAliveNeighborsReads_spec g 0 0 (by norm_num) (by norm_num) hN hidx]
  have e1 : (0 + 65535) % 65536 = 65535 := by norm_num
  have e2 : (0 + 1) % 65536 = 1 := by norm_num
  simp only [nbrSlots, e1, e2, List.map_cons, List.map_nil, slotRead]
  rw [if_neg (show ¬(0 < g.size ∧ 65535 < g.size) by omega),
    if_neg (show ¬(65535 < g.size ∧ 65535 < g.size) by omega),
    if_neg (show ¬(65535 < g.size ∧ 0 < g.size) by omega),
    if_neg (show ¬(65535 < g.size ∧ 1 < g.size) by omega),
    if_pos (show 0 < g.size ∧ 1 < g.size by omega),
    if_pos (show 1 < g.size ∧ 1 < g.size by omega),
    if_pos (show 1 < g.size ∧ 0 < g.size by omega),
    if_neg (show ¬(1 < g.size ∧ 65535 < g.size) by omega)]
  rfl

/-- C6: on a constructor-shaped grid every index a cursor step dereferences
is inside `[0, N × N)`, whatever the cursor holds — an off-grid destination
returns the sentinel without touching the array; the walk of
`countAliveNeighbors` reads exactly the in-grid walk stops; and from a grid
corner exactly 3 neighbor reads are in-bounds while the other 5 stops report
off-grid. -/
theorem claim_C6 (g : GameField) (n : Nat) (hn : n ≤ 12) (hsz : g.size = 2 ^ n) :
    ((∀ i, g.rightRead = some i → i < g.size * g.size) ∧
     (∀ i, g.leftRead = some i → i < g.size * g.size) ∧
     (∀ i, g.upRead = some i → i < g.size * g.size) ∧
     (∀ i, g.downRead = some i → i < g.size * g.size)) ∧
    (∀ x y, x < 65536 → y < 65536 → g.idx = key x y →
      g.countAliveNeighborsReads = ((nbrSlots x y).map (slotRead g)).filterMap id ∧
      ∀ i ∈ g.countAliveNeighborsReads, i < g.size * g.size) ∧
    (1 ≤ n → g.idx = key 0 0 →
      g.countAliveNeighborsReads = [key 0 1, key 1 1, key 1 0]) := by
  have hN : g.size < 65536 := by
    have : (2:Nat) ^ n ≤ 2 ^ 12 := Nat.pow_le_pow_right (by norm_num) hn
    have h12 : (2:Nat) ^ 12 = 4096 := by norm_num
    omega
  refine ⟨reads_inbounds g n hn hsz, ?_, fun h1 hidx => corner_reads g n h1 hn hsz hidx⟩
  intro x y hx16 hy16 hidx
  have hspec := countAliveNeighborsReads_spec g x y hx16 hy16 hN hidx
  refine ⟨hspec, ?_⟩
  intro i hi
  rw [hspec, List.mem_filterMap] at hi
  obtain ⟨o, ho, hoi⟩ := hi
  rw [List.mem_map] at ho
  obtain ⟨p, _, hpo⟩ := ho
  rcases p with ⟨u, v⟩
  rw [← hpo] at hoi
  simp only [slotRead, id_eq] at hoi
  by_cases hg2 : u < g.size ∧ v < g.size
  · rw [if_pos hg2] at hoi
    rw [Option.some.injEq] at hoi
    rw [← hoi, hsz]
    exact key_lt_sq n u v (by omega) (by rw [← hsz]; exact hg2.1)
      (by rw [← hsz]; exact hg2.2)
  · rw [if_neg hg2] at hoi
    cases hoi

/-- C6 witness: the corner walk of the concrete single-alive-corner grid. -/
theorem claim_C6_witness :
    cornerGrid.countAliveNeighborsReads = [key 0 1, key 1 1, key 1 0] :=
  (claim_C6 cornerGrid 1 (by decide) rfl).2.2 (by decide) rfl

/-- C7: applying `updateCell` to a cell that already reads `Birthing`,
`Dying` or `DeadVisited` leaves the whole grid — that cell, every other
cell, the size and the cursor — unchanged. -/
theorem claim_C7 (g : GameField)
    (h : g.cells g.idx = Cell.Birthing ∨ g.cells g.idx = Cell.Dying ∨
      g.cells g.idx = Cell.DeadVisited) :
    g.updateCell = g :=
  updateCell_noop g h

/-- A 2×2 board whose every cell is `Birthing`. -/
def bGrid : GameField :=
  { size := 2, cells := fun _ => Cell.Birthing, idx := 0 }

/-- C7 witness on a concrete `Birthing` cell. -/
theorem claim_C7_witness :
    (bGrid.cells bGrid.idx = Cell.Birthing ∨ bGrid.cells bGrid.idx = Cell.Dying ∨
      bGrid.cells bGrid.idx = Cell.DeadVisited) ∧
    bGrid.updateCell = bGrid :=
  ⟨Or.inl rfl, claim_C7 bGrid (Or.inl rfl)⟩

/-- C8: from an interior cell, stepping the cursor right and then left puts
it back on its original key, and likewise down then up. -/
theorem claim_C8 (g : GameField) (m x y : Nat) (hx0 : 0 < x) (hx1 : x + 1 < g.size)
    (hy0 : 0 < y) (hy1 : y + 1 < g.size) (hN : g.size ≤ 4096)
    (hidx : g.idx = key x y) :
    ((g.right m).2.left m).2.idx = g.idx ∧
    ((g.down m).2.up m).2.idx = g.idx := by
  have hx16 : x < 65536 := by omega
  have hy16 : y < 65536 := by omega
  have hN16 : g.size < 65536 := by omega
  have er : (x + 1) % 65536 = x + 1 := by omega
  have el : (x + 1 + 65535) % 65536 = x := by omega
  have ed : (y + 1) % 65536 = y + 1 := by omega
  have eu : (y + 1 + 65535) % 65536 = y := by omega
  have h1 := right_spec g m x y hx16 hy16 hN16 hidx
  rw [er] at h1
  have h1s : (g.right m).2 = { g with idx := key (x + 1) y } := by rw [h1]
  have h2 := left_spec { g with idx := key (x + 1) y } m (x + 1) y (by omega) hy16 hN16 rfl
  rw [el] at h2
  have h2s : (({ g with idx := key (x + 1) y } : GameField).left m).2 =
      { g with idx := key x y } := by rw [h2]
  have h3 := down_spec g m x y hx16 hy16 hN16 hidx
  rw [ed] at h3
  have h3s : (g.down m).2 = { g with idx := key x (y + 1) } := by rw [h3]
  have h4 := up_spec { g with idx := key x (y + 1) } m x (y + 1) hx16 (by omega) hN16 rfl
  rw [eu] at h4
  have h4s : (({ g with idx := key x (y + 1) } : GameField).up m).2 =
      { g with idx := key x y } := by rw [h4]
  constructor
  · rw [h1s, h2s, hidx]
  · rw [h3s, h4s, hidx]

/-- A 4×4 empty board with the cursor on the interior cell (1, 1). -/
def c8Grid : GameField :=
  { size := 4, cells := fun _ => Cell.Dead, idx := key 1 1 }

/-- C8 witness at the concrete interior cell. -/
theorem claim_C8_witness :
    ((c8Grid.right 1).2.left 1).2.idx = c8Grid.idx ∧
    ((c8Grid.down 1).2.up 1).2.idx = c8Grid.idx :=
  claim_C8 c8Grid 1 1 1 (by decide) (by decide) (by decide) (by decide) (by decide) rfl

/-- C9: saving a Dead/Alive grid (the size word followed by the raw indices
of the `Alive` cells) and loading that snapshot back into the same-size grid
reproduces exactly the same `Alive` set, every other in-grid cell `Dead`. -/
theorem claim_C9 (g : GameField) (n : Nat) (hn : n ≤ 12) (hpow : g.size = 2 ^ n)
    (hDA : ∀ i, i < g.size * g.size → g.cells i = Cell.Dead ∨ g.cells i = Cell.Alive) :
    (openFile g (saveFile g)).size = g.size ∧
    (∀ j, j < g.size * g.size →
      ((openFile g (saveFile g)).cells j = Cell.Alive ↔ g.cells j = Cell.Alive) ∧
      ((openFile g (saveFile g)).cells j = Cell.Alive ∨
        (openFile g (saveFile g)).cells j = Cell.Dead)) := by
  have hopen : openFile g (saveFile g) =
      (g.clear).setAlive
        ((List.range (g.size * g.size)).filter (fun i => g.cells i == Cell.Alive)) := by
    simp only [saveFile, openFile]
    rw [if_neg (fun h => h rfl)]
  constructor
  · rw [hopen, setAlive_size, clear_size]
  · intro j hj
    have hmemiff :
        (j ∈ (List.range (g.size * g.size)).filter (fun i => g.cells i == Cell.Alive)) ↔
        g.cells j = Cell.Alive := by
      rw [List.mem_filter, List.mem_range]
      constructor
      · intro h
        exact beq_iff_eq.mp h.2
      · intro h
        exact ⟨hj, beq_iff_eq.mpr h⟩
    rw [hopen, setAlive_cells, clear_size, clear_cells]
    by_cases hA : g.cells j = Cell.Alive
    · rw [if_pos ⟨hmemiff.mpr hA, hj⟩]
      exact ⟨⟨fun _ => hA, fun _ => rfl⟩, Or.inl rfl⟩
    · rw [if_neg (fun hc => hA (hmemiff.mp hc.1)), if_pos hj]
      constructor
      · constructor
        · intro h; cases h
        · intro h; exact absurd h hA
      · exact Or.inr rfl

/-- C9 witness: round trip of the concrete three-alive grid. -/
theorem claim_C9_witness :
    (openFile cexGrid (saveFile cexGrid)).size = cexGrid.size ∧
    ((openFile cexGrid (saveFile cexGrid)).cells 3 = Cell.Alive ↔
      cexGrid.cells 3 = Cell.Alive) :=
  ⟨(claim_C9 cexGrid 1 (by decide) rfl
      (fun i hi => by
        have h4 : i < 4 := hi
        interval_cases i <;> decide)).1,
   ((claim_C9 cexGrid 1 (by decide) rfl
      (fun i hi => by
        have h4 : i < 4 := hi
        interval_cases i <;> decide)).2 3 (by decide)).1⟩

/-- C10: `setCursor` at an out-of-range coordinate returns the `DeadVisited`
sentinel and leaves the cursor and every cell exactly as they were. -/
theorem claim_C10 (g : GameField) (x y : Nat) (h : g.size ≤ x ∨ g.size ≤ y) :
    (g.setCursor x y).1 = Cell.DeadVisited ∧
    (g.setCursor x y).2.idx = g.idx ∧
    (∀ i, (g.setCursor x y).2.cells i = g.cells i) ∧
    (g.setCursor x y).2 = g := by
  have hs : g.setCursor x y = (Cell.DeadVisited, g) := by
    unfold GameField.setCursor
    rw [if_pos h]
  rw [hs]
  exact ⟨rfl, rfl, fun i => rfl, rfl⟩

/-- C10 witness at a concrete out-of-range request. -/
theorem claim_C10_witness :
    (cexGrid.size ≤ 5 ∨ cexGrid.size ≤ 0) ∧
    (cexGrid.setCursor 5 0).1 = Cell.DeadVisited ∧
    (cexGrid.setCursor 5 0).2 = cexGrid :=
  ⟨Or.inl (by decide), (claim_C10 cexGrid 5 0 (Or.inl (by decide))).1,
    (claim_C10 cexGrid 5 0 (Or.inl (by decide))).2.2.2⟩

end GoL
